import Mathlib

/-!
# Verification of the Kuhn–Munkres assignment solver (munkres-rs)

Shallow embedding of the repository's solver:

* `src/lib.rs` — the six-step Hungarian state machine (`step1` … `step6`,
  `solve_assignment`);
* `src/weight_matrix.rs` — the dense cost matrix (`WeightMatrix`) with its
  validity-guarded reductions;
* `src/weight_num.rs` — the numeric contract (`is_zero`, `is_valid`);
* `src/coverage.rs` — the row/column coverage tracker;
* `src/mark_matrix.rs` — star/prime bookkeeping (and, for the
  refinement claim, the two concrete backings `MarkMatrixByteArray`
  and `MarkMatrixBitArray`).

Numeric model: the crate instantiates `WeightNum` at integer types (always
valid) and at IEEE floats, where `is_valid` means "finite" and the
conventional disallowed value is `+∞`.  We model the element type by `FVal`:
an exact integer (`fin`), `pinf` (+∞), `ninf` (−∞) or `nan`, with the IEEE
comparison and arithmetic rules on that subset (finite arithmetic is exact:
the integer instances are exactly faithful, and the float instances are
taken at integral inputs, where their arithmetic is exact — the algorithm
is uniform in the ordered set of finite values).  Mutable structures are modelled by explicit state
passing; `Vec`/bit-set storage by `List`s indexed exactly as the source
(row-major `row * n + column`); panics (failed `assert!`/`unwrap`) by a
`panic` outcome and the unbounded loops by fuel, where exhausted fuel maps
to a `diverge` outcome.
-/

namespace Munkres

/-- IEEE-style weight values: exact finite integers plus `+∞`, `−∞`, `NaN`.
Models the `WeightNum` instances of `weight_num.rs`. -/
inductive FVal where
  | fin (z : ℤ)
  | pinf
  | ninf
  | nan
deriving DecidableEq, Repr

namespace FVal

/-- Rust `<` on the numeric type (IEEE partial order: any comparison with
NaN is false; `−∞ < finite < +∞`). -/
def lt : FVal → FVal → Bool
  | fin a, fin b => a < b
  | fin _, pinf => true
  | ninf, fin _ => true
  | ninf, pinf => true
  | _, _ => false

/-- IEEE addition restricted to our subset (`∞ + ∞ = ∞`, `∞ + (−∞) = NaN`,
anything with NaN is NaN); finite addition is exact. -/
def add : FVal → FVal → FVal
  | fin a, fin b => fin (a + b)
  | fin _, pinf => pinf
  | pinf, fin _ => pinf
  | pinf, pinf => pinf
  | fin _, ninf => ninf
  | ninf, fin _ => ninf
  | ninf, ninf => ninf
  | _, _ => nan

/-- IEEE subtraction restricted to our subset. -/
def sub : FVal → FVal → FVal
  | fin a, fin b => fin (a - b)
  | fin _, pinf => ninf
  | pinf, fin _ => pinf
  | pinf, ninf => pinf
  | fin _, ninf => pinf
  | ninf, fin _ => ninf
  | ninf, pinf => ninf
  | _, _ => nan

/-- `WeightNum::is_zero`: exact comparison with zero. -/
def isZero : FVal → Bool
  | fin q => q = 0
  | _ => false

/-- `WeightNum::is_valid`: true for integer instances, `is_finite` for
floats; on our value type, exactly the finite values. -/
def isValid : FVal → Bool
  | fin _ => true
  | _ => false

/-- The integer carried by a finite value (`0` for non-finite ones);
used only to state cost sums over cells already known to be valid. -/
def toZ : FVal → ℤ
  | fin z => z
  | _ => 0

end FVal

/-- `Position` (`src/position.rs` usage in the sources): a (row, column)
index pair. -/
structure Position where
  row : Nat
  column : Nat
deriving DecidableEq, Repr

/-- Map a list together with the running index (used to model in-place
updates of row-major storage). -/
def mapWithIndex (f : Nat → α → α) : Nat → List α → List α
  | _, [] => []
  | i, v :: vs => f i v :: mapWithIndex f (i + 1) vs

theorem mapWithIndex_length (f : Nat → α → α) :
    ∀ (l : List α) (start : Nat), (mapWithIndex f start l).length = l.length := by
  intro l
  induction l with
  | nil => intro start; rfl
  | cons v vs ih => intro start; simp [mapWithIndex, ih]

theorem mapWithIndex_getD (f : Nat → α → α) (d : α) :
    ∀ (l : List α) (start i : Nat),
      (mapWithIndex f start l).getD i d =
        if i < l.length then f (start + i) (l.getD i d) else d := by
  intro l
  induction l with
  | nil => intro start i; simp [mapWithIndex]
  | cons v vs ih =>
    intro start i
    cases i with
    | zero => simp [mapWithIndex]
    | succ j =>
      simp only [mapWithIndex, List.getD_cons_succ, ih (start + 1) j,
        List.length_cons]
      have h1 : start + 1 + j = start + (j + 1) := by omega
      rw [h1]
      by_cases h : j < vs.length
      · rw [if_pos h, if_pos (by omega)]
      · rw [if_neg h, if_neg (by omega)]

/-- `WeightMatrix<T>` (`weight_matrix.rs`): an `n×n` matrix stored
row-major (cell `(r, c)` at linear index `r * n + c`, as in
`ndarray`/`SquareMatrix`). -/
structure WeightMatrix where
  n : Nat
  data : List FVal
deriving DecidableEq, Repr

namespace WeightMatrix

/-- `Weights::element_at` (reads are always in range in the engine; the
default for an out-of-range read is irrelevant to the claims). -/
def element_at (m : WeightMatrix) (pos : Position) : FVal :=
  m.data.getD (pos.row * m.n + pos.column) .nan

/-- `Weights::is_element_zero`. -/
def is_element_zero (m : WeightMatrix) (pos : Position) : Bool :=
  (m.element_at pos).isZero

/-- `ndarray` row view of row `row` (the slice `row*n .. row*n+n`). -/
def row_slice (m : WeightMatrix) (row : Nat) : List FVal :=
  (List.range m.n).map (fun c => m.element_at ⟨row, c⟩)

/-- `WeightMatrix::min_of_row`: seeds with `row_slice[0]` (regardless of
validity!) and then takes each later element when it is valid and strictly
smaller. -/
def min_of_row (m : WeightMatrix) (row : Nat) : FVal :=
  ((m.row_slice row).tail).foldl
    (fun min val => if val.isValid && val.lt min then val else min)
    ((m.row_slice row).headD .nan)

/-- In-place map over row `row` (`row_mut(row).mapv_inplace`): linear
indices `i` with `i / n = row`. -/
def map_row (m : WeightMatrix) (row : Nat) (f : FVal → FVal) : WeightMatrix :=
  { m with data := mapWithIndex (fun i v => if i / m.n = row then f v else v) 0 m.data }

/-- In-place map over column `col` (`column_mut(col).mapv_inplace`):
linear indices `i` with `i % n = col`. -/
def map_col (m : WeightMatrix) (col : Nat) (f : FVal → FVal) : WeightMatrix :=
  { m with data := mapWithIndex (fun i v => if i % m.n = col then f v else v) 0 m.data }

/-- `WeightMatrix::sub_row`: subtract `val` from every valid element of the
row; invalid elements are untouched. -/
def sub_row (m : WeightMatrix) (row : Nat) (val : FVal) : WeightMatrix :=
  m.map_row row (fun cur => if cur.isValid then cur.sub val else cur)

/-- `Weights::add_row` for `WeightMatrix`. -/
def add_row (m : WeightMatrix) (row : Nat) (val : FVal) : WeightMatrix :=
  m.map_row row (fun cur => if cur.isValid then cur.add val else cur)

/-- `Weights::sub_column` for `WeightMatrix`. -/
def sub_column (m : WeightMatrix) (col : Nat) (val : FVal) : WeightMatrix :=
  m.map_col col (fun cur => if cur.isValid then cur.sub val else cur)

/-- `Weights::sub_min_of_each_row`: row by row, subtract `min_of_row`. -/
def sub_min_of_each_row (m : WeightMatrix) : WeightMatrix :=
  (List.range m.n).foldl (fun mm row => mm.sub_row row (mm.min_of_row row)) m

/-- `Weights::is_solvable`: every row has at least one valid element. -/
def is_solvable (m : WeightMatrix) : Bool :=
  (List.range m.n).all (fun row =>
    !((List.range m.n).all (fun c => !(m.element_at ⟨row, c⟩).isValid)))

/-- `WeightMatrix::from_row_vec`: `Array2::from_shape_vec((n, n), data)`
succeeds exactly when `data.len() == n*n`; the `.unwrap()` turns the
mismatch case into a panic (modelled by `none`). -/
def from_row_vec (n : Nat) (data : List FVal) : Option WeightMatrix :=
  if data.length = n * n then some ⟨n, data⟩ else none

end WeightMatrix

/-- `Coverage` (`coverage.rs`): a bit is set iff the row/column is
*uncovered*; queries on out-of-range indices see an unset bit
(`FixedBitSet::contains` is false out of range). -/
structure Coverage where
  n : Nat
  uncovered_rows : List Bool
  uncovered_columns : List Bool
deriving DecidableEq, Repr

namespace Coverage

/-- `Coverage::new(n)` (after its `assert!(n > 0)`, handled at the call
site): all rows and columns uncovered. -/
def new (n : Nat) : Coverage :=
  ⟨n, List.replicate n true, List.replicate n true⟩

def is_row_covered (cov : Coverage) (row : Nat) : Bool :=
  !(cov.uncovered_rows.getD row false)

def is_column_covered (cov : Coverage) (col : Nat) : Bool :=
  !(cov.uncovered_columns.getD col false)

def cover_row (cov : Coverage) (row : Nat) : Coverage :=
  { cov with uncovered_rows :=
      mapWithIndex (fun i v => if i = row then false else v) 0 cov.uncovered_rows }

def cover_column (cov : Coverage) (col : Nat) : Coverage :=
  { cov with uncovered_columns :=
      mapWithIndex (fun i v => if i = col then false else v) 0 cov.uncovered_columns }

def uncover_column (cov : Coverage) (col : Nat) : Coverage :=
  { cov with uncovered_columns :=
      mapWithIndex (fun i v => if i = col then true else v) 0 cov.uncovered_columns }

def cover (cov : Coverage) (pos : Position) : Coverage :=
  (cov.cover_row pos.row).cover_column pos.column

/-- `Coverage::clear`: reset both sets to all-uncovered. -/
def clear (cov : Coverage) : Coverage :=
  { cov with uncovered_rows := List.replicate cov.n true,
             uncovered_columns := List.replicate cov.n true }

/-- `FixedBitSet::ones()` over the uncovered-columns set: ascending set
bits. -/
def column_ones (cov : Coverage) : List Nat :=
  (List.range cov.n).filter (fun c => cov.uncovered_columns.getD c false)

/-- `FixedBitSet::ones()` over the uncovered-rows set. -/
def row_ones (cov : Coverage) : List Nat :=
  (List.range cov.n).filter (fun r => cov.uncovered_rows.getD r false)

/-- `Coverage::find_uncovered_cell_column_row_order`: columns in the outer
loop, rows in the inner loop, first uncovered cell satisfying `f`. -/
def find_uncovered_cell_column_row_order (cov : Coverage) (f : Position → Bool) :
    Option Position :=
  cov.column_ones.findSome? (fun column =>
    cov.row_ones.findSome? (fun row =>
      let pos : Position := ⟨row, column⟩
      if f pos then some pos else none))

/-- The uncovered positions in row-major order — the visiting order of
`Coverage::iter_uncovered_row_column`. -/
def uncovered_list (cov : Coverage) : List Position :=
  ((List.range cov.n).filter (fun r => !(cov.is_row_covered r))).flatMap
    (fun row => ((List.range cov.n).filter (fun c => !(cov.is_column_covered c))).map
      (fun column => (⟨row, column⟩ : Position)))

end Coverage

/-- A mark (`mark_matrix.rs`): per-cell tri-state tag. -/
inductive Mark where
  | none
  | star
  | prime
deriving DecidableEq, Repr

/-- The engine's mark matrix: an `n×n` grid of `Mark`s, stored row-major
(this is exactly the `MarkMatrixByteArray` backing; out-of-range reads are
irrelevant to the engine, which stays in range). -/
structure MarkMatrix where
  n : Nat
  marks : List Mark
deriving DecidableEq, Repr

namespace MarkMatrix

/-- `MarkMatrix::new(n)`: every cell tagged `None`. -/
def new (n : Nat) : MarkMatrix :=
  ⟨n, List.replicate (n * n) .none⟩

def get_mark (mk : MarkMatrix) (pos : Position) : Mark :=
  mk.marks.getD (pos.row * mk.n + pos.column) .none

def set_mark (mk : MarkMatrix) (pos : Position) (m : Mark) : MarkMatrix :=
  { mk with marks :=
      mapWithIndex (fun i v => if i = pos.row * mk.n + pos.column then m else v) 0 mk.marks }

def star (mk : MarkMatrix) (pos : Position) : MarkMatrix := mk.set_mark pos .star

def prime (mk : MarkMatrix) (pos : Position) : MarkMatrix := mk.set_mark pos .prime

def unmark (mk : MarkMatrix) (pos : Position) : MarkMatrix := mk.set_mark pos .none

def is_star (mk : MarkMatrix) (pos : Position) : Bool :=
  mk.get_mark pos = .star

def is_prime (mk : MarkMatrix) (pos : Position) : Bool :=
  mk.get_mark pos = .prime

/-- `MarkMatrix::toggle_star`. -/
def toggle_star (mk : MarkMatrix) (pos : Position) : MarkMatrix :=
  if mk.is_star pos then mk.unmark pos else mk.star pos

def find_first_star_in_row (mk : MarkMatrix) (row : Nat) : Option Nat :=
  (List.range mk.n).find? (fun column => mk.is_star ⟨row, column⟩)

def find_first_prime_in_row (mk : MarkMatrix) (row : Nat) : Option Nat :=
  (List.range mk.n).find? (fun column => mk.is_prime ⟨row, column⟩)

def find_first_star_in_column (mk : MarkMatrix) (column : Nat) : Option Nat :=
  (List.range mk.n).find? (fun row => mk.is_star ⟨row, column⟩)

/-- The starred positions, row-major — the visiting order of
`MarkMatrix::each_star` and of the final matching extraction. -/
def star_list (n : Nat) (mk : MarkMatrix) : List Position :=
  (List.range n).flatMap (fun row =>
    ((List.range n).filter (fun column => mk.is_star ⟨row, column⟩)).map
      (fun column => (⟨row, column⟩ : Position)))

/-- `MarkMatrix::clear_primes`: the row/column double loop unmarks every
primed cell; on the row-major storage of length `n*n` that is a pointwise
map over the whole backing list. -/
def clear_primes (mk : MarkMatrix) : MarkMatrix :=
  { mk with marks := mk.marks.map (fun m => if m = .prime then .none else m) }

end MarkMatrix

/-- The solver state tags (`enum Step` in `lib.rs`). -/
inductive Step where
  | step1
  | step2
  | step3
  | step4 (count : Option Nat)
  | step5 (z0r z0c : Nat)
  | step6
  | failure (e : String)
  | done
deriving DecidableEq, Repr

/-- `fn step1`: subtract each row's minimum, go to Step 2. -/
def step1 (c : WeightMatrix) : WeightMatrix × Step :=
  (c.sub_min_of_each_row, .step2)

/-- The inner (column) loop of `Coverage::iter_uncovered_row_column_and_cover`:
skip covered columns; when `f` returns true, cover the cell's row and
column and break out of the row. The closure state `σ` models the `FnMut`
environment (the mark matrix in Step 2). -/
def iterCoverInner (f : σ → Position → σ × Bool) (row : Nat) :
    Coverage → σ → List Nat → σ × Coverage
  | cov, s, [] => (s, cov)
  | cov, s, column :: cols =>
    if cov.is_column_covered column then iterCoverInner f row cov s cols
    else
      match f s ⟨row, column⟩ with
      | (s', true) => (s', cov.cover ⟨row, column⟩)
      | (s', false) => iterCoverInner f row cov s' cols

/-- The outer (row) loop of `Coverage::iter_uncovered_row_column_and_cover`. -/
def iterCoverOuter (f : σ → Position → σ × Bool) :
    Coverage → σ → List Nat → σ × Coverage
  | cov, s, [] => (s, cov)
  | cov, s, row :: rows =>
    if cov.is_row_covered row then iterCoverOuter f cov s rows
    else
      match iterCoverInner f row cov s (List.range cov.n) with
      | (s', cov') => iterCoverOuter f cov' s' rows

/-- `Coverage::iter_uncovered_row_column_and_cover`. -/
def Coverage.iter_uncovered_row_column_and_cover (cov : Coverage) (s : σ)
    (f : σ → Position → σ × Bool) : σ × Coverage :=
  iterCoverOuter f cov s (List.range cov.n)

/-- `fn step2`: star the first uncovered zero of each row (covering its row
and column while scanning), then clear all covers, go to Step 3. -/
def step2 (c : WeightMatrix) (marks : MarkMatrix) (cov : Coverage) :
    MarkMatrix × Coverage × Step :=
  let (marks', cov') := cov.iter_uncovered_row_column_and_cover marks
    (fun mk pos => if c.is_element_zero pos then (mk.star pos, true) else (mk, false))
  (marks', cov'.clear, .step3)

/-- `fn step3`: cover the column of every starred cell, counting stars; done
when the count reaches `n`. -/
def step3 (c : WeightMatrix) (marks : MarkMatrix) (cov : Coverage) :
    Coverage × Step :=
  let stars := MarkMatrix.star_list marks.n marks
  let cov' := stars.foldl (fun cv p => cv.cover_column p.column) cov
  if stars.length ≥ c.n then (cov', .done) else (cov', .step4 (some stars.length))

/-- The `loop` of `fn step4`, fuelled: each non-returning iteration covers a
previously uncovered row, so `n + 1` units of fuel always suffice;
`none` would mean exhaustion. -/
def step4Go (c : WeightMatrix) : Nat → MarkMatrix → Coverage →
    Option (MarkMatrix × Coverage × Step)
  | 0, _, _ => .none
  | fuel + 1, marks, cov =>
    match cov.find_uncovered_cell_column_row_order (fun pos => c.is_element_zero pos) with
    | .none => some (marks, cov, .step6)
    | .some pos =>
      let marks' := marks.prime pos
      match marks'.find_first_star_in_row pos.row with
      | .some starCol =>
          step4Go c fuel marks' ((cov.cover_row pos.row).uncover_column starCol)
      | .none => some (marks', cov, .step5 pos.row pos.column)

/-- `fn step4`: find uncovered zeros and prime them; on a zero in a starless
row go to Step 5, when no uncovered zero remains go to Step 6. -/
def step4 (c : WeightMatrix) (marks : MarkMatrix) (cov : Coverage) :
    Option (MarkMatrix × Coverage × Step) :=
  step4Go c (cov.n + 1) marks cov

/-- The `loop` of `fn step5`, fuelled. The loop state is the previous
column; since the next column is a function of the current one over a
static mark matrix, either the loop exits within `n + 1` iterations or the
column sequence cycles and the Rust loop never exits (`none`). The inner
`some .none` is the `Failure("no prime in row")` exit; `some (some path)`
the completed path. -/
def step5Go (marks : MarkMatrix) : Nat → Nat → List Position →
    Option (Option (List Position))
  | 0, _, _ => .none
  | fuel + 1, prevCol, path =>
    match marks.find_first_star_in_column prevCol with
    | .some row =>
      match marks.find_first_prime_in_row row with
      | .some col => step5Go marks fuel col (path ++ [⟨row, prevCol⟩, ⟨row, col⟩])
      | .none => some .none
    | .none => some (some path)

/-- `fn step5`: build the alternating path from `z0`, toggle the star state
of every position on it, clear covers and primes, return to Step 3. -/
def step5 (marks : MarkMatrix) (cov : Coverage) (z0 : Position) :
    Option (MarkMatrix × Coverage × Step) :=
  match step5Go marks (marks.n + 1) z0.column [z0] with
  | .none => .none
  | .some .none => some (marks, cov, .failure "no prime in row")
  | .some (.some path) =>
    let marks' := path.foldl (fun mk pos => mk.toggle_star pos) marks
    some (marks'.clear_primes, cov.clear, .step3)

/-- The minimum fold of `fn step6` over the uncovered cells in row-major
order (`min = Some(if m < elm { m } else { elm })`), with no validity
filter. -/
def step6Min (c : WeightMatrix) (cov : Coverage) : Option FVal :=
  cov.uncovered_list.foldl
    (fun min pos =>
      let elm := c.element_at pos
      match min with
      | .some m => some (if m.lt elm then m else elm)
      | .none => some elm)
    .none

/-- `fn step6`: add the minimum uncovered value to every covered row, then
subtract it from every uncovered column; `min.unwrap()` panics (`none`)
when there is no uncovered cell at all. -/
def step6 (c : WeightMatrix) (cov : Coverage) : Option (WeightMatrix × Step) :=
  match step6Min c cov with
  | .none => .none
  | .some minval =>
    let c1 := (List.range c.n).foldl
      (fun cc row => if cov.is_row_covered row then cc.add_row row minval else cc) c
    let c2 := (List.range c.n).foldl
      (fun cc col => if !(cov.is_column_covered col) then cc.sub_column col minval else cc) c1
    some (c2, .step4 .none)

/-- The machine state threaded by the `loop` in `solve_assignment`. -/
structure MState where
  step : Step
  c : WeightMatrix
  marks : MarkMatrix
  cov : Coverage
deriving DecidableEq, Repr

/-- Result of a `solve_assignment` call: `ok`/`err` are the `Result` of the
source, `panic` a failed `assert!`/`unwrap()`, `diverge` an infinite loop
(exhausted fuel). -/
inductive Outcome where
  | ok (matching : List Position)
  | err (e : String)
  | panic
  | diverge
deriving DecidableEq, Repr

/-- One dispatch of the `match step` in `solve_assignment`'s loop:
either a next state or a terminal outcome.  The `done` branch performs the
final extraction (row-major collection of starred cells) and its
`assert!(matching.len() == n)`. -/
def stepOnce (s : MState) : MState ⊕ Outcome :=
  match s.step with
  | .step1 =>
    let (c', st) := step1 s.c
    .inl ⟨st, c', s.marks, s.cov⟩
  | .step2 =>
    let (mk, cv, st) := step2 s.c s.marks s.cov
    .inl ⟨st, s.c, mk, cv⟩
  | .step3 =>
    let (cv, st) := step3 s.c s.marks s.cov
    .inl ⟨st, s.c, s.marks, cv⟩
  | .step4 _ =>
    match step4 s.c s.marks s.cov with
    | .none => .inr .diverge
    | .some (mk, cv, st) => .inl ⟨st, s.c, mk, cv⟩
  | .step5 z0r z0c =>
    match step5 s.marks s.cov ⟨z0r, z0c⟩ with
    | .none => .inr .diverge
    | .some (mk, cv, st) => .inl ⟨st, s.c, mk, cv⟩
  | .step6 =>
    match step6 s.c s.cov with
    | .none => .inr .panic
    | .some (c', st) => .inl ⟨st, c', s.marks, s.cov⟩
  | .failure e => .inr (.err e)
  | .done =>
    let matching := MarkMatrix.star_list s.c.n s.marks
    if matching.length = s.c.n then .inr (.ok matching) else .inr .panic

/-- The driving `loop` of `solve_assignment`, fuelled. -/
def solveLoop : Nat → MState → Outcome × WeightMatrix
  | 0, s => (.diverge, s.c)
  | fuel + 1, s =>
    match stepOnce s with
    | .inr o => (o, s.c)
    | .inl s' => solveLoop fuel s'

/-- `pub fn solve_assignment`: the solvability precheck, the `n > 0`
assertion of `Coverage::new`, then the state machine from `Step1`.
Returns the outcome together with the final state of the (mutably
borrowed) cost matrix. -/
def solve_assignment (fuel : Nat) (weights : WeightMatrix) :
    Outcome × WeightMatrix :=
  if !weights.is_solvable then (.err "Matrix can not be solved", weights)
  else if weights.n = 0 then (.panic, weights)
  else solveLoop fuel ⟨.step1, weights, MarkMatrix.new weights.n, Coverage.new weights.n⟩

/-! ## The two mark-matrix backings (`mark_matrix.rs`) -/

/-- `fixedbitset::FixedBitSet`: a bit set with a fixed number of bits.
`contains` reports out-of-bounds bits as unset; `set` panics (`none`) on an
out-of-bounds bit. -/
structure FixedBitSet where
  length : Nat
  bits : List Bool
deriving DecidableEq, Repr

namespace FixedBitSet

def with_capacity (n : Nat) : FixedBitSet :=
  ⟨n, List.replicate n false⟩

def contains (s : FixedBitSet) (bit : Nat) : Bool :=
  s.bits.getD bit false

def set (s : FixedBitSet) (bit : Nat) (enabled : Bool) : Option FixedBitSet :=
  if bit < s.length then
    some { s with bits := mapWithIndex (fun i v => if i = bit then enabled else v) 0 s.bits }
  else
    none

end FixedBitSet

/-- `MarkMatrixByteArray`: a flat `n×n` tag array (`SquareMatrix<Mark>`),
cell `(r, c)` at linear index `r * n + c`. -/
structure MarkMatrixByteArray where
  n : Nat
  marks : List Mark
deriving DecidableEq, Repr

namespace MarkMatrixByteArray

def new (n : Nat) : MarkMatrixByteArray :=
  ⟨n, List.replicate (n * n) .none⟩

def get_mark (mk : MarkMatrixByteArray) (pos : Position) : Mark :=
  mk.marks.getD (pos.row * mk.n + pos.column) .none

def set_mark (mk : MarkMatrixByteArray) (pos : Position) (m : Mark) : MarkMatrixByteArray :=
  { mk with marks :=
      mapWithIndex (fun i v => if i = pos.row * mk.n + pos.column then m else v) 0 mk.marks }

end MarkMatrixByteArray

/-- `MarkMatrixBitArray`: two parallel bit sets for stars and primes, indexed
by `row * n + column`.  NOTE: `new` allocates `FixedBitSet::with_capacity(n)`
— capacity `n`, although the used index space is `n * n`. -/
structure MarkMatrixBitArray where
  n : Nat
  stars : FixedBitSet
  primes : FixedBitSet
deriving DecidableEq, Repr

namespace MarkMatrixBitArray

def new (n : Nat) : MarkMatrixBitArray :=
  ⟨n, .with_capacity n, .with_capacity n⟩

def get_mark (mk : MarkMatrixBitArray) (pos : Position) : Mark :=
  let index := pos.row * mk.n + pos.column
  if mk.stars.contains index then .star
  else if mk.primes.contains index then .prime
  else .none

/-- `set_mark` writes both bit sets with `FixedBitSet::set`, which panics
(`none`) when `row * n + column` exceeds the allocated capacity. -/
def set_mark (mk : MarkMatrixBitArray) (pos : Position) (m : Mark) :
    Option MarkMatrixBitArray :=
  let index := pos.row * mk.n + pos.column
  let isStar : Bool := m = .star
  let isPrime : Bool := m = .prime
  match mk.stars.set index isStar with
  | .none => .none
  | .some s =>
    match mk.primes.set index isPrime with
    | .none => .none
    | .some p => some ⟨mk.n, s, p⟩

end MarkMatrixBitArray

/-! ## C10 — `from_row_vec` construction -/

/-- C10: `WeightMatrix::from_row_vec(n, data)` succeeds exactly when
`data.len() == n*n`, yielding a matrix whose `element_at (r, c)` is
`data[r*n + c]`; any other data length panics (`none`) rather than
truncating or padding. -/
theorem C10_from_row_vec_exact (n : Nat) (data : List FVal) :
    ((WeightMatrix.from_row_vec n data).isSome ↔ data.length = n * n) ∧
    (∀ m : WeightMatrix, WeightMatrix.from_row_vec n data = some m →
      ∀ r c : Nat, r < n → c < n →
        m.element_at ⟨r, c⟩ = data.getD (r * n + c) FVal.nan) ∧
    (data.length ≠ n * n → WeightMatrix.from_row_vec n data = none) := by
  refine ⟨?_, ?_, ?_⟩
  · unfold WeightMatrix.from_row_vec
    by_cases h : data.length = n * n <;> simp [h]
  · intro m hm r c _ _
    unfold WeightMatrix.from_row_vec at hm
    by_cases h : data.length = n * n
    · rw [if_pos h] at hm
      cases hm
      rfl
    · rw [if_neg h] at hm
      cases hm
  · intro h
    unfold WeightMatrix.from_row_vec
    rw [if_neg h]

/-- Witness for C10 at `n = 2`, `data = [1, 2, 3, 4]`. -/
theorem C10_from_row_vec_exact_witness :
    (WeightMatrix.from_row_vec 2 [.fin 1, .fin 2, .fin 3, .fin 4]).isSome ∧
    WeightMatrix.element_at ⟨2, [.fin 1, .fin 2, .fin 3, .fin 4]⟩ ⟨1, 0⟩ = .fin 3 := by
  refine ⟨(C10_from_row_vec_exact 2 [.fin 1, .fin 2, .fin 3, .fin 4]).1.mpr (by decide), ?_⟩
  have h := (C10_from_row_vec_exact 2 [.fin 1, .fin 2, .fin 3, .fin 4]).2.1
    ⟨2, [.fin 1, .fin 2, .fin 3, .fin 4]⟩ rfl 1 0 (by decide) (by decide)
  simpa using h

/-! ## C9 — the two backings are NOT observationally equivalent -/

/-- C9 (code bug): with `n = 2`, a `set_mark` at `(1, 1)` — index
`1 * 2 + 1 = 3` — panics on `MarkMatrixBitArray` (whose bit sets were
allocated with capacity `n = 2` instead of `n * n`), while it succeeds on
`MarkMatrixByteArray`; before any write, both report the same `get_mark`. -/
theorem C9_bit_array_capacity_bug :
    MarkMatrixBitArray.set_mark (MarkMatrixBitArray.new 2) ⟨1, 1⟩ .star = none ∧
    MarkMatrixByteArray.get_mark
      (MarkMatrixByteArray.set_mark (MarkMatrixByteArray.new 2) ⟨1, 1⟩ .star) ⟨1, 1⟩
      = .star ∧
    MarkMatrixBitArray.get_mark (MarkMatrixBitArray.new 2) ⟨1, 1⟩ =
      MarkMatrixByteArray.get_mark (MarkMatrixByteArray.new 2) ⟨1, 1⟩ := by
  decide

/-! ## C4 — all-invalid row fails up front, matrix untouched -/

/-- C4: if some row of the input consists entirely of invalid cells,
`solve_assignment` returns the `MatrixNotSolvable` error (the Rust
`Err("Matrix can not be solved")`) from the `is_solvable` precheck, before
any reduction: the returned matrix state is exactly the input. -/
theorem C4_unsolvable_row_fails_before_reduction (fuel : Nat) (m : WeightMatrix)
    (r : Nat) (hr : r < m.n)
    (hrow : ∀ c, c < m.n → (m.element_at ⟨r, c⟩).isValid = false) :
    solve_assignment fuel m = (.err "Matrix can not be solved", m) := by
  have hsol : m.is_solvable = false := by
    unfold WeightMatrix.is_solvable
    rw [List.all_eq_false]
    refine ⟨r, List.mem_range.mpr hr, ?_⟩
    simp only [Bool.not_eq_true', Bool.not_eq_false]
    rw [List.all_eq_true]
    intro c hc
    simp [hrow c (List.mem_range.mp hc)]
  unfold solve_assignment
  rw [hsol]
  rfl

/-- Witness for C4: the crate's `test_unsolvable` matrix (row 1 all `+∞`). -/
theorem C4_unsolvable_row_fails_before_reduction_witness :
    solve_assignment 50
        ⟨3, [.fin 1, .fin 1, .fin 1, .pinf, .pinf, .pinf, .fin 1, .fin 1, .fin 1]⟩
      = (.err "Matrix can not be solved",
          ⟨3, [.fin 1, .fin 1, .fin 1, .pinf, .pinf, .pinf, .fin 1, .fin 1, .fin 1]⟩) :=
  C4_unsolvable_row_fails_before_reduction 50
    ⟨3, [.fin 1, .fin 1, .fin 1, .pinf, .pinf, .pinf, .fin 1, .fin 1, .fin 1]⟩
    1 (by decide) (by decide)

/-! ## Pointwise characterization of the row/column reductions -/

theorem WeightMatrix.n_map_row (m : WeightMatrix) (row : Nat) (f : FVal → FVal) :
    (m.map_row row f).n = m.n := rfl

theorem WeightMatrix.n_map_col (m : WeightMatrix) (col : Nat) (f : FVal → FVal) :
    (m.map_col col f).n = m.n := rfl

theorem WeightMatrix.length_map_row (m : WeightMatrix) (row : Nat) (f : FVal → FVal) :
    (m.map_row row f).data.length = m.data.length := by
  unfold WeightMatrix.map_row
  exact mapWithIndex_length _ _ _

theorem WeightMatrix.length_map_col (m : WeightMatrix) (col : Nat) (f : FVal → FVal) :
    (m.map_col col f).data.length = m.data.length := by
  unfold WeightMatrix.map_col
  exact mapWithIndex_length _ _ _

/-- The row-major index of an in-range column lies in its row's block. -/
theorem row_major_div (row col n : Nat) (hc : col < n) :
    (row * n + col) / n = row := by
  have hn : 0 < n := by omega
  rw [Nat.mul_comm row n, Nat.mul_add_div hn, Nat.div_eq_of_lt hc, Nat.add_zero]

theorem row_major_mod (row col n : Nat) (hc : col < n) :
    (row * n + col) % n = col := by
  rw [Nat.add_comm, Nat.add_mul_mod_self_right, Nat.mod_eq_of_lt hc]

theorem WeightMatrix.element_at_map_row (m : WeightMatrix) (row : Nat)
    (f : FVal → FVal) (hf : f .nan = .nan) (p : Position) (hc : p.column < m.n) :
    (m.map_row row f).element_at p =
      if p.row = row then f (m.element_at p) else m.element_at p := by
  unfold WeightMatrix.map_row WeightMatrix.element_at
  simp only
  rw [mapWithIndex_getD]
  by_cases hlen : p.row * m.n + p.column < m.data.length
  · rw [if_pos hlen, Nat.zero_add, row_major_div _ _ _ hc]
  · rw [if_neg hlen, List.getD_eq_default _ _ (Nat.le_of_not_lt hlen)]
    by_cases hrow : p.row = row
    · rw [if_pos hrow, hf]
    · rw [if_neg hrow]

theorem WeightMatrix.element_at_map_col (m : WeightMatrix) (col : Nat)
    (f : FVal → FVal) (hf : f .nan = .nan) (p : Position) (hc : p.column < m.n) :
    (m.map_col col f).element_at p =
      if p.column = col then f (m.element_at p) else m.element_at p := by
  unfold WeightMatrix.map_col WeightMatrix.element_at
  simp only
  rw [mapWithIndex_getD]
  by_cases hlen : p.row * m.n + p.column < m.data.length
  · rw [if_pos hlen, Nat.zero_add, row_major_mod _ _ _ hc]
  · rw [if_neg hlen, List.getD_eq_default _ _ (Nat.le_of_not_lt hlen)]
    by_cases hcol : p.column = col
    · rw [if_pos hcol, hf]
    · rw [if_neg hcol]

theorem WeightMatrix.element_at_sub_row (m : WeightMatrix) (row : Nat) (v : FVal)
    (p : Position) (hc : p.column < m.n) :
    (m.sub_row row v).element_at p =
      if p.row = row then
        (if (m.element_at p).isValid then (m.element_at p).sub v else m.element_at p)
      else m.element_at p :=
  m.element_at_map_row row _ rfl p hc

theorem WeightMatrix.element_at_add_row (m : WeightMatrix) (row : Nat) (v : FVal)
    (p : Position) (hc : p.column < m.n) :
    (m.add_row row v).element_at p =
      if p.row = row then
        (if (m.element_at p).isValid then (m.element_at p).add v else m.element_at p)
      else m.element_at p :=
  m.element_at_map_row row _ rfl p hc

theorem WeightMatrix.element_at_sub_column (m : WeightMatrix) (col : Nat) (v : FVal)
    (p : Position) (hc : p.column < m.n) :
    (m.sub_column col v).element_at p =
      if p.column = col then
        (if (m.element_at p).isValid then (m.element_at p).sub v else m.element_at p)
      else m.element_at p :=
  m.element_at_map_col col _ rfl p hc

theorem WeightMatrix.row_slice_sub_row_ne (m : WeightMatrix) (row : Nat) (v : FVal)
    (r' : Nat) (h : r' ≠ row) : (m.sub_row row v).row_slice r' = m.row_slice r' := by
  unfold WeightMatrix.row_slice
  rw [show (m.sub_row row v).n = m.n from rfl]
  refine List.map_congr_left ?_
  intro c hcmem
  rw [m.element_at_sub_row row v ⟨r', c⟩ (List.mem_range.mp hcmem)]
  simp [h]

theorem WeightMatrix.min_of_row_sub_row_ne (m : WeightMatrix) (row : Nat) (v : FVal)
    (r' : Nat) (h : r' ≠ row) : (m.sub_row row v).min_of_row r' = m.min_of_row r' := by
  unfold WeightMatrix.min_of_row
  rw [m.row_slice_sub_row_ne row v r' h]

/-! ## C7 — row reduction and the valid-cell minimum -/

/-- The minimum over the *valid* cells of a row, as the specification
words it ("for every row, compute the minimum over valid cells only");
`nan` when the row has no valid cell (excluded by the precondition). -/
def spec_valid_row_min (m : WeightMatrix) (row : Nat) : FVal :=
  match (m.row_slice row).filter (fun v => v.isValid) with
  | [] => .nan
  | v :: vs => vs.foldl (fun a b => if b.lt a then b else a) v

/-- The fold of `min_of_row` (which skips invalid candidates) equals the
plain minimum fold over the valid elements, from any seed. -/
theorem foldl_min_filter_valid (l : List FVal) :
    ∀ acc : FVal,
      l.foldl (fun min val => if val.isValid && val.lt min then val else min) acc =
        (l.filter (fun v => v.isValid)).foldl (fun a b => if b.lt a then b else a) acc := by
  induction l with
  | nil => intro acc; rfl
  | cons v vs ih =>
    intro acc
    rw [List.foldl_cons, List.filter_cons]
    by_cases hv : v.isValid
    · rw [hv, Bool.true_and, if_pos rfl, List.foldl_cons, ih]
    · have hv' : v.isValid = false := by simpa using hv
      rw [hv', Bool.false_and, if_neg (by decide), if_neg (by decide), ih]

theorem row_slice_cons (m : WeightMatrix) (row k : Nat) (hn : m.n = k + 1) :
    m.row_slice row =
      m.element_at ⟨row, 0⟩ ::
        (List.range k).map (fun j => m.element_at ⟨row, j + 1⟩) := by
  unfold WeightMatrix.row_slice
  rw [hn, List.range_succ_eq_map, List.map_cons, List.map_map]
  rfl

/-- Under the amendment hypotheses (first cell valid, or first cell `+∞`),
`min_of_row` computes exactly the valid-cell minimum. -/
theorem min_of_row_eq_spec (m : WeightMatrix) (row : Nat) (hn : 0 < m.n)
    (hfirst : (m.element_at ⟨row, 0⟩).isValid ∨ m.element_at ⟨row, 0⟩ = .pinf)
    (hvalid : ∃ c, c < m.n ∧ (m.element_at ⟨row, c⟩).isValid) :
    m.min_of_row row = spec_valid_row_min m row := by
  obtain ⟨k, hk⟩ : ∃ k, m.n = k + 1 := ⟨m.n - 1, by omega⟩
  have hcons := row_slice_cons m row k hk
  set hd := m.element_at ⟨row, 0⟩ with hhd
  set tl := (List.range k).map (fun j => m.element_at ⟨row, j + 1⟩) with htl
  unfold WeightMatrix.min_of_row spec_valid_row_min
  rw [hcons]
  simp only [List.tail_cons, List.headD_cons, List.filter_cons]
  rcases hfirst with hv | hpinf
  · rw [if_pos hv, foldl_min_filter_valid]
  · have hnv : hd.isValid = false := by rw [hpinf]; rfl
    rw [if_neg (by simp [hnv]), foldl_min_filter_valid]
    obtain ⟨c, hc, hcv⟩ := hvalid
    have hc0 : c ≠ 0 := by
      intro h0
      rw [h0, ← hhd, hnv] at hcv
      exact Bool.false_ne_true hcv
    obtain ⟨j, hj⟩ : ∃ j, c = j + 1 := ⟨c - 1, by omega⟩
    have hmem : m.element_at ⟨row, c⟩ ∈ tl := by
      rw [htl, hj]
      exact List.mem_map.mpr ⟨j, List.mem_range.mpr (by omega), rfl⟩
    have hne : tl.filter (fun v => v.isValid) ≠ [] :=
      List.ne_nil_of_mem (List.mem_filter.mpr ⟨hmem, hcv⟩)
    obtain ⟨w, ws, hws⟩ : ∃ w ws, tl.filter (fun v => v.isValid) = w :: ws := by
      cases h : tl.filter (fun v => v.isValid) with
      | nil => exact absurd h hne
      | cons w ws => exact ⟨w, ws, rfl⟩
    rw [hws]
    have hwv : w.isValid := by
      have : w ∈ tl.filter (fun v => v.isValid) := by rw [hws]; exact List.mem_cons_self w ws
      exact (List.mem_filter.mp this).2
    have hwlt : w.lt hd = true := by
      rw [hpinf]
      cases w with
      | fin q => rfl
      | pinf => exact absurd hwv (by decide)
      | ninf => exact absurd hwv (by decide)
      | nan => exact absurd hwv (by decide)
    simp only [List.foldl_cons, hwlt, if_pos]

theorem sub_min_fold_n (rs : List Nat) (mm : WeightMatrix) :
    (rs.foldl (fun acc row => acc.sub_row row (acc.min_of_row row)) mm).n = mm.n := by
  induction rs generalizing mm with
  | nil => rfl
  | cons r rs ih => exact ih _

/-- Pointwise description of the sequential row fold of
`sub_min_of_each_row`: processing distinct rows, each cell of a processed
row sees exactly one subtraction of its own (original) row minimum. -/
theorem sub_min_fold_element (rs : List Nat) (hnd : rs.Nodup) (mm : WeightMatrix)
    (p : Position) (hc : p.column < mm.n) :
    (rs.foldl (fun acc row => acc.sub_row row (acc.min_of_row row)) mm).element_at p =
      if p.row ∈ rs then (mm.sub_row p.row (mm.min_of_row p.row)).element_at p
      else mm.element_at p := by
  induction rs generalizing mm with
  | nil => simp
  | cons r rs ih =>
    have hnd' : rs.Nodup := hnd.of_cons
    have hrnot : r ∉ rs := (List.nodup_cons.mp hnd).1
    simp only [List.foldl_cons]
    rw [ih hnd' (mm.sub_row r (mm.min_of_row r)) hc]
    by_cases hp : p.row = r
    · have hpnot : p.row ∉ rs := by rw [hp]; exact hrnot
      rw [if_neg hpnot, if_pos (by rw [hp]; exact List.mem_cons_self r rs), hp]
    · by_cases hpmem : p.row ∈ rs
      · rw [if_pos hpmem, if_pos (List.mem_cons_of_mem r hpmem)]
        rw [(mm.sub_row r (mm.min_of_row r)).element_at_sub_row p.row _ p hc,
            mm.element_at_sub_row p.row _ p hc]
        rw [if_pos rfl, if_pos rfl]
        rw [mm.element_at_sub_row r (mm.min_of_row r) p hc, if_neg hp]
        rw [mm.min_of_row_sub_row_ne r (mm.min_of_row r) p.row hp]
      · rw [if_neg hpmem,
          if_neg (by intro h; rcases List.mem_cons.mp h with h | h; exact hp h; exact hpmem h)]
        rw [mm.element_at_sub_row r (mm.min_of_row r) p hc, if_neg hp]

/-- C7 as stated fails on the code: with a row whose *first* cell is `−∞`
(invalid, and below every valid cell), `min_of_row` seeds its fold with
that invalid cell and never replaces it, so `sub_min_of_each_row`
subtracts `−∞` — not the valid-cell minimum — turning the valid cell `5`
into `+∞` instead of `0`. -/
theorem C7_counterexample :
    ¬ (∀ m : WeightMatrix,
        (∀ r, r < m.n → ∃ c, c < m.n ∧ (m.element_at ⟨r, c⟩).isValid) →
        ∀ r, r < m.n → ∀ c, c < m.n →
          m.sub_min_of_each_row.element_at ⟨r, c⟩ =
            (if (m.element_at ⟨r, c⟩).isValid
             then (m.element_at ⟨r, c⟩).sub (spec_valid_row_min m r)
             else m.element_at ⟨r, c⟩)) := by
  intro h
  have := h ⟨2, [.ninf, .fin 5, .fin 0, .fin 0]⟩
    (by decide)
    0 (by decide) 1 (by decide)
  revert this
  decide

/-- C7 amended: *provided each row's first cell is valid or equals `+∞`*
(the conventional disallowed encoding; a first cell of `−∞` or `NaN` breaks
the unguarded fold seed), `sub_min_of_each_row` subtracts from every valid
cell of each row the minimum over that row's valid cells only, and leaves
every invalid cell unchanged. -/
theorem C7_sub_min_of_each_row_amended (m : WeightMatrix)
    (hfirst : ∀ r, r < m.n →
      (m.element_at ⟨r, 0⟩).isValid ∨ m.element_at ⟨r, 0⟩ = .pinf)
    (hvalid : ∀ r, r < m.n → ∃ c, c < m.n ∧ (m.element_at ⟨r, c⟩).isValid)
    (r : Nat) (hr : r < m.n) (c : Nat) (hc : c < m.n) :
    m.sub_min_of_each_row.element_at ⟨r, c⟩ =
      (if (m.element_at ⟨r, c⟩).isValid
       then (m.element_at ⟨r, c⟩).sub (spec_valid_row_min m r)
       else m.element_at ⟨r, c⟩) := by
  unfold WeightMatrix.sub_min_of_each_row
  rw [sub_min_fold_element (List.range m.n) (List.nodup_range _) m ⟨r, c⟩ hc]
  simp only [List.mem_range]
  rw [if_pos hr, m.element_at_sub_row r (m.min_of_row r) ⟨r, c⟩ hc, if_pos rfl]
  rw [min_of_row_eq_spec m r (by omega) (hfirst r hr) (hvalid r hr)]

/-- Witness for the amended C7: a 2×2 matrix with a `+∞` first cell in
row 0; the valid `5` becomes `5 − 5 = 0`, and the `+∞` cell is untouched. -/
theorem C7_sub_min_of_each_row_amended_witness :
    WeightMatrix.element_at
        (WeightMatrix.sub_min_of_each_row ⟨2, [.pinf, .fin 5, .fin 2, .fin 7]⟩) ⟨0, 1⟩
      = .fin 0 ∧
    WeightMatrix.element_at
        (WeightMatrix.sub_min_of_each_row ⟨2, [.pinf, .fin 5, .fin 2, .fin 7]⟩) ⟨0, 0⟩
      = .pinf := by
  constructor
  · have h := C7_sub_min_of_each_row_amended ⟨2, [.pinf, .fin 5, .fin 2, .fin 7]⟩
      (by decide) (by decide) 0 (by decide) 1 (by decide)
    rw [h]
    decide
  · have h := C7_sub_min_of_each_row_amended ⟨2, [.pinf, .fin 5, .fin 2, .fin 7]⟩
      (by decide) (by decide) 0 (by decide) 0 (by decide)
    rw [h]
    decide

/-! ## Pointwise lemmas for marks and coverage -/

theorem getD_replicate (a d : α) :
    ∀ (n i : Nat), (List.replicate n a).getD i d = if i < n then a else d := by
  intro n
  induction n with
  | zero => intro i; simp
  | succ k ih =>
    intro i
    cases i with
    | zero => simp [List.replicate]
    | succ j =>
      simp only [List.replicate, List.getD_cons_succ, ih j]
      by_cases h : j < k
      · rw [if_pos h, if_pos (by omega)]
      · rw [if_neg h, if_neg (by omega)]

/-- Injectivity of the row-major index on in-range columns. -/
theorem row_major_inj {r c r' c' n : Nat} (hc : c < n) (hc' : c' < n)
    (h : r * n + c = r' * n + c') : r = r' ∧ c = c' := by
  have h1 : (r * n + c) / n = r := row_major_div r c n hc
  have h2 : (r' * n + c') / n = r' := row_major_div r' c' n hc'
  have h3 : (r * n + c) % n = c := row_major_mod r c n hc
  have h4 : (r' * n + c') % n = c' := row_major_mod r' c' n hc'
  constructor
  · rw [← h1, ← h2, h]
  · rw [← h3, ← h4, h]

namespace MarkMatrix

theorem n_set_mark (mk : MarkMatrix) (pos : Position) (m : Mark) :
    (mk.set_mark pos m).n = mk.n := rfl

theorem length_set_mark (mk : MarkMatrix) (pos : Position) (m : Mark) :
    (mk.set_mark pos m).marks.length = mk.marks.length := by
  unfold MarkMatrix.set_mark
  exact mapWithIndex_length _ _ _

theorem get_mark_new (n : Nat) (p : Position) :
    (MarkMatrix.new n).get_mark p = .none := by
  unfold MarkMatrix.new MarkMatrix.get_mark
  rw [getD_replicate]
  by_cases h : p.row * n + p.column < n * n
  · rw [if_pos h]
  · rw [if_neg h]

theorem get_mark_set_mark (mk : MarkMatrix) (pos : Position) (m : Mark)
    (q : Position) (hlen : mk.marks.length = mk.n * mk.n)
    (hpr : pos.row < mk.n) (hpc : pos.column < mk.n)
    (hqr : q.row < mk.n) (hqc : q.column < mk.n) :
    (mk.set_mark pos m).get_mark q = if q = pos then m else mk.get_mark q := by
  unfold MarkMatrix.set_mark MarkMatrix.get_mark
  simp only [n_set_mark]
  rw [mapWithIndex_getD]
  have hql : q.row * mk.n + q.column < mk.marks.length := by
    rw [hlen]
    have h1 : (q.row + 1) * mk.n = q.row * mk.n + mk.n := by ring
    have h2 : (q.row + 1) * mk.n ≤ mk.n * mk.n := Nat.mul_le_mul_right _ hqr
    omega
  rw [if_pos hql, Nat.zero_add]
  by_cases heq : q = pos
  · rw [if_pos (by rw [heq]), if_pos heq]
  · rw [if_neg ?_, if_neg heq]
    intro hidx
    exact heq (by
      obtain ⟨h1, h2⟩ := row_major_inj hqc hpc hidx
      cases q; cases pos
      simp only at h1 h2
      simp [h1, h2])

theorem is_star_set_mark (mk : MarkMatrix) (pos : Position) (m : Mark)
    (q : Position) (hlen : mk.marks.length = mk.n * mk.n)
    (hpr : pos.row < mk.n) (hpc : pos.column < mk.n)
    (hqr : q.row < mk.n) (hqc : q.column < mk.n) :
    (mk.set_mark pos m).is_star q =
      if q = pos then (m = .star : Bool) else mk.is_star q := by
  unfold MarkMatrix.is_star
  rw [get_mark_set_mark mk pos m q hlen hpr hpc hqr hqc]
  by_cases heq : q = pos
  · rw [if_pos heq, if_pos heq]
  · rw [if_neg heq, if_neg heq]

theorem is_star_new (n : Nat) (p : Position) :
    (MarkMatrix.new n).is_star p = false := by
  unfold MarkMatrix.is_star
  rw [get_mark_new]
  rfl

theorem length_new (n : Nat) : (MarkMatrix.new n).marks.length = n * n :=
  List.length_replicate _ _

theorem n_new (n : Nat) : (MarkMatrix.new n).n = n := rfl

theorem is_prime_set_mark (mk : MarkMatrix) (pos : Position) (m : Mark)
    (q : Position) (hlen : mk.marks.length = mk.n * mk.n)
    (hpr : pos.row < mk.n) (hpc : pos.column < mk.n)
    (hqr : q.row < mk.n) (hqc : q.column < mk.n) :
    (mk.set_mark pos m).is_prime q =
      if q = pos then (m = .prime : Bool) else mk.is_prime q := by
  unfold MarkMatrix.is_prime
  rw [get_mark_set_mark mk pos m q hlen hpr hpc hqr hqc]
  by_cases heq : q = pos
  · rw [if_pos heq, if_pos heq]
  · rw [if_neg heq, if_neg heq]

theorem is_prime_new (n : Nat) (p : Position) :
    (MarkMatrix.new n).is_prime p = false := by
  unfold MarkMatrix.is_prime
  rw [get_mark_new]
  rfl

end MarkMatrix

namespace Coverage

theorem n_cover_row (cov : Coverage) (r : Nat) : (cov.cover_row r).n = cov.n := rfl

theorem n_cover_column (cov : Coverage) (c : Nat) : (cov.cover_column c).n = cov.n := rfl

theorem n_uncover_column (cov : Coverage) (c : Nat) : (cov.uncover_column c).n = cov.n := rfl

theorem n_cover (cov : Coverage) (p : Position) : (cov.cover p).n = cov.n := rfl

theorem n_clear (cov : Coverage) : cov.clear.n = cov.n := rfl

theorem is_row_covered_cover_row (cov : Coverage) (r r' : Nat) :
    (cov.cover_row r).is_row_covered r' = if r' = r then true else cov.is_row_covered r' := by
  unfold Coverage.cover_row Coverage.is_row_covered
  simp only
  rw [mapWithIndex_getD]
  by_cases hlen : r' < cov.uncovered_rows.length
  · rw [if_pos hlen, Nat.zero_add]
    by_cases heq : r' = r
    · rw [if_pos heq, if_pos heq]
      rfl
    · rw [if_neg heq, if_neg heq]
  · rw [if_neg hlen, List.getD_eq_default _ _ (Nat.le_of_not_lt hlen)]
    by_cases heq : r' = r
    · rw [if_pos heq]
      rfl
    · rw [if_neg heq]

theorem is_column_covered_cover_row (cov : Coverage) (r c' : Nat) :
    (cov.cover_row r).is_column_covered c' = cov.is_column_covered c' := rfl

theorem is_column_covered_cover_column (cov : Coverage) (c c' : Nat) :
    (cov.cover_column c).is_column_covered c' =
      if c' = c then true else cov.is_column_covered c' := by
  unfold Coverage.cover_column Coverage.is_column_covered
  simp only
  rw [mapWithIndex_getD]
  by_cases hlen : c' < cov.uncovered_columns.length
  · rw [if_pos hlen, Nat.zero_add]
    by_cases heq : c' = c
    · rw [if_pos heq, if_pos heq]
      rfl
    · rw [if_neg heq, if_neg heq]
  · rw [if_neg hlen, List.getD_eq_default _ _ (Nat.le_of_not_lt hlen)]
    by_cases heq : c' = c
    · rw [if_pos heq]
      rfl
    · rw [if_neg heq]

theorem is_row_covered_cover_column (cov : Coverage) (c r' : Nat) :
    (cov.cover_column c).is_row_covered r' = cov.is_row_covered r' := rfl

theorem is_row_covered_cover (cov : Coverage) (p : Position) (r' : Nat) :
    (cov.cover p).is_row_covered r' = if r' = p.row then true else cov.is_row_covered r' := by
  unfold Coverage.cover
  rw [is_row_covered_cover_column, is_row_covered_cover_row]

theorem is_column_covered_cover (cov : Coverage) (p : Position) (c' : Nat) :
    (cov.cover p).is_column_covered c' =
      if c' = p.column then true else cov.is_column_covered c' := by
  unfold Coverage.cover
  rw [is_column_covered_cover_column, is_column_covered_cover_row]

theorem is_column_covered_uncover_column (cov : Coverage) (c c' : Nat)
    (hlen : cov.uncovered_columns.length = cov.n) (hc : c < cov.n) :
    (cov.uncover_column c).is_column_covered c' =
      if c' = c then false else cov.is_column_covered c' := by
  unfold Coverage.uncover_column Coverage.is_column_covered
  simp only
  rw [mapWithIndex_getD]
  by_cases heq : c' = c
  · rw [if_pos (by rw [heq, hlen]; exact hc), Nat.zero_add, if_pos heq, if_pos heq]
    rfl
  · by_cases hl : c' < cov.uncovered_columns.length
    · rw [if_pos hl, Nat.zero_add, if_neg heq, if_neg heq]
    · rw [if_neg hl, if_neg heq, List.getD_eq_default _ _ (Nat.le_of_not_lt hl)]

theorem is_row_covered_uncover_column (cov : Coverage) (c r' : Nat) :
    (cov.uncover_column c).is_row_covered r' = cov.is_row_covered r' := rfl

theorem is_row_covered_clear (cov : Coverage) (r : Nat) (hr : r < cov.n) :
    cov.clear.is_row_covered r = false := by
  unfold Coverage.clear Coverage.is_row_covered
  simp only
  rw [getD_replicate, if_pos hr]
  rfl

theorem is_column_covered_clear (cov : Coverage) (c : Nat) (hc : c < cov.n) :
    cov.clear.is_column_covered c = false := by
  unfold Coverage.clear Coverage.is_column_covered
  simp only
  rw [getD_replicate, if_pos hc]
  rfl

theorem is_row_covered_new (n r : Nat) (hr : r < n) :
    (Coverage.new n).is_row_covered r = false := by
  unfold Coverage.new Coverage.is_row_covered
  simp only
  rw [getD_replicate, if_pos hr]
  rfl

theorem is_column_covered_new (n c : Nat) (hc : c < n) :
    (Coverage.new n).is_column_covered c = false := by
  unfold Coverage.new Coverage.is_column_covered
  simp only
  rw [getD_replicate, if_pos hc]
  rfl

theorem cols_length_cover_row (cov : Coverage) (r : Nat) :
    (cov.cover_row r).uncovered_columns.length = cov.uncovered_columns.length := rfl

theorem cols_length_cover_column (cov : Coverage) (c : Nat) :
    (cov.cover_column c).uncovered_columns.length = cov.uncovered_columns.length := by
  unfold Coverage.cover_column
  exact mapWithIndex_length _ _ _

theorem cols_length_cover (cov : Coverage) (p : Position) :
    (cov.cover p).uncovered_columns.length = cov.uncovered_columns.length := by
  unfold Coverage.cover
  rw [cols_length_cover_column, cols_length_cover_row]

theorem cols_length_uncover_column (cov : Coverage) (c : Nat) :
    (cov.uncover_column c).uncovered_columns.length = cov.uncovered_columns.length := by
  unfold Coverage.uncover_column
  exact mapWithIndex_length _ _ _

theorem cols_length_new (n : Nat) :
    (Coverage.new n).uncovered_columns.length = n :=
  List.length_replicate _ _

theorem rows_length_cover_row (cov : Coverage) (r : Nat) :
    (cov.cover_row r).uncovered_rows.length = cov.uncovered_rows.length :=
  mapWithIndex_length _ _ _

theorem rows_length_cover_column (cov : Coverage) (c : Nat) :
    (cov.cover_column c).uncovered_rows.length = cov.uncovered_rows.length := rfl

theorem rows_length_uncover_column (cov : Coverage) (c : Nat) :
    (cov.uncover_column c).uncovered_rows.length = cov.uncovered_rows.length := rfl

theorem rows_length_cover (cov : Coverage) (p : Position) :
    (cov.cover p).uncovered_rows.length = cov.uncovered_rows.length := by
  unfold Coverage.cover
  rw [rows_length_cover_column, rows_length_cover_row]

theorem rows_length_clear (cov : Coverage) :
    cov.clear.uncovered_rows.length = cov.n :=
  List.length_replicate _ _

theorem cols_length_clear (cov : Coverage) :
    cov.clear.uncovered_columns.length = cov.n :=
  List.length_replicate _ _

theorem rows_length_new (n : Nat) :
    (Coverage.new n).uncovered_rows.length = n :=
  List.length_replicate _ _

end Coverage

/-! ## Step 2: the starring scan and its invariant (C6) -/

/-- Wellformedness of a mark matrix of dimension `n`: right dimension tag
and a full `n*n` backing store (as produced by `MarkMatrix.new`). -/
def MarkWF (n : Nat) (mk : MarkMatrix) : Prop :=
  mk.n = n ∧ mk.marks.length = n * n

/-- Star bookkeeping invariant during the Step-2 scan: every in-range star
sits on a zero cell with its row and column covered, and stars are unique
per row and per column. -/
def Step2Inv (c : WeightMatrix) (n : Nat) (mk : MarkMatrix) (cov : Coverage) : Prop :=
  (∀ p : Position, p.row < n → p.column < n → mk.is_star p →
      cov.is_row_covered p.row = true ∧ cov.is_column_covered p.column = true ∧
      c.is_element_zero p = true) ∧
  (∀ p q : Position, p.row < n → p.column < n → q.row < n → q.column < n →
      mk.is_star p → mk.is_star q → (p.row = q.row ∨ p.column = q.column) → p = q) ∧
  (∀ p : Position, p.row < n → p.column < n → mk.is_prime p = false)

/-- The starring closure passed by `step2` to
`iter_uncovered_row_column_and_cover`. -/
def step2Closure (c : WeightMatrix) : MarkMatrix → Position → MarkMatrix × Bool :=
  fun mk pos => if c.is_element_zero pos then (mk.star pos, true) else (mk, false)

theorem step2_eq_closure (c : WeightMatrix) (marks : MarkMatrix) (cov : Coverage) :
    step2 c marks cov =
      (let r := cov.iter_uncovered_row_column_and_cover marks (step2Closure c)
       (r.1, r.2.clear, .step3)) := rfl

theorem iterCoverInner_nil (f : σ → Position → σ × Bool) (row : Nat)
    (cov : Coverage) (s : σ) : iterCoverInner f row cov s [] = (s, cov) := rfl

theorem iterCoverInner_cons (f : σ → Position → σ × Bool) (row : Nat)
    (cov : Coverage) (s : σ) (col : Nat) (cols : List Nat) :
    iterCoverInner f row cov s (col :: cols) =
      if cov.is_column_covered col then iterCoverInner f row cov s cols
      else
        match f s ⟨row, col⟩ with
        | (s', true) => (s', cov.cover ⟨row, col⟩)
        | (s', false) => iterCoverInner f row cov s' cols := rfl

theorem iterCoverOuter_nil (f : σ → Position → σ × Bool)
    (cov : Coverage) (s : σ) : iterCoverOuter f cov s [] = (s, cov) := rfl

theorem iterCoverOuter_cons (f : σ → Position → σ × Bool)
    (cov : Coverage) (s : σ) (row : Nat) (rows : List Nat) :
    iterCoverOuter f cov s (row :: rows) =
      if cov.is_row_covered row then iterCoverOuter f cov s rows
      else
        iterCoverOuter f (iterCoverInner f row cov s (List.range cov.n)).2
          (iterCoverInner f row cov s (List.range cov.n)).1 rows := rfl

theorem step2_inner_inv (c : WeightMatrix) (n row : Nat) (hrow_lt : row < n) :
    ∀ (cols : List Nat) (cov : Coverage) (mk : MarkMatrix),
      cov.n = n → MarkWF n mk → (∀ x ∈ cols, x < n) →
      cov.is_row_covered row = false →
      Step2Inv c n mk cov →
      (iterCoverInner (step2Closure c) row cov mk cols).2.n = n ∧
      MarkWF n (iterCoverInner (step2Closure c) row cov mk cols).1 ∧
      Step2Inv c n (iterCoverInner (step2Closure c) row cov mk cols).1
        (iterCoverInner (step2Closure c) row cov mk cols).2 ∧
      (∀ i, cov.is_row_covered i = true →
        (iterCoverInner (step2Closure c) row cov mk cols).2.is_row_covered i = true) ∧
      (∀ i, cov.is_column_covered i = true →
        (iterCoverInner (step2Closure c) row cov mk cols).2.is_column_covered i = true) := by
  intro cols
  induction cols with
  | nil =>
    intro cov mk hcn hwf _ hruncov hinv
    exact ⟨hcn, hwf, hinv, fun i h => h, fun i h => h⟩
  | cons col cols ih =>
    intro cov mk hcn hwf hmem hruncov hinv
    have hcol_lt : col < n := hmem col (List.mem_cons_self _ _)
    have hmem' : ∀ x ∈ cols, x < n := fun x hx => hmem x (List.mem_cons_of_mem _ hx)
    by_cases hcc : cov.is_column_covered col
    · rw [show iterCoverInner (step2Closure c) row cov mk (col :: cols) =
          iterCoverInner (step2Closure c) row cov mk cols by
        rw [iterCoverInner_cons, if_pos hcc]]
      exact ih cov mk hcn hwf hmem' hruncov hinv
    · have hcc' : cov.is_column_covered col = false := by simpa using hcc
      by_cases hz : c.is_element_zero ⟨row, col⟩
      · -- star the cell, cover its row and column, and break out of the row
        rw [show iterCoverInner (step2Closure c) row cov mk (col :: cols) =
            (mk.star ⟨row, col⟩, cov.cover ⟨row, col⟩) by
          rw [iterCoverInner_cons, if_neg (by simp [hcc]),
            show step2Closure c mk ⟨row, col⟩ = (mk.star ⟨row, col⟩, true) by
              unfold step2Closure
              rw [if_pos hz]]]
        obtain ⟨hmkn, hmklen⟩ := hwf
        refine ⟨by rw [Coverage.n_cover]; exact hcn, ⟨hmkn, ?_⟩, ⟨?_, ?_, ?_⟩, ?_, ?_⟩
        · unfold MarkMatrix.star
          rw [MarkMatrix.length_set_mark, hmklen]
        · -- covered/zero facts for every star of the new mark matrix
          intro p hpr hpc hps
          have := MarkMatrix.is_star_set_mark mk ⟨row, col⟩ .star p
            (by rw [hmkn]; exact hmklen) (by rw [hmkn]; exact hrow_lt)
            (by rw [hmkn]; exact hcol_lt) (by rw [hmkn]; exact hpr)
            (by rw [hmkn]; exact hpc)
          rw [MarkMatrix.star] at hps ⊢
          rw [this] at hps
          by_cases hpe : p = ⟨row, col⟩
          · subst hpe
            refine ⟨?_, ?_, hz⟩
            · rw [Coverage.is_row_covered_cover]
              simp
            · rw [Coverage.is_column_covered_cover]
              simp
          · rw [if_neg hpe] at hps
            obtain ⟨h1, h2, h3⟩ := hinv.1 p hpr hpc hps
            refine ⟨?_, ?_, h3⟩
            · rw [Coverage.is_row_covered_cover]
              by_cases h : p.row = (⟨row, col⟩ : Position).row
              · rw [if_pos h]
              · rw [if_neg h]; exact h1
            · rw [Coverage.is_column_covered_cover]
              by_cases h : p.column = (⟨row, col⟩ : Position).column
              · rw [if_pos h]
              · rw [if_neg h]; exact h2
        · -- star uniqueness for the new mark matrix
          intro p q hpr hpc hqr hqc hps hqs hline
          have hp := MarkMatrix.is_star_set_mark mk ⟨row, col⟩ .star p
            (by rw [hmkn]; exact hmklen) (by rw [hmkn]; exact hrow_lt)
            (by rw [hmkn]; exact hcol_lt) (by rw [hmkn]; exact hpr)
            (by rw [hmkn]; exact hpc)
          have hq := MarkMatrix.is_star_set_mark mk ⟨row, col⟩ .star q
            (by rw [hmkn]; exact hmklen) (by rw [hmkn]; exact hrow_lt)
            (by rw [hmkn]; exact hcol_lt) (by rw [hmkn]; exact hqr)
            (by rw [hmkn]; exact hqc)
          rw [MarkMatrix.star] at hps hqs
          rw [hp] at hps
          rw [hq] at hqs
          by_cases hpe : p = ⟨row, col⟩
          · by_cases hqe : q = ⟨row, col⟩
            · rw [hpe, hqe]
            · -- q is an old star sharing a line with the fresh star:
              -- its row/column is covered although `row`/`col` are not
              rw [if_neg hqe] at hqs
              obtain ⟨h1, h2, _⟩ := hinv.1 q hqr hqc hqs
              subst hpe
              rcases hline with h | h
              · rw [← h] at h1
                rw [h1] at hruncov
                exact absurd hruncov (by simp)
              · rw [← h] at h2
                rw [h2] at hcc'
                exact absurd hcc' (by simp)
          · rw [if_neg hpe] at hps
            by_cases hqe : q = ⟨row, col⟩
            · obtain ⟨h1, h2, _⟩ := hinv.1 p hpr hpc hps
              subst hqe
              rcases hline with h | h
              · rw [h] at h1
                rw [h1] at hruncov
                exact absurd hruncov (by simp)
              · rw [h] at h2
                rw [h2] at hcc'
                exact absurd hcc' (by simp)
            · rw [if_neg hqe] at hqs
              exact hinv.2.1 p q hpr hpc hqr hqc hps hqs hline
        · -- no primes are ever created by the starring scan
          intro p hpr hpc
          have := MarkMatrix.is_prime_set_mark mk ⟨row, col⟩ .star p
            (by rw [hmkn]; exact hmklen) (by rw [hmkn]; exact hrow_lt)
            (by rw [hmkn]; exact hcol_lt) (by rw [hmkn]; exact hpr)
            (by rw [hmkn]; exact hpc)
          rw [MarkMatrix.star, this]
          by_cases hpe : p = ⟨row, col⟩
          · rw [if_pos hpe]
            rfl
          · rw [if_neg hpe]
            exact hinv.2.2 p hpr hpc
        · intro i hi
          rw [Coverage.is_row_covered_cover]
          by_cases h : i = (⟨row, col⟩ : Position).row
          · rw [if_pos h]
          · rw [if_neg h]; exact hi
        · intro i hi
          rw [Coverage.is_column_covered_cover]
          by_cases h : i = (⟨row, col⟩ : Position).column
          · rw [if_pos h]
          · rw [if_neg h]; exact hi
      · rw [show iterCoverInner (step2Closure c) row cov mk (col :: cols) =
            iterCoverInner (step2Closure c) row cov mk cols by
          rw [iterCoverInner_cons, if_neg (by simp [hcc]),
            show step2Closure c mk ⟨row, col⟩ = (mk, false) by
              unfold step2Closure
              rw [if_neg hz]]]
        exact ih cov mk hcn hwf hmem' hruncov hinv

theorem step2_outer_inv (c : WeightMatrix) (n : Nat) :
    ∀ (rows : List Nat) (cov : Coverage) (mk : MarkMatrix),
      cov.n = n → MarkWF n mk → (∀ x ∈ rows, x < n) →
      Step2Inv c n mk cov →
      (iterCoverOuter (step2Closure c) cov mk rows).2.n = n ∧
      MarkWF n (iterCoverOuter (step2Closure c) cov mk rows).1 ∧
      Step2Inv c n (iterCoverOuter (step2Closure c) cov mk rows).1
        (iterCoverOuter (step2Closure c) cov mk rows).2 := by
  intro rows
  induction rows with
  | nil =>
    intro cov mk hcn hwf _ hinv
    exact ⟨hcn, hwf, hinv⟩
  | cons row rows ih =>
    intro cov mk hcn hwf hmem hinv
    have hrow_lt : row < n := hmem row (List.mem_cons_self _ _)
    have hmem' : ∀ x ∈ rows, x < n := fun x hx => hmem x (List.mem_cons_of_mem _ hx)
    by_cases hrc : cov.is_row_covered row
    · rw [show iterCoverOuter (step2Closure c) cov mk (row :: rows) =
          iterCoverOuter (step2Closure c) cov mk rows by
        rw [iterCoverOuter_cons, if_pos hrc]]
      exact ih cov mk hcn hwf hmem' hinv
    · have hrc' : cov.is_row_covered row = false := by simpa using hrc
      obtain ⟨h1, h2, h3, _, _⟩ :=
        step2_inner_inv c n row hrow_lt (List.range cov.n) cov mk hcn hwf
          (fun x hx => by rw [← hcn]; exact List.mem_range.mp hx) hrc' hinv
      rw [show iterCoverOuter (step2Closure c) cov mk (row :: rows) =
          iterCoverOuter (step2Closure c)
            (iterCoverInner (step2Closure c) row cov mk (List.range cov.n)).2
            (iterCoverInner (step2Closure c) row cov mk (List.range cov.n)).1 rows by
        rw [iterCoverOuter_cons, if_neg hrc]]
      exact ih _ _ h1 h2 hmem' h3

/-- The complete Step-2 postcondition used by C6 and by the machine
invariant: in the context of `solve_assignment`, `step2` runs on a fresh
mark matrix and a fresh coverage.  It yields per-row and per-column unique
stars, placed on zero cells, and a fully cleared coverage. -/
theorem step2_post (c : WeightMatrix) (n : Nat) :
    (step2 c (MarkMatrix.new n) (Coverage.new n)).2.1.n = n ∧
    MarkWF n (step2 c (MarkMatrix.new n) (Coverage.new n)).1 ∧
    (∀ p q : Position, p.row < n → p.column < n → q.row < n → q.column < n →
      (step2 c (MarkMatrix.new n) (Coverage.new n)).1.is_star p →
      (step2 c (MarkMatrix.new n) (Coverage.new n)).1.is_star q →
      (p.row = q.row ∨ p.column = q.column) → p = q) ∧
    (∀ p : Position, p.row < n → p.column < n →
      (step2 c (MarkMatrix.new n) (Coverage.new n)).1.is_star p →
      c.is_element_zero p = true) ∧
    (∀ i, i < n →
      (step2 c (MarkMatrix.new n) (Coverage.new n)).2.1.is_row_covered i = false ∧
      (step2 c (MarkMatrix.new n) (Coverage.new n)).2.1.is_column_covered i = false) ∧
    (∀ p : Position, p.row < n → p.column < n →
      (step2 c (MarkMatrix.new n) (Coverage.new n)).1.is_prime p = false) ∧
    (step2 c (MarkMatrix.new n) (Coverage.new n)).2.1.uncovered_rows.length = n ∧
    (step2 c (MarkMatrix.new n) (Coverage.new n)).2.1.uncovered_columns.length = n := by
  have hinv0 : Step2Inv c n (MarkMatrix.new n) (Coverage.new n) := by
    refine ⟨?_, ?_, ?_⟩
    · intro p _ _ hps
      rw [MarkMatrix.is_star_new] at hps
      exact absurd hps (by simp)
    · intro p q _ _ _ _ hps _ _
      rw [MarkMatrix.is_star_new] at hps
      exact absurd hps (by simp)
    · intro p _ _
      exact MarkMatrix.is_prime_new n p
  obtain ⟨h1, h2, h3⟩ := step2_outer_inv c n (List.range n) (Coverage.new n)
    (MarkMatrix.new n) rfl ⟨rfl, MarkMatrix.length_new n⟩
    (fun x hx => List.mem_range.mp hx) hinv0
  have hres : step2 c (MarkMatrix.new n) (Coverage.new n) =
      ((iterCoverOuter (step2Closure c) (Coverage.new n) (MarkMatrix.new n)
          (List.range n)).1,
        (iterCoverOuter (step2Closure c) (Coverage.new n) (MarkMatrix.new n)
          (List.range n)).2.clear, .step3) := rfl
  rw [hres]
  refine ⟨by rw [Coverage.n_clear]; exact h1, h2, h3.2.1, ?_, ?_, h3.2.2,
    by rw [Coverage.rows_length_clear]; exact h1,
    by rw [Coverage.cols_length_clear]; exact h1⟩
  · intro p hpr hpc hps
    exact (h3.1 p hpr hpc hps).2.2
  · intro i hi
    constructor
    · rw [Coverage.is_row_covered_clear _ _ (by rw [h1]; exact hi)]
    · rw [Coverage.is_column_covered_clear _ _ (by rw [h1]; exact hi)]

/-- C6: immediately after Step 2 completes (run, as in `solve_assignment`,
on a fresh mark matrix and a fresh coverage tracker), the mark matrix has
at most one starred cell in every row and in every column, and the
coverage tracker is fully cleared. -/
theorem C6_step2_star_uniqueness_and_cleared_coverage (c : WeightMatrix) (n : Nat) :
    (∀ p q : Position, p.row < n → p.column < n → q.row < n → q.column < n →
      (step2 c (MarkMatrix.new n) (Coverage.new n)).1.is_star p →
      (step2 c (MarkMatrix.new n) (Coverage.new n)).1.is_star q →
      (p.row = q.row ∨ p.column = q.column) → p = q) ∧
    (∀ i, i < n →
      (step2 c (MarkMatrix.new n) (Coverage.new n)).2.1.is_row_covered i = false ∧
      (step2 c (MarkMatrix.new n) (Coverage.new n)).2.1.is_column_covered i = false) := by
  obtain ⟨_, _, h3, _, h5, _, _, _⟩ := step2_post c n
  exact ⟨h3, h5⟩

/-- Witness for C6: the crate's `test_step2` data (already-reduced 3×3
matrix): the two stars land on distinct rows and columns and coverage is
clear. -/
theorem C6_step2_star_uniqueness_and_cleared_coverage_witness :
    ((step2 ⟨3, [.fin 0, .fin 150, .fin 100, .fin 50, .fin 250, .fin 0,
                  .fin 0, .fin 200, .fin 50]⟩
        (MarkMatrix.new 3) (Coverage.new 3)).2.1.is_row_covered 0 = false ∧
      (step2 ⟨3, [.fin 0, .fin 150, .fin 100, .fin 50, .fin 250, .fin 0,
                  .fin 0, .fin 200, .fin 50]⟩
        (MarkMatrix.new 3) (Coverage.new 3)).2.1.is_column_covered 0 = false) ∧
    ((step2 ⟨3, [.fin 0, .fin 150, .fin 100, .fin 50, .fin 250, .fin 0,
                  .fin 0, .fin 200, .fin 50]⟩
        (MarkMatrix.new 3) (Coverage.new 3)).1.is_star ⟨0, 0⟩ = true ∧
      (step2 ⟨3, [.fin 0, .fin 150, .fin 100, .fin 50, .fin 250, .fin 0,
                  .fin 0, .fin 200, .fin 50]⟩
        (MarkMatrix.new 3) (Coverage.new 3)).1.is_star ⟨1, 2⟩ = true) := by
  refine ⟨(C6_step2_star_uniqueness_and_cleared_coverage
      ⟨3, [.fin 0, .fin 150, .fin 100, .fin 50, .fin 250, .fin 0,
           .fin 0, .fin 200, .fin 50]⟩ 3).2 0 (by decide), by decide⟩

/-! ## C8 — the column-major uncovered-cell search -/

/-- The inner (row) loop of `find_uncovered_cell_column_row_order` over an
explicit row list. -/
def innerFind (f : Position → Bool) (column : Nat) (rs : List Nat) : Option Position :=
  rs.findSome? (fun row =>
    let pos : Position := ⟨row, column⟩
    if f pos then some pos else none)

theorem find_eq_innerFind (cov : Coverage) (f : Position → Bool) :
    cov.find_uncovered_cell_column_row_order f =
      cov.column_ones.findSome? (fun column => innerFind f column cov.row_ones) := rfl

theorem innerFind_nil (f : Position → Bool) (column : Nat) :
    innerFind f column [] = none := rfl

theorem innerFind_cons (f : Position → Bool) (column r : Nat) (rs : List Nat) :
    innerFind f column (r :: rs) =
      if f ⟨r, column⟩ = true then some ⟨r, column⟩ else innerFind f column rs := by
  unfold innerFind
  simp only [List.findSome?_cons]
  by_cases hf : f (⟨r, column⟩ : Position) = true
  · rw [if_pos hf, if_pos hf]
  · rw [if_neg hf, if_neg hf]

theorem innerFind_none_iff (f : Position → Bool) (column : Nat) :
    ∀ rs : List Nat, (innerFind f column rs = none ↔ ∀ r ∈ rs, f ⟨r, column⟩ = false) := by
  intro rs
  induction rs with
  | nil => simp [innerFind_nil]
  | cons r rs ih =>
    rw [innerFind_cons]
    by_cases hf : f (⟨r, column⟩ : Position) = true
    · rw [if_pos hf]
      simp only [List.mem_cons]
      constructor
      · intro h; exact absurd h (by simp)
      · intro h
        have := h r (Or.inl rfl)
        rw [this] at hf
        exact absurd hf (by simp)
    · have hf' : f (⟨r, column⟩ : Position) = false := by simpa using hf
      rw [if_neg hf, ih]
      constructor
      · intro h r' hr'
        rcases List.mem_cons.mp hr' with h' | h'
        · rw [h']; exact hf'
        · exact h r' h'
      · intro h r' hr'
        exact h r' (List.mem_cons_of_mem _ hr')

theorem innerFind_some_iff (f : Position → Bool) (column : Nat) :
    ∀ rs : List Nat, rs.Pairwise (· < ·) →
      ∀ p : Position,
        (innerFind f column rs = some p ↔
          (p.column = column ∧ p.row ∈ rs ∧ f p = true ∧
            ∀ r' ∈ rs, f ⟨r', column⟩ = true → p.row ≤ r')) := by
  intro rs
  induction rs with
  | nil => intro _ p; simp [innerFind_nil]
  | cons r rs ih =>
    intro hpw p
    have hpw' : rs.Pairwise (· < ·) := hpw.of_cons
    have hlt : ∀ x ∈ rs, r < x := fun x hx => List.rel_of_pairwise_cons hpw hx
    rw [innerFind_cons]
    by_cases hf : f (⟨r, column⟩ : Position) = true
    · rw [if_pos hf]
      constructor
      · intro h
        have hp : p = ⟨r, column⟩ := by injection h with h'; rw [← h']
        subst hp
        refine ⟨rfl, List.mem_cons_self _ _, hf, ?_⟩
        intro r' hr' _
        show r ≤ r'
        rcases List.mem_cons.mp hr' with h' | h'
        · omega
        · exact Nat.le_of_lt (hlt r' h')
      · rintro ⟨hcol, hmem, hfp, hmin⟩
        rcases List.mem_cons.mp hmem with h' | h'
        · congr 1
          cases p
          simp only at hcol h'
          simp [h', hcol]
        · have h1 : p.row ≤ r := hmin r (List.mem_cons_self _ _) hf
          have h2 : r < p.row := hlt _ h'
          omega
    · have hf' : f (⟨r, column⟩ : Position) = false := by simpa using hf
      rw [if_neg hf, ih hpw' p]
      constructor
      · rintro ⟨hcol, hmem, hfp, hmin⟩
        refine ⟨hcol, List.mem_cons_of_mem _ hmem, hfp, ?_⟩
        intro r' hr' hfr'
        rcases List.mem_cons.mp hr' with h' | h'
        · rw [h'] at hfr'
          rw [hfr'] at hf'
          exact absurd hf' (by simp)
        · exact hmin r' h' hfr'
      · rintro ⟨hcol, hmem, hfp, hmin⟩
        rcases List.mem_cons.mp hmem with h' | h'
        · exfalso
          have : p = ⟨r, column⟩ := by
            cases p
            simp only at hcol h'
            simp [h', hcol]
          rw [this] at hfp
          rw [hfp] at hf'
          exact absurd hf' (by simp)
        · exact ⟨hcol, h', hfp, fun r' hr' hfr' => hmin r' (List.mem_cons_of_mem _ hr') hfr'⟩

theorem outerFind_some_iff (f : Position → Bool) (rs : List Nat)
    (hrs : rs.Pairwise (· < ·)) :
    ∀ cs : List Nat, cs.Pairwise (· < ·) →
      ∀ p : Position,
        (cs.findSome? (fun column => innerFind f column rs) = some p ↔
          (p.column ∈ cs ∧ p.row ∈ rs ∧ f p = true ∧
            ∀ q : Position, q.column ∈ cs → q.row ∈ rs → f q = true →
              (p.column < q.column ∨ (p.column = q.column ∧ p.row ≤ q.row)))) := by
  intro cs
  induction cs with
  | nil => intro _ p; simp
  | cons c cs ih =>
    intro hpw p
    have hpw' : cs.Pairwise (· < ·) := hpw.of_cons
    have hlt : ∀ x ∈ cs, c < x := fun x hx => List.rel_of_pairwise_cons hpw hx
    rw [List.findSome?_cons]
    cases hinner : innerFind f c rs with
    | some p0 =>
      obtain ⟨hp0col, hp0row, hp0f, hp0min⟩ := (innerFind_some_iff f c rs hrs p0).mp hinner
      constructor
      · intro h
        have hp : p = p0 := by injection h with h'; rw [← h']
        subst hp
        refine ⟨by rw [hp0col]; exact List.mem_cons_self _ _, hp0row, hp0f, ?_⟩
        intro q hqc hqr hqf
        rcases List.mem_cons.mp hqc with h' | h'
        · right
          refine ⟨by rw [hp0col, h'], ?_⟩
          have : f ⟨q.row, c⟩ = true := by
            have hq : q = ⟨q.row, c⟩ := by cases q; simp only at h' ⊢; simp [h']
            rw [← hq]; exact hqf
          exact hp0min q.row hqr this
        · left
          rw [hp0col]
          exact hlt _ h'
      · rintro ⟨hpc, hpr, hpf, hmin⟩
        rcases List.mem_cons.mp hpc with h' | h'
        · have : innerFind f c rs = some p := by
            refine (innerFind_some_iff f c rs hrs p).mpr ⟨h', hpr, hpf, ?_⟩
            intro r' hr' hfr'
            have := hmin ⟨r', c⟩ (List.mem_cons_self _ _) hr' hfr'
            rcases this with h | h
            · simp only at h
              omega
            · exact h.2
          rw [this] at hinner
          injection hinner with h''
          rw [h'']
        · exfalso
          have := hmin p0 (by rw [hp0col]; exact List.mem_cons_self _ _) hp0row hp0f
          have hcp : c < p.column := hlt _ h'
          rcases this with h | h
          · rw [hp0col] at h
            omega
          · rw [hp0col] at h
            omega
    | none =>
      have hnone : ∀ r ∈ rs, f ⟨r, c⟩ = false :=
        (innerFind_none_iff f c rs).mp hinner
      rw [ih hpw' p]
      constructor
      · rintro ⟨hpc, hpr, hpf, hmin⟩
        refine ⟨List.mem_cons_of_mem _ hpc, hpr, hpf, ?_⟩
        intro q hqc hqr hqf
        rcases List.mem_cons.mp hqc with h' | h'
        · exfalso
          have hq : q = ⟨q.row, c⟩ := by cases q; simp only at h' ⊢; simp [h']
          rw [hq] at hqf
          rw [hnone q.row hqr] at hqf
          exact absurd hqf (by simp)
        · exact hmin q h' hqr hqf
      · rintro ⟨hpc, hpr, hpf, hmin⟩
        rcases List.mem_cons.mp hpc with h' | h'
        · exfalso
          have hp : p = ⟨p.row, c⟩ := by cases p; simp only at h' ⊢; simp [h']
          rw [hp] at hpf
          rw [hnone p.row hpr] at hpf
          exact absurd hpf (by simp)
        · exact ⟨h', hpr, hpf, fun q hqc hqr hqf => hmin q (List.mem_cons_of_mem _ hqc) hqr hqf⟩

theorem outerFind_none_iff (f : Position → Bool) (rs : List Nat) :
    ∀ cs : List Nat,
      (cs.findSome? (fun column => innerFind f column rs) = none ↔
        ∀ c ∈ cs, ∀ r ∈ rs, f ⟨r, c⟩ = false) := by
  intro cs
  induction cs with
  | nil => simp
  | cons c cs ih =>
    rw [List.findSome?_cons]
    cases hinner : innerFind f c rs with
    | some p0 =>
      simp only
      constructor
      · intro h; exact absurd h (by simp)
      · intro h
        have : innerFind f c rs = none :=
          (innerFind_none_iff f c rs).mpr (fun r hr => h c (List.mem_cons_self _ _) r hr)
        rw [this] at hinner
        exact absurd hinner (by simp)
    | none =>
      rw [ih]
      constructor
      · intro h c' hc' r hr
        rcases List.mem_cons.mp hc' with h' | h'
        · rw [h']
          exact (innerFind_none_iff f c rs).mp hinner r hr
        · exact h c' h' r hr
      · intro h c' hc' r hr
        exact h c' (List.mem_cons_of_mem _ hc') r hr

theorem mem_row_ones_iff (cov : Coverage) (r : Nat) :
    r ∈ cov.row_ones ↔ (r < cov.n ∧ cov.is_row_covered r = false) := by
  unfold Coverage.row_ones Coverage.is_row_covered
  rw [List.mem_filter, List.mem_range]
  constructor
  · rintro ⟨h1, h2⟩; exact ⟨h1, by rw [h2]; rfl⟩
  · rintro ⟨h1, h2⟩
    refine ⟨h1, ?_⟩
    cases h : cov.uncovered_rows.getD r false
    · rw [h] at h2; exact absurd h2 (by simp)
    · rfl

theorem mem_column_ones_iff (cov : Coverage) (c : Nat) :
    c ∈ cov.column_ones ↔ (c < cov.n ∧ cov.is_column_covered c = false) := by
  unfold Coverage.column_ones Coverage.is_column_covered
  rw [List.mem_filter, List.mem_range]
  constructor
  · rintro ⟨h1, h2⟩; exact ⟨h1, by rw [h2]; rfl⟩
  · rintro ⟨h1, h2⟩
    refine ⟨h1, ?_⟩
    cases h : cov.uncovered_columns.getD c false
    · rw [h] at h2; exact absurd h2 (by simp)
    · rfl

theorem row_ones_pairwise (cov : Coverage) : cov.row_ones.Pairwise (· < ·) :=
  (List.pairwise_lt_range _).filter _

theorem column_ones_pairwise (cov : Coverage) : cov.column_ones.Pairwise (· < ·) :=
  (List.pairwise_lt_range _).filter _

/-- An uncovered in-range cell satisfying the search predicate. -/
def UncoveredCandidate (cov : Coverage) (f : Position → Bool) (p : Position) : Prop :=
  p.row < cov.n ∧ p.column < cov.n ∧
  cov.is_row_covered p.row = false ∧ cov.is_column_covered p.column = false ∧
  f p = true

/-- C8: `find_uncovered_cell_column_row_order` scans columns in the outer
loop and rows in the inner loop, each ascending and skipping covered
lines: it returns `some p` exactly when `p` is the uncovered cell
satisfying the predicate that is least in the (column, row) lexicographic
order, and `none` exactly when no uncovered cell satisfies it; and Step 4
primes exactly the position this search returns. -/
theorem C8_find_column_major_order (cov : Coverage) (f : Position → Bool) :
    (∀ p : Position,
      (cov.find_uncovered_cell_column_row_order f = some p ↔
        (UncoveredCandidate cov f p ∧
          ∀ q : Position, UncoveredCandidate cov f q →
            (p.column < q.column ∨ (p.column = q.column ∧ p.row ≤ q.row))))) ∧
    ((cov.find_uncovered_cell_column_row_order f = none ↔
        ∀ q : Position, ¬ UncoveredCandidate cov f q)) ∧
    (∀ (c : WeightMatrix) (marks : MarkMatrix) (fuel : Nat) (p : Position),
      cov.find_uncovered_cell_column_row_order (fun pos => c.is_element_zero pos) = some p →
      step4Go c (fuel + 1) marks cov =
        (match (marks.prime p).find_first_star_in_row p.row with
          | some starCol =>
              step4Go c fuel (marks.prime p) ((cov.cover_row p.row).uncover_column starCol)
          | none => some (marks.prime p, cov, .step5 p.row p.column))) := by
  refine ⟨?_, ?_, ?_⟩
  · intro p
    rw [find_eq_innerFind,
      outerFind_some_iff f cov.row_ones (row_ones_pairwise cov) cov.column_ones
        (column_ones_pairwise cov) p]
    unfold UncoveredCandidate
    constructor
    · rintro ⟨h1, h2, h3, h4⟩
      obtain ⟨hc1, hc2⟩ := (mem_column_ones_iff cov p.column).mp h1
      obtain ⟨hr1, hr2⟩ := (mem_row_ones_iff cov p.row).mp h2
      refine ⟨⟨hr1, hc1, hr2, hc2, h3⟩, ?_⟩
      rintro q ⟨hq1, hq2, hq3, hq4, hq5⟩
      exact h4 q ((mem_column_ones_iff cov q.column).mpr ⟨hq2, hq4⟩)
        ((mem_row_ones_iff cov q.row).mpr ⟨hq1, hq3⟩) hq5
    · rintro ⟨⟨h1, h2, h3, h4, h5⟩, hmin⟩
      refine ⟨(mem_column_ones_iff cov p.column).mpr ⟨h2, h4⟩,
        (mem_row_ones_iff cov p.row).mpr ⟨h1, h3⟩, h5, ?_⟩
      intro q hqc hqr hqf
      obtain ⟨hc1, hc2⟩ := (mem_column_ones_iff cov q.column).mp hqc
      obtain ⟨hr1, hr2⟩ := (mem_row_ones_iff cov q.row).mp hqr
      exact hmin q ⟨hr1, hc1, hr2, hc2, hqf⟩
  · rw [find_eq_innerFind, outerFind_none_iff f cov.row_ones cov.column_ones]
    unfold UncoveredCandidate
    constructor
    · intro h q hq
      obtain ⟨h1, h2, h3, h4, h5⟩ := hq
      have := h q.column ((mem_column_ones_iff cov q.column).mpr ⟨h2, h4⟩)
        q.row ((mem_row_ones_iff cov q.row).mpr ⟨h1, h3⟩)
      have hq' : (⟨q.row, q.column⟩ : Position) = q := rfl
      rw [hq'] at this
      rw [this] at h5
      exact absurd h5 (by simp)
    · intro h c hc r hr
      obtain ⟨hc1, hc2⟩ := (mem_column_ones_iff cov c).mp hc
      obtain ⟨hr1, hr2⟩ := (mem_row_ones_iff cov r).mp hr
      by_cases hf : f ⟨r, c⟩
      · exact absurd (h ⟨r, c⟩) (by simp [UncoveredCandidate, hr1, hc1, hr2, hc2, hf])
      · simpa using hf
  · intro c marks fuel p hfind
    show (match cov.find_uncovered_cell_column_row_order
        (fun pos => c.is_element_zero pos) with
      | Option.none => some (marks, cov, Step.step6)
      | Option.some pos =>
        match (marks.prime pos).find_first_star_in_row pos.row with
        | Option.some starCol =>
            step4Go c fuel (marks.prime pos) ((cov.cover_row pos.row).uncover_column starCol)
        | Option.none => some (marks.prime pos, cov, Step.step5 pos.row pos.column)) =
      (match (marks.prime p).find_first_star_in_row p.row with
        | Option.some starCol =>
            step4Go c fuel (marks.prime p) ((cov.cover_row p.row).uncover_column starCol)
        | Option.none => some (marks.prime p, cov, Step.step5 p.row p.column))
    rw [hfind]

/-- Witness for C8: with column 0 covered on a 3×3 coverage, the search
for "always true" finds `(0, 1)` — the colexicographically least uncovered
cell; the theorem also yields its minimality against e.g. `(2, 2)`, and
"always false" yields `none`. -/
theorem C8_find_column_major_order_witness :
    UncoveredCandidate ((Coverage.new 3).cover_column 0) (fun _ => true) ⟨0, 1⟩ ∧
    ((⟨0, 1⟩ : Position).column < (⟨2, 2⟩ : Position).column ∨
      ((⟨0, 1⟩ : Position).column = (⟨2, 2⟩ : Position).column ∧
        (⟨0, 1⟩ : Position).row ≤ (⟨2, 2⟩ : Position).row)) ∧
    ((Coverage.new 3).cover_column 0).find_uncovered_cell_column_row_order
        (fun _ => false) = none := by
  have h := ((C8_find_column_major_order ((Coverage.new 3).cover_column 0)
      (fun _ => true)).1 ⟨0, 1⟩).mp (by decide)
  refine ⟨h.1, h.2 ⟨2, 2⟩ ?_, by decide⟩
  unfold UncoveredCandidate
  decide

/-! ## C3 — Step 6 with no valid uncovered cell: infinite loop, not failure -/

/-- The C3 failing input: a solvable 2×2 float matrix whose second column
is entirely `+∞`.  After `step1` and the initial starring, Step 4 finds no
uncovered zero and Step 6 is entered with only invalid uncovered cells. -/
def c3_matrix : WeightMatrix := ⟨2, [.fin 1, .pinf, .fin 1, .pinf]⟩

/-- The state entering Step 4 after the first pass of Step 6 on
`c3_matrix`: Step 6 computed `min = +∞` over the (all-invalid) uncovered
cells and changed nothing, so the machine cycles Step 4 ↔ Step 6 forever. -/
def c3_cycle_state : MState :=
  ⟨.step4 .none, ⟨2, [.fin 0, .pinf, .fin 0, .pinf]⟩,
    ⟨2, [.star, .none, .none, .none]⟩,
    ⟨2, [true, true], [false, true]⟩⟩

theorem solveLoop_succ (fuel : Nat) (s : MState) :
    solveLoop (fuel + 1) s =
      match stepOnce s with
      | .inr o => (o, s.c)
      | .inl s' => solveLoop fuel s' := rfl

/-- Two machine steps (Step 4 finds no uncovered zero; Step 6 adjusts by
the invalid minimum `+∞`, changing no cell) return to the same state. -/
theorem c3_cycle (f : Nat) :
    solveLoop (f + 2) c3_cycle_state = solveLoop f c3_cycle_state := rfl

theorem c3_cycle_diverges : ∀ f : Nat, (solveLoop f c3_cycle_state).1 = .diverge := by
  intro f
  induction f using Nat.strong_induction_on with
  | _ f ih =>
    match f with
    | 0 => rfl
    | 1 => decide
    | (k + 2) =>
      rw [c3_cycle k]
      exact ih k (by omega)

/-- The solve on `c3_matrix` reaches the Step-4/Step-6 cycle after five
transitions (Step 1, Step 2, Step 3, Step 4, Step 6). -/
theorem c3_reach (f : Nat) :
    solveLoop (f + 5) ⟨.step1, c3_matrix, MarkMatrix.new 2, Coverage.new 2⟩ =
      solveLoop f c3_cycle_state := rfl

/-- C3 (code bug): on the solvable matrix `[[1, +∞], [1, +∞]]` the solve
enters Step 6 with no uncovered valid cell; the claim (and the spec) say
this returns the `MatrixNotSolvable` failure, but `step6` computes its
minimum over *all* uncovered cells with no validity filter (here `+∞`),
adjusts nothing, and the machine loops Step 4 ↔ Step 6 forever: for every
amount of fuel the call diverges instead of failing. -/
theorem C3_step6_no_valid_uncovered_diverges :
    (∀ fuel : Nat, (solve_assignment fuel c3_matrix).1 = .diverge) ∧
    step6Min c3_cycle_state.c c3_cycle_state.cov = some .pinf ∧
    (∀ p : Position, p.row < 2 → p.column < 2 →
      c3_cycle_state.cov.is_row_covered p.row = false →
      c3_cycle_state.cov.is_column_covered p.column = false →
      (c3_cycle_state.c.element_at p).isValid = false) := by
  refine ⟨?_, by decide, ?_⟩
  · intro fuel
    have hsolve : solve_assignment fuel c3_matrix =
        solveLoop fuel ⟨.step1, c3_matrix, MarkMatrix.new 2, Coverage.new 2⟩ := by
      unfold solve_assignment
      rw [if_neg (by decide), if_neg (by decide)]
      rfl
    rw [hsolve]
    match fuel with
    | 0 => rfl
    | 1 => decide
    | 2 => decide
    | 3 => decide
    | 4 => decide
    | (f + 5) =>
      rw [c3_reach f]
      exact (c3_cycle_diverges f)
  · rintro ⟨r, c⟩ hr hc
    interval_cases r <;> interval_cases c <;> decide

/-! ## Shared predicates and further pointwise lemmas for the machine proof -/

/-- A position inside the `n×n` grid. -/
def InRange (n : Nat) (p : Position) : Prop := p.row < n ∧ p.column < n

/-- At most one star per row and per column (among in-range cells). -/
def StarsUnique (n : Nat) (mk : MarkMatrix) : Prop :=
  ∀ p q : Position, InRange n p → InRange n q → mk.is_star p → mk.is_star q →
    (p.row = q.row ∨ p.column = q.column) → p = q

/-- At most one prime per row (among in-range cells). -/
def PrimesRowUnique (n : Nat) (mk : MarkMatrix) : Prop :=
  ∀ p q : Position, InRange n p → InRange n q → mk.is_prime p → mk.is_prime q →
    p.row = q.row → p = q

/-- No primed cell (among in-range cells). -/
def PrimeFree (n : Nat) (mk : MarkMatrix) : Prop :=
  ∀ p : Position, InRange n p → ¬ mk.is_prime p

/-- Every primed cell's row is covered. -/
def PrimesCovered (n : Nat) (mk : MarkMatrix) (cov : Coverage) : Prop :=
  ∀ p : Position, InRange n p → mk.is_prime p → cov.is_row_covered p.row = true

namespace MarkMatrix

theorem n_toggle_star (mk : MarkMatrix) (pos : Position) :
    (mk.toggle_star pos).n = mk.n := by
  unfold MarkMatrix.toggle_star
  by_cases h : mk.is_star pos
  · rw [if_pos h]; rfl
  · rw [if_neg h]; rfl

theorem length_toggle_star (mk : MarkMatrix) (pos : Position) :
    (mk.toggle_star pos).marks.length = mk.marks.length := by
  unfold MarkMatrix.toggle_star
  by_cases h : mk.is_star pos
  · rw [if_pos h]; exact length_set_mark _ _ _
  · rw [if_neg h]; exact length_set_mark _ _ _

theorem get_mark_toggle_star (mk : MarkMatrix) (pos : Position)
    (q : Position) (hlen : mk.marks.length = mk.n * mk.n)
    (hpr : pos.row < mk.n) (hpc : pos.column < mk.n)
    (hqr : q.row < mk.n) (hqc : q.column < mk.n) :
    (mk.toggle_star pos).get_mark q =
      if q = pos then (if mk.is_star pos then .none else .star)
      else mk.get_mark q := by
  unfold MarkMatrix.toggle_star
  by_cases h : mk.is_star pos
  · rw [if_pos h]
    unfold MarkMatrix.unmark
    rw [get_mark_set_mark mk pos .none q hlen hpr hpc hqr hqc]
    by_cases heq : q = pos
    · rw [if_pos heq, if_pos heq, if_pos h]
    · rw [if_neg heq, if_neg heq]
  · rw [if_neg h]
    unfold MarkMatrix.star
    rw [get_mark_set_mark mk pos .star q hlen hpr hpc hqr hqc]
    by_cases heq : q = pos
    · rw [if_pos heq, if_pos heq, if_neg h]
    · rw [if_neg heq, if_neg heq]

theorem n_clear_primes (mk : MarkMatrix) : mk.clear_primes.n = mk.n := rfl

theorem length_clear_primes (mk : MarkMatrix) :
    mk.clear_primes.marks.length = mk.marks.length := by
  unfold MarkMatrix.clear_primes
  exact List.length_map _ _

theorem get_mark_clear_primes (mk : MarkMatrix) (q : Position) :
    mk.clear_primes.get_mark q =
      (if mk.get_mark q = .prime then .none else mk.get_mark q) := by
  unfold MarkMatrix.clear_primes MarkMatrix.get_mark
  simp only
  by_cases hlen : q.row * mk.n + q.column < mk.marks.length
  · rw [List.getD_eq_getElem _ _ hlen,
      List.getD_eq_getElem _ _ (by rw [List.length_map]; exact hlen),
      List.getElem_map]
  · rw [List.getD_eq_default _ _ (Nat.le_of_not_lt hlen),
      List.getD_eq_default _ _ (by rw [List.length_map]; exact Nat.le_of_not_lt hlen)]
    rfl

/-- The positions of `star_list n mk` are exactly the in-range stars. -/
theorem mem_star_list_iff (n : Nat) (mk : MarkMatrix) (p : Position) :
    p ∈ star_list n mk ↔ (p.row < n ∧ p.column < n ∧ mk.is_star p = true) := by
  unfold star_list
  rw [List.mem_flatMap]
  constructor
  · rintro ⟨r, hr, hmem⟩
    rw [List.mem_map] at hmem
    obtain ⟨c, hc, hpc⟩ := hmem
    rw [List.mem_filter] at hc
    subst hpc
    exact ⟨List.mem_range.mp hr, List.mem_range.mp hc.1, hc.2⟩
  · rintro ⟨h1, h2, h3⟩
    refine ⟨p.row, List.mem_range.mpr h1, ?_⟩
    rw [List.mem_map]
    refine ⟨p.column, ?_, rfl⟩
    rw [List.mem_filter]
    exact ⟨List.mem_range.mpr h2, h3⟩

theorem star_list_nodup (n : Nat) (mk : MarkMatrix) : (star_list n mk).Nodup := by
  unfold star_list
  rw [List.nodup_flatMap]
  constructor
  · intro r _
    refine List.Nodup.map ?_ ((List.nodup_range n).filter _)
    intro a b hab
    injection hab
  · rw [List.pairwise_iff_forall_sublist]
    intro a b hab
    rw [Function.onFun, List.disjoint_left]
    intro x hx hx'
    rw [List.mem_map] at hx hx'
    obtain ⟨c1, _, h1⟩ := hx
    obtain ⟨c2, _, h2⟩ := hx'
    have hrow1 : x.row = a := by rw [← h1]
    have hrow2 : x.row = b := by rw [← h2]
    have hab' : a ≠ b := by
      have := (List.nodup_range n).sublist hab
      rw [List.nodup_cons] at this
      intro h
      exact this.1 (by rw [h]; exact List.mem_cons_self _ _)
    exact hab' (by rw [← hrow1, hrow2])

end MarkMatrix

/-- A `Nodup` list of `n` naturals below `n` mentions every `j < n`
exactly once (pigeonhole). -/
theorem count_eq_one_of_nodup_full (l : List Nat) (n : Nat)
    (hnd : l.Nodup) (hlt : ∀ x ∈ l, x < n) (hlen : l.length = n) :
    ∀ j, j < n → l.count j = 1 := by
  intro j hj
  have hsub : l.toFinset ⊆ Finset.range n := by
    intro x hx
    rw [Finset.mem_range]
    exact hlt x (List.mem_toFinset.mp hx)
  have hcard : l.toFinset.card = n := by
    rw [List.toFinset_card_of_nodup hnd, hlen]
  have heq : l.toFinset = Finset.range n :=
    Finset.eq_of_subset_of_card_le hsub (by rw [hcard, Finset.card_range])
  have hmem : j ∈ l := by
    rw [← List.mem_toFinset, heq, Finset.mem_range]
    exact hj
  exact List.count_eq_one_of_mem hnd hmem

theorem count_map_eq_countP (f : α → Nat) (l : List α) (a : Nat) :
    (l.map f).count a = l.countP (fun x => f x == a) := by
  rw [List.count, List.countP_map]
  rfl

/-- `find?` over `List.range`: success gives a witness below `n` with the
property; failure gives the property false below `n`. -/
theorem find_range_some {n : Nat} {p : Nat → Bool} {a : Nat}
    (h : (List.range n).find? p = some a) : a < n ∧ p a = true :=
  ⟨List.mem_range.mp (List.mem_of_find?_eq_some h), List.find?_some h⟩

theorem find_range_none {n : Nat} {p : Nat → Bool}
    (h : (List.range n).find? p = none) : ∀ a, a < n → p a = false := by
  intro a ha
  have := List.find?_eq_none.mp h a (List.mem_range.mpr ha)
  simpa using this

theorem find_first_star_in_row_some {mk : MarkMatrix} {row col : Nat}
    (h : mk.find_first_star_in_row row = some col) :
    col < mk.n ∧ mk.is_star ⟨row, col⟩ = true :=
  find_range_some h

theorem find_first_star_in_row_none {mk : MarkMatrix} {row : Nat}
    (h : mk.find_first_star_in_row row = none) :
    ∀ col, col < mk.n → mk.is_star ⟨row, col⟩ = false :=
  find_range_none h

theorem find_first_star_in_column_some {mk : MarkMatrix} {col row : Nat}
    (h : mk.find_first_star_in_column col = some row) :
    row < mk.n ∧ mk.is_star ⟨row, col⟩ = true :=
  find_range_some h

theorem find_first_star_in_column_none {mk : MarkMatrix} {col : Nat}
    (h : mk.find_first_star_in_column col = none) :
    ∀ row, row < mk.n → mk.is_star ⟨row, col⟩ = false :=
  find_range_none h

theorem find_first_prime_in_row_some {mk : MarkMatrix} {row col : Nat}
    (h : mk.find_first_prime_in_row row = some col) :
    col < mk.n ∧ mk.is_prime ⟨row, col⟩ = true :=
  find_range_some h

/-! ## Step 5: structure of the augmenting path -/

/-- The alternating path built by `step5`'s loop from a column, over a
static mark matrix: empty when the column has no star; otherwise the
(first) star of the column, then the (first) prime of that star's row,
then the path from that prime's column. -/
inductive Step5Path (marks : MarkMatrix) : Nat → List Position → Prop
  | nil (col : Nat) (hstar : marks.find_first_star_in_column col = none) :
      Step5Path marks col []
  | cons (col row col' : Nat) (L : List Position)
      (hstar : marks.find_first_star_in_column col = some row)
      (hprime : marks.find_first_prime_in_row row = some col')
      (rest : Step5Path marks col' L) :
      Step5Path marks col (⟨row, col⟩ :: ⟨row, col'⟩ :: L)

theorem step5Go_succ (marks : MarkMatrix) (f prevCol : Nat) (path : List Position) :
    step5Go marks (f + 1) prevCol path =
      match marks.find_first_star_in_column prevCol with
      | .some row =>
        match marks.find_first_prime_in_row row with
        | .some col => step5Go marks f col (path ++ [⟨row, prevCol⟩, ⟨row, col⟩])
        | .none => some .none
      | .none => some (some path) := rfl

/-- A successful `step5Go` run extends the accumulated path by a
`Step5Path`. -/
theorem step5Go_to_path (marks : MarkMatrix) :
    ∀ (f : Nat) (col : Nat) (path out : List Position),
      step5Go marks f col path = some (some out) →
      ∃ L, out = path ++ L ∧ Step5Path marks col L := by
  intro f
  induction f with
  | zero => intro col path out h; exact absurd h (by simp [step5Go])
  | succ f ih =>
    intro col path out h
    rw [step5Go_succ] at h
    split at h
    next row hstar =>
      split at h
      next col' hprime =>
        obtain ⟨L, hout, hpath⟩ := ih col' (path ++ [⟨row, col⟩, ⟨row, col'⟩]) out h
        refine ⟨⟨row, col⟩ :: ⟨row, col'⟩ :: L, ?_,
          Step5Path.cons col row col' L hstar hprime hpath⟩
        rw [hout]
        simp
      next hprime =>
        injection h with h'
        exact absurd h' (by simp)
    next hstar =>
      injection h with h'
      injection h' with h''
      exact ⟨[], by rw [← h'']; simp, Step5Path.nil col hstar⟩

/-- The path from a given column is unique. -/
theorem step5Path_det (marks : MarkMatrix) :
    ∀ {col : Nat} {L1 : List Position}, Step5Path marks col L1 →
      ∀ {L2 : List Position}, Step5Path marks col L2 → L1 = L2 := by
  intro col L1 h1
  induction h1 with
  | nil col hstar =>
    intro L2 h2
    cases h2 with
    | nil => rfl
    | cons _ row _ _ hstar2 =>
      rw [hstar] at hstar2
      exact absurd hstar2 (by simp)
  | cons col row col' L hstar hprime rest ih =>
    intro L2 h2
    cases h2 with
    | nil _ hstar2 =>
      rw [hstar] at hstar2
      exact absurd hstar2 (by simp)
    | cons _ row2 col2 L2' hstar2 hprime2 rest2 =>
      rw [hstar] at hstar2
      injection hstar2 with hrow
      subst hrow
      rw [hprime] at hprime2
      injection hprime2 with hcol
      subst hcol
      rw [ih rest2]

/-- The columns visited by the loop: the starting column, then the column
of every primed cell on the path. -/
def primeCols : List Position → List Nat
  | _ :: q :: L => q.column :: primeCols L
  | _ => []

/-- The starred cells of the path (even positions). -/
def pairStars : List Position → List Position
  | s :: _ :: L => s :: pairStars L
  | _ => []

/-- The primed cells of the path (odd positions). -/
def pairPrimes : List Position → List Position
  | _ :: q :: L => q :: pairPrimes L
  | _ => []

theorem pairStars_subset : ∀ (L : List Position), ∀ s ∈ pairStars L, s ∈ L
  | [] => by simp [pairStars]
  | [x] => by simp [pairStars]
  | x :: y :: L => by
    intro s hs
    rw [show pairStars (x :: y :: L) = x :: pairStars L from rfl] at hs
    rcases List.mem_cons.mp hs with h | h
    · rw [h]; exact List.mem_cons_self _ _
    · exact List.mem_cons_of_mem _ (List.mem_cons_of_mem _ (pairStars_subset L s h))

theorem pairPrimes_subset : ∀ (L : List Position), ∀ q ∈ pairPrimes L, q ∈ L
  | [] => by simp [pairPrimes]
  | [x] => by simp [pairPrimes]
  | x :: y :: L => by
    intro q hq
    rw [show pairPrimes (x :: y :: L) = y :: pairPrimes L from rfl] at hq
    rcases List.mem_cons.mp hq with h | h
    · rw [h]; exact List.mem_cons_of_mem _ (List.mem_cons_self _ _)
    · exact List.mem_cons_of_mem _ (List.mem_cons_of_mem _ (pairPrimes_subset L q h))

/-- Every element of a `Step5Path` list is one of its stars or primes. -/
theorem step5Path_elem_cases (marks : MarkMatrix) {col : Nat} {L : List Position}
    (d : Step5Path marks col L) :
    ∀ p ∈ L, p ∈ pairStars L ∨ p ∈ pairPrimes L := by
  induction d with
  | nil => simp
  | cons col row col' L hstar hprime rest ih =>
    intro p hp
    rw [show pairStars (⟨row, col⟩ :: ⟨row, col'⟩ :: L) = ⟨row, col⟩ :: pairStars L
        from rfl,
      show pairPrimes (⟨row, col⟩ :: ⟨row, col'⟩ :: L) = ⟨row, col'⟩ :: pairPrimes L
        from rfl]
    rcases List.mem_cons.mp hp with h | h
    · exact Or.inl (by rw [h]; exact List.mem_cons_self _ _)
    · rcases List.mem_cons.mp h with h' | h'
      · exact Or.inr (by rw [h']; exact List.mem_cons_self _ _)
      · rcases ih p h' with h'' | h''
        · exact Or.inl (List.mem_cons_of_mem _ h'')
        · exact Or.inr (List.mem_cons_of_mem _ h'')

/-- The stars of a path are starred cells with in-range rows. -/
theorem step5Path_star_facts (marks : MarkMatrix) {col : Nat} {L : List Position}
    (d : Step5Path marks col L) :
    ∀ s ∈ pairStars L, marks.is_star s = true ∧ s.row < marks.n := by
  induction d with
  | nil => simp [pairStars]
  | cons col row col' L hstar hprime rest ih =>
    intro s hs
    rw [show pairStars (⟨row, col⟩ :: ⟨row, col'⟩ :: L) = ⟨row, col⟩ :: pairStars L
        from rfl] at hs
    rcases List.mem_cons.mp hs with h | h
    · obtain ⟨h1, h2⟩ := find_first_star_in_column_some hstar
      rw [h]
      exact ⟨h2, h1⟩
    · exact ih s h

/-- The primes of a path are primed cells, in range. -/
theorem step5Path_prime_facts (marks : MarkMatrix) {col : Nat} {L : List Position}
    (d : Step5Path marks col L) :
    ∀ q ∈ pairPrimes L, marks.is_prime q = true ∧ q.row < marks.n ∧ q.column < marks.n := by
  induction d with
  | nil => simp [pairPrimes]
  | cons col row col' L hstar hprime rest ih =>
    intro q hq
    rw [show pairPrimes (⟨row, col⟩ :: ⟨row, col'⟩ :: L) = ⟨row, col'⟩ :: pairPrimes L
        from rfl] at hq
    rcases List.mem_cons.mp hq with h | h
    · obtain ⟨hp1, hp2⟩ := find_first_prime_in_row_some hprime
      obtain ⟨hs1, _⟩ := find_first_star_in_column_some hstar
      rw [h]
      exact ⟨hp2, hs1, hp1⟩
    · exact ih q h

/-- Every prime of the path has a star of the path in its row. -/
theorem step5Path_prime_has_star (marks : MarkMatrix) {col : Nat} {L : List Position}
    (d : Step5Path marks col L) :
    ∀ q ∈ pairPrimes L, ∃ s ∈ pairStars L, s.row = q.row := by
  induction d with
  | nil => simp [pairPrimes]
  | cons col row col' L hstar hprime rest ih =>
    intro q hq
    rw [show pairPrimes (⟨row, col⟩ :: ⟨row, col'⟩ :: L) = ⟨row, col'⟩ :: pairPrimes L
        from rfl] at hq
    rw [show pairStars (⟨row, col⟩ :: ⟨row, col'⟩ :: L) = ⟨row, col⟩ :: pairStars L
        from rfl]
    rcases List.mem_cons.mp hq with h | h
    · exact ⟨⟨row, col⟩, List.mem_cons_self _ _, by rw [h]⟩
    · obtain ⟨s, hs, hrow⟩ := ih q h
      exact ⟨s, List.mem_cons_of_mem _ hs, hrow⟩

/-- The prime columns of the path are the columns of its primed cells. -/
theorem primeCols_eq_map : ∀ (L : List Position),
    primeCols L = (pairPrimes L).map (fun q => q.column)
  | [] => rfl
  | [x] => rfl
  | x :: q :: L => by
    rw [show primeCols (x :: q :: L) = q.column :: primeCols L from rfl,
      show pairPrimes (x :: q :: L) = q :: pairPrimes L from rfl, List.map_cons,
      primeCols_eq_map L]

theorem step5Path_suffix_shorter (marks : MarkMatrix) {col : Nat} {L : List Position}
    (d : Step5Path marks col L) :
    ∀ c' ∈ primeCols L, ∃ L', Step5Path marks c' L' ∧ L'.length < L.length := by
  induction d with
  | nil => simp [primeCols]
  | cons col row col' L hstar hprime rest ih =>
    intro c' hc'
    rw [show primeCols (⟨row, col⟩ :: ⟨row, col'⟩ :: L) = col' :: primeCols L
        from rfl] at hc'
    rcases List.mem_cons.mp hc' with h | h
    · exact ⟨L, by rw [h]; exact rest, by simp only [List.length_cons]; omega⟩
    · obtain ⟨L', hL', hlen⟩ := ih c' h
      refine ⟨L', hL', ?_⟩
      simp only [List.length_cons]
      omega

/-- The columns visited by the loop are pairwise distinct: a repeat would
make the deterministic loop cycle, contradicting its termination. -/
theorem step5Path_cols_nodup (marks : MarkMatrix) :
    ∀ {col : Nat} {L : List Position}, Step5Path marks col L →
      (col :: primeCols L).Nodup := by
  intro col L d
  induction d with
  | nil col hstar => simp [primeCols]
  | cons col row col' L hstar hprime rest ih =>
    rw [show primeCols (⟨row, col⟩ :: ⟨row, col'⟩ :: L) = col' :: primeCols L
        from rfl, List.nodup_cons]
    refine ⟨?_, ih⟩
    intro hmem
    have d' : Step5Path marks col (⟨row, col⟩ :: ⟨row, col'⟩ :: L) :=
      Step5Path.cons col row col' L hstar hprime rest
    rcases List.mem_cons.mp hmem with h | h
    · have rest' : Step5Path marks col L := by rw [h]; exact rest
      have heq := step5Path_det marks d' rest'
      have hlen := congrArg List.length heq
      simp only [List.length_cons] at hlen
      omega
    · obtain ⟨L', hL', hlen⟩ := step5Path_suffix_shorter marks rest col h
      have heq := step5Path_det marks d' hL'
      have hlen2 := congrArg List.length heq
      simp only [List.length_cons] at hlen2
      omega

/-- The star cells of the path have their columns among the visited
columns. -/
theorem step5Path_star_cols (marks : MarkMatrix) {col : Nat} {L : List Position}
    (d : Step5Path marks col L) :
    ∀ s ∈ pairStars L, s.column ∈ col :: primeCols L := by
  induction d with
  | nil => simp [pairStars]
  | cons col row col' L hstar hprime rest ih =>
    intro s hs
    rw [show pairStars (⟨row, col⟩ :: ⟨row, col'⟩ :: L) = ⟨row, col⟩ :: pairStars L
        from rfl] at hs
    rw [show primeCols (⟨row, col⟩ :: ⟨row, col'⟩ :: L) = col' :: primeCols L from rfl]
    rcases List.mem_cons.mp hs with h | h
    · rw [h]
      exact List.mem_cons_self _ _
    · have := ih s h
      rcases List.mem_cons.mp this with h' | h'
      · exact List.mem_cons_of_mem _ (by rw [h']; exact List.mem_cons_self _ _)
      · exact List.mem_cons_of_mem _ (List.mem_cons_of_mem _ h')

theorem is_star_iff_get (mk : MarkMatrix) (p : Position) :
    mk.is_star p = true ↔ mk.get_mark p = .star := by
  unfold MarkMatrix.is_star
  exact decide_eq_true_iff

theorem is_prime_iff_get (mk : MarkMatrix) (p : Position) :
    mk.is_prime p = true ↔ mk.get_mark p = .prime := by
  unfold MarkMatrix.is_prime
  exact decide_eq_true_iff

theorem not_star_and_prime (mk : MarkMatrix) (p : Position) :
    mk.is_star p = true → mk.is_prime p = true → False := by
  rw [is_star_iff_get, is_prime_iff_get]
  intro h1 h2
  rw [h1] at h2
  exact Mark.noConfusion h2

/-- Among in-range cells, any star of the mark matrix whose column is a
visited column of the path is one of the path's star cells. -/
theorem step5Path_star_mem (n : Nat) (marks : MarkMatrix) (hwf : marks.n = n)
    (hsu : StarsUnique n marks) {col : Nat} {L : List Position}
    (d : Step5Path marks col L) :
    ∀ p : Position, InRange n p → marks.is_star p = true →
      p.column ∈ col :: primeCols L → p ∈ pairStars L := by
  induction d with
  | nil col hstar =>
    intro p hpin hps hmem
    rw [show primeCols ([] : List Position) = [] from rfl] at hmem
    have hcol : p.column = col := by simpa using hmem
    have := find_first_star_in_column_none hstar p.row (by rw [hwf]; exact hpin.1)
    have hp : (⟨p.row, col⟩ : Position) = p := by
      cases p
      simp only at hcol ⊢
      rw [hcol]
    rw [hp] at this
    rw [this] at hps
    exact absurd hps (by simp)
  | cons col row col' L hstar hprime rest ih =>
    intro p hpin hps hmem
    rw [show primeCols (⟨row, col⟩ :: ⟨row, col'⟩ :: L) = col' :: primeCols L
        from rfl] at hmem
    rw [show pairStars (⟨row, col⟩ :: ⟨row, col'⟩ :: L) = ⟨row, col⟩ :: pairStars L
        from rfl]
    rcases List.mem_cons.mp hmem with h | h
    · obtain ⟨hrow_lt, hs⟩ := find_first_star_in_column_some hstar
      have hsin : InRange n (⟨row, col⟩ : Position) := by
        refine ⟨by rw [← hwf]; exact hrow_lt, ?_⟩
        rw [← h]
        exact hpin.2
      have := hsu p ⟨row, col⟩ hpin hsin hps hs (Or.inr h)
      rw [this]
      exact List.mem_cons_self _ _
    · exact List.mem_cons_of_mem _ (ih p hpin hps h)

/-- The path cells are pairwise distinct. -/
theorem step5Path_list_nodup (marks : MarkMatrix) :
    ∀ {col : Nat} {L : List Position}, Step5Path marks col L → L.Nodup := by
  intro col L d
  induction d with
  | nil => simp
  | cons col row col' L hstar hprime rest ih =>
    have d' : Step5Path marks col (⟨row, col⟩ :: ⟨row, col'⟩ :: L) :=
      Step5Path.cons col row col' L hstar hprime rest
    have hcolsnd := step5Path_cols_nodup marks d'
    rw [show primeCols (⟨row, col⟩ :: ⟨row, col'⟩ :: L) = col' :: primeCols L
        from rfl] at hcolsnd
    have hrestnd := step5Path_cols_nodup marks rest
    rw [List.nodup_cons, List.nodup_cons] at hcolsnd
    obtain ⟨hc1, hc2, hc3⟩ := hcolsnd
    rw [List.nodup_cons] at hrestnd
    rw [List.nodup_cons, List.nodup_cons]
    obtain ⟨hsq, hsp⟩ := find_first_star_in_column_some hstar
    obtain ⟨hq1, hq2⟩ := find_first_prime_in_row_some hprime
    refine ⟨?_, ?_, ih⟩
    · -- the star ⟨row, col⟩ appears nowhere later in the path
      intro hmem
      rcases List.mem_cons.mp hmem with h | h
      · -- s = q : their columns differ
        have : col = col' := by
          have := congrArg Position.column h
          simpa using this
        exact hc1 (by rw [this]; exact List.mem_cons_self _ _)
      · rcases step5Path_elem_cases marks rest _ h with h' | h'
        · -- a star of the rest: its column is among the later columns
          have := step5Path_star_cols marks rest _ h'
          simp only at this
          exact hc1 this
        · -- a prime of the rest: mark clash
          have := (step5Path_prime_facts marks rest _ h').1
          exact not_star_and_prime marks _ hsp this
    · -- the prime ⟨row, col'⟩ appears nowhere later in the path
      intro hmem
      rcases step5Path_elem_cases marks rest _ hmem with h' | h'
      · have := (step5Path_star_facts marks rest _ h').1
        exact not_star_and_prime marks _ this hq2
      · have hmemcol : col' ∈ primeCols L := by
          rw [primeCols_eq_map]
          exact List.mem_map.mpr ⟨_, h', rfl⟩
        exact hrestnd.1 hmemcol

/-- Pointwise effect of toggling a distinct list of in-range positions. -/
theorem fold_toggle_get_mark (n : Nat) :
    ∀ (ps : List Position) (mk : MarkMatrix), mk.n = n → mk.marks.length = n * n →
      ps.Nodup → (∀ x ∈ ps, InRange n x) →
      ∀ p : Position, InRange n p →
        (ps.foldl (fun m pos => m.toggle_star pos) mk).get_mark p =
          if p ∈ ps then (if mk.is_star p then .none else .star) else mk.get_mark p := by
  intro ps
  induction ps with
  | nil => intro mk _ _ _ _ p _; simp
  | cons x ps ih =>
    intro mk hn hlen hnd hin p hp
    have hxin : InRange n x := hin x (List.mem_cons_self _ _)
    rw [List.foldl_cons]
    have hn' : (mk.toggle_star x).n = n := by rw [MarkMatrix.n_toggle_star]; exact hn
    have hlen' : (mk.toggle_star x).marks.length = n * n := by
      rw [MarkMatrix.length_toggle_star]; exact hlen
    rw [ih (mk.toggle_star x) hn' hlen' hnd.of_cons
      (fun y hy => hin y (List.mem_cons_of_mem _ hy)) p hp]
    have htog := MarkMatrix.get_mark_toggle_star mk x p
      (by rw [hn]; exact hlen) (by rw [hn]; exact hxin.1) (by rw [hn]; exact hxin.2)
      (by rw [hn]; exact hp.1) (by rw [hn]; exact hp.2)
    have hxnot : x ∉ ps := (List.nodup_cons.mp hnd).1
    by_cases hmem : p ∈ ps
    · have hpx : p ≠ x := by intro h; rw [h] at hmem; exact hxnot hmem
      rw [if_pos hmem, if_pos (List.mem_cons_of_mem _ hmem)]
      have hstar_eq : (mk.toggle_star x).is_star p = mk.is_star p := by
        unfold MarkMatrix.is_star
        rw [htog, if_neg hpx]
      rw [hstar_eq]
    · rw [if_neg hmem]
      by_cases hpx : p = x
      · subst hpx
        rw [htog, if_pos rfl, if_pos (List.mem_cons_self _ _)]
      · have hnot : p ∉ x :: ps := by
          intro h
          rcases List.mem_cons.mp h with h' | h'
          · exact hpx h'
          · exact hmem h'
        rw [htog, if_neg hpx, if_neg hnot]

theorem fold_toggle_n (ps : List Position) (mk : MarkMatrix) :
    (ps.foldl (fun m pos => m.toggle_star pos) mk).n = mk.n := by
  induction ps generalizing mk with
  | nil => rfl
  | cons x ps ih =>
    rw [List.foldl_cons, ih, MarkMatrix.n_toggle_star]

theorem fold_toggle_length (ps : List Position) (mk : MarkMatrix) :
    (ps.foldl (fun m pos => m.toggle_star pos) mk).marks.length = mk.marks.length := by
  induction ps generalizing mk with
  | nil => rfl
  | cons x ps ih =>
    rw [List.foldl_cons, ih, MarkMatrix.length_toggle_star]

/-- Full specification of `step5` under the machine invariants: it either
diverges (a cycling path), fails with `"no prime in row"` leaving marks and
coverage untouched, or toggles the augmenting path and clears primes and
coverage, producing a prime-free mark matrix with per-row/per-column unique
stars, each of which was a star or a prime before. -/
theorem step5_spec (n : Nat) (marks : MarkMatrix) (cov : Coverage) (z0 : Position)
    (hn : marks.n = n) (hlen : marks.marks.length = n * n)
    (hsu : StarsUnique n marks) (hpu : PrimesRowUnique n marks)
    (hz0p : marks.is_prime z0 = true) (hz0r : z0.row < n) (hz0c : z0.column < n)
    (hnostar : ∀ c, c < n → marks.is_star ⟨z0.row, c⟩ = false) :
    step5 marks cov z0 = none ∨
    step5 marks cov z0 = some (marks, cov, .failure "no prime in row") ∨
    (∃ mk' : MarkMatrix,
      step5 marks cov z0 = some (mk', cov.clear, .step3) ∧
      mk'.n = n ∧ mk'.marks.length = n * n ∧
      StarsUnique n mk' ∧ PrimeFree n mk' ∧
      (∀ p : Position, InRange n p → mk'.is_star p = true →
        marks.is_star p = true ∨ marks.is_prime p = true)) := by
  unfold step5
  cases hrun : step5Go marks (marks.n + 1) z0.column [z0] with
  | none => exact Or.inl rfl
  | some o =>
    cases o with
    | none => exact Or.inr (Or.inl rfl)
    | some path =>
      refine Or.inr (Or.inr ?_)
      obtain ⟨L, hpath_eq, d⟩ := step5Go_to_path marks _ _ _ _ hrun
      have hpe : path = z0 :: L := by rw [hpath_eq]; rfl
      subst hpe
      have hcolsrange : ∀ c ∈ z0.column :: primeCols L, c < n := by
        intro c hc
        rcases List.mem_cons.mp hc with h | h
        · rw [h]; exact hz0c
        · rw [primeCols_eq_map] at h
          obtain ⟨q, hq, hqc⟩ := List.mem_map.mp h
          rw [← hqc, ← hn]
          exact (step5Path_prime_facts marks d q hq).2.2
      have hranges : ∀ x ∈ z0 :: L, InRange n x := by
        intro x hx
        rcases List.mem_cons.mp hx with h | h
        · rw [h]; exact ⟨hz0r, hz0c⟩
        · rcases step5Path_elem_cases marks d x h with h' | h'
          · refine ⟨by rw [← hn]; exact (step5Path_star_facts marks d x h').2, ?_⟩
            exact hcolsrange x.column (step5Path_star_cols marks d x h')
          · obtain ⟨_, h1, h2⟩ := step5Path_prime_facts marks d x h'
            exact ⟨by rw [← hn]; exact h1, by rw [← hn]; exact h2⟩
      have hz0notL : z0 ∉ L := by
        intro hmem
        rcases step5Path_elem_cases marks d z0 hmem with h' | h'
        · exact not_star_and_prime marks z0 (step5Path_star_facts marks d z0 h').1 hz0p
        · obtain ⟨s, hs, hrow⟩ := step5Path_prime_has_star marks d z0 h'
          have hscol : s.column < n := hcolsrange s.column (step5Path_star_cols marks d s hs)
          have hsstar := (step5Path_star_facts marks d s hs).1
          have : s = ⟨z0.row, s.column⟩ := by
            cases s
            simp only at hrow ⊢
            rw [hrow]
          rw [this] at hsstar
          rw [hnostar s.column hscol] at hsstar
          exact absurd hsstar (by simp)
      have hpathnd : (z0 :: L).Nodup :=
        List.nodup_cons.mpr ⟨hz0notL, step5Path_list_nodup marks d⟩
      have hfold := fold_toggle_get_mark n (z0 :: L) marks hn hlen hpathnd hranges
      have hcolsnd := step5Path_cols_nodup marks d
      have hget : ∀ p : Position, InRange n p →
          (((z0 :: L).foldl (fun mk pos => mk.toggle_star pos) marks).clear_primes).get_mark p =
            (if ((z0 :: L).foldl (fun mk pos => mk.toggle_star pos) marks).get_mark p = .prime
              then .none
              else ((z0 :: L).foldl (fun mk pos => mk.toggle_star pos) marks).get_mark p) :=
        fun p _ => MarkMatrix.get_mark_clear_primes _ p
      have hstar_char : ∀ p : Position, InRange n p →
          ((((z0 :: L).foldl (fun mk pos => mk.toggle_star pos) marks).clear_primes).is_star p
              = true ↔
            ((p ∈ z0 :: L ∧ marks.is_star p = false) ∨
             (p ∉ z0 :: L ∧ marks.is_star p = true))) := by
        intro p hp
        rw [is_star_iff_get, hget p hp, hfold p hp]
        by_cases hmem : p ∈ z0 :: L
        · rw [if_pos hmem]
          by_cases hps : marks.is_star p
          · rw [if_pos hps]
            simp [hmem, hps]
          · rw [if_neg hps]
            simp only [Bool.not_eq_true] at hps
            simp [hmem, hps]
        · rw [if_neg hmem]
          by_cases hps : marks.get_mark p = .prime
          · rw [if_pos hps]
            have : marks.is_star p = false := by
              rw [Bool.eq_false_iff]
              intro h
              rw [is_star_iff_get] at h
              rw [h] at hps
              exact Mark.noConfusion hps
            simp [hmem, this]
          · rw [if_neg hps]
            rw [← is_star_iff_get]
            simp [hmem]
      have hmem_prime : ∀ p : Position, p ∈ z0 :: L → marks.is_star p = false →
          (p = z0 ∨ p ∈ pairPrimes L) := by
        intro p hmem hns
        rcases List.mem_cons.mp hmem with h | h
        · exact Or.inl h
        · rcases step5Path_elem_cases marks d p h with h' | h'
          · rw [(step5Path_star_facts marks d p h').1] at hns
            exact absurd hns (by simp)
          · exact Or.inr h'
      have hprime_of_cases : ∀ p : Position, (p = z0 ∨ p ∈ pairPrimes L) →
          marks.is_prime p = true := by
        intro p hp
        rcases hp with h | h
        · rw [h]; exact hz0p
        · exact (step5Path_prime_facts marks d p h).1
      have hcol_of_cases : ∀ p : Position, (p = z0 ∨ p ∈ pairPrimes L) →
          p.column ∈ z0.column :: primeCols L := by
        intro p hp
        rcases hp with h | h
        · rw [h]; exact List.mem_cons_self _ _
        · refine List.mem_cons_of_mem _ ?_
          rw [primeCols_eq_map]
          exact List.mem_map.mpr ⟨p, h, rfl⟩
      have hmixed : ∀ a b : Position, InRange n a → InRange n b →
          a ∉ z0 :: L → marks.is_star a = true →
          b ∈ z0 :: L → marks.is_star b = false →
          (a.row = b.row ∨ a.column = b.column) → False := by
        intro a b hain hbin hanot has hbmem hbns hline
        have hbcase := hmem_prime b hbmem hbns
        rcases hline with hrow | hcol
        · rcases hbcase with h | h
          · have : a = ⟨z0.row, a.column⟩ := by
              cases a
              simp only at hrow ⊢
              rw [hrow, h]
            rw [this] at has
            rw [hnostar a.column hain.2] at has
            exact absurd has (by simp)
          · obtain ⟨s, hs, hsrow⟩ := step5Path_prime_has_star marks d b h
            have hsin : InRange n s := by
              refine ⟨by rw [← hn]; exact (step5Path_star_facts marks d s hs).2, ?_⟩
              exact hcolsrange s.column (step5Path_star_cols marks d s hs)
            have heq := hsu a s hain hsin has (step5Path_star_facts marks d s hs).1
              (Or.inl (by rw [hrow, ← hsrow]))
            exact hanot (by
              rw [heq]
              exact List.mem_cons_of_mem _ (pairStars_subset L s hs))
        · have hbc : b.column ∈ z0.column :: primeCols L := hcol_of_cases b hbcase
          have : a.column ∈ z0.column :: primeCols L := by rw [hcol]; exact hbc
          have hmem := step5Path_star_mem n marks hn hsu d a hain has this
          exact hanot (List.mem_cons_of_mem _ (pairStars_subset L a hmem))
      have hsu' : StarsUnique n
          (((z0 :: L).foldl (fun mk pos => mk.toggle_star pos) marks).clear_primes) := by
        intro p q hpin hqin hps hqs hline
        rw [hstar_char p hpin] at hps
        rw [hstar_char q hqin] at hqs
        rcases hps with ⟨hpm, hpns⟩ | ⟨hpnm, hpst⟩
        · rcases hqs with ⟨hqm, hqns⟩ | ⟨hqnm, hqst⟩
          · have hpc := hmem_prime p hpm hpns
            have hqc := hmem_prime q hqm hqns
            rcases hline with hrow | hcol
            · exact hpu p q hpin hqin (hprime_of_cases p hpc) (hprime_of_cases q hqc) hrow
            · rcases hpc with h1 | h1
              · rcases hqc with h2 | h2
                · rw [h1, h2]
                · exfalso
                  have : z0.column ∈ primeCols L := by
                    rw [h1] at hcol
                    rw [hcol, primeCols_eq_map]
                    exact List.mem_map.mpr ⟨q, h2, rfl⟩
                  exact (List.nodup_cons.mp hcolsnd).1 this
              · rcases hqc with h2 | h2
                · exfalso
                  have : z0.column ∈ primeCols L := by
                    rw [h2] at hcol
                    rw [← hcol, primeCols_eq_map]
                    exact List.mem_map.mpr ⟨p, h1, rfl⟩
                  exact (List.nodup_cons.mp hcolsnd).1 this
                · have hnd : (primeCols L).Nodup := (List.nodup_cons.mp hcolsnd).2
                  rw [primeCols_eq_map] at hnd
                  exact List.inj_on_of_nodup_map hnd h1 h2 hcol
          · exact (hmixed q p hqin hpin hqnm hqst hpm hpns
              (by rcases hline with h | h
                  · exact Or.inl h.symm
                  · exact Or.inr h.symm)).elim
        · rcases hqs with ⟨hqm, hqns⟩ | ⟨hqnm, hqst⟩
          · exact (hmixed p q hpin hqin hpnm hpst hqm hqns hline).elim
          · exact hsu p q hpin hqin hpst hqst hline
      have hpf : PrimeFree n
          (((z0 :: L).foldl (fun mk pos => mk.toggle_star pos) marks).clear_primes) := by
        intro p hp hcontra
        rw [is_prime_iff_get, hget p hp, hfold p hp] at hcontra
        by_cases hmem : p ∈ z0 :: L
        · rw [if_pos hmem] at hcontra
          by_cases hps : marks.is_star p
          · rw [if_pos hps] at hcontra
            split at hcontra
            · exact Mark.noConfusion hcontra
            · exact Mark.noConfusion hcontra
          · rw [if_neg hps] at hcontra
            split at hcontra
            · exact Mark.noConfusion hcontra
            · exact Mark.noConfusion hcontra
        · rw [if_neg hmem] at hcontra
          split at hcontra
          · exact Mark.noConfusion hcontra
          · next hne => exact hne hcontra
      have hsub : ∀ p : Position, InRange n p →
          (((z0 :: L).foldl (fun mk pos => mk.toggle_star pos) marks).clear_primes).is_star p
            = true →
          marks.is_star p = true ∨ marks.is_prime p = true := by
        intro p hp hps
        rw [hstar_char p hp] at hps
        rcases hps with ⟨hpm, hpns⟩ | ⟨_, hpst⟩
        · exact Or.inr (hprime_of_cases p (hmem_prime p hpm hpns))
        · exact Or.inl hpst
      exact ⟨((z0 :: L).foldl (fun mk pos => mk.toggle_star pos) marks).clear_primes,
        rfl,
        by rw [MarkMatrix.n_clear_primes, fold_toggle_n, hn],
        by rw [MarkMatrix.length_clear_primes, fold_toggle_length, hlen],
        hsu', hpf, hsub⟩

/-! ## Remaining wellformedness lemmas for the loop invariant -/

namespace MarkMatrix

theorem n_prime (mk : MarkMatrix) (pos : Position) : (mk.prime pos).n = mk.n := rfl

theorem length_prime (mk : MarkMatrix) (pos : Position) :
    (mk.prime pos).marks.length = mk.marks.length :=
  length_set_mark _ _ _

theorem get_mark_prime (mk : MarkMatrix) (pos q : Position)
    (hlen : mk.marks.length = mk.n * mk.n)
    (hpr : pos.row < mk.n) (hpc : pos.column < mk.n)
    (hqr : q.row < mk.n) (hqc : q.column < mk.n) :
    (mk.prime pos).get_mark q = if q = pos then .prime else mk.get_mark q :=
  get_mark_set_mark mk pos .prime q hlen hpr hpc hqr hqc

/-- A marked cell carries either a star or a prime. -/
theorem mark_ne_none_iff (mk : MarkMatrix) (p : Position) :
    (mk.get_mark p ≠ .none) ↔ (mk.is_star p = true ∨ mk.is_prime p = true) := by
  unfold MarkMatrix.is_star MarkMatrix.is_prime
  cases h : mk.get_mark p <;> simp [h]

end MarkMatrix

theorem FVal.isValid_of_isZero (v : FVal) (h : v.isZero = true) : v.isValid = true := by
  cases v with
  | fin z => rfl
  | pinf => exact absurd h (by decide)
  | ninf => exact absurd h (by decide)
  | nan => exact absurd h (by decide)

/-! ## Invalid cells are fixed by the reduction folds (C5/C1 machinery) -/

/-- A fold of `n`-preserving matrix operations preserves `n`. -/
theorem foldl_preserve_n {β : Type} (g : WeightMatrix → β → WeightMatrix)
    (hgn : ∀ (cc : WeightMatrix) (b : β), (g cc b).n = cc.n) :
    ∀ (l : List β) (cc : WeightMatrix), (l.foldl g cc).n = cc.n := by
  intro l
  induction l with
  | nil => intro cc; rfl
  | cons b l ih => intro cc; rw [List.foldl_cons, ih, hgn]

/-- A fold of operations that fix invalid cells (and `n`) fixes invalid
cells. -/
theorem foldl_preserve_invalid {β : Type} (g : WeightMatrix → β → WeightMatrix)
    (hgn : ∀ (cc : WeightMatrix) (b : β), (g cc b).n = cc.n)
    (hg : ∀ (cc : WeightMatrix) (b : β) (p : Position), p.column < cc.n →
        (cc.element_at p).isValid = false → (g cc b).element_at p = cc.element_at p) :
    ∀ (l : List β) (cc : WeightMatrix) (p : Position), p.column < cc.n →
      (cc.element_at p).isValid = false →
      (l.foldl g cc).element_at p = cc.element_at p := by
  intro l
  induction l with
  | nil => intro cc p _ _; rfl
  | cons b l ih =>
    intro cc p hc hv
    have hstep := hg cc b p hc hv
    rw [List.foldl_cons,
      ih (g cc b) p (by rw [hgn]; exact hc) (by rw [hstep]; exact hv), hstep]

theorem WeightMatrix.element_at_sub_min_invalid (m : WeightMatrix) (p : Position)
    (hc : p.column < m.n) (hv : (m.element_at p).isValid = false) :
    m.sub_min_of_each_row.element_at p = m.element_at p := by
  unfold WeightMatrix.sub_min_of_each_row
  refine foldl_preserve_invalid (fun mm row => mm.sub_row row (mm.min_of_row row))
    (fun _ _ => rfl) ?_ _ m p hc hv
  intro cc b q hq hqv
  rw [cc.element_at_sub_row b _ q hq]
  by_cases hrow : q.row = b
  · rw [if_pos hrow, hqv]
    simp
  · rw [if_neg hrow]

theorem WeightMatrix.element_at_add_row_invalid (m : WeightMatrix) (row : Nat)
    (v : FVal) (p : Position) (hc : p.column < m.n)
    (hv : (m.element_at p).isValid = false) :
    (m.add_row row v).element_at p = m.element_at p := by
  rw [m.element_at_add_row row v p hc]
  by_cases hrow : p.row = row
  · rw [if_pos hrow, hv]
    simp
  · rw [if_neg hrow]

theorem WeightMatrix.element_at_sub_column_invalid (m : WeightMatrix) (col : Nat)
    (v : FVal) (p : Position) (hc : p.column < m.n)
    (hv : (m.element_at p).isValid = false) :
    (m.sub_column col v).element_at p = m.element_at p := by
  rw [m.element_at_sub_column col v p hc]
  by_cases hcol : p.column = col
  · rw [if_pos hcol, hv]
    simp
  · rw [if_neg hcol]

/-- `fn step6` with a found minimum: the explicit pair of reduction folds. -/
theorem step6_eq (c : WeightMatrix) (cov : Coverage) (minval : FVal)
    (hmin : step6Min c cov = some minval) :
    step6 c cov = some
      ((List.range c.n).foldl
        (fun cc col => if !(cov.is_column_covered col) then cc.sub_column col minval else cc)
        ((List.range c.n).foldl
          (fun cc row => if cov.is_row_covered row then cc.add_row row minval else cc) c),
       .step4 .none) := by
  unfold step6
  rw [hmin]

/-- The combined step-6 adjustment fixes `n`. -/
theorem step6_folds_n (c : WeightMatrix) (cov : Coverage) (minval : FVal) :
    ((List.range c.n).foldl
      (fun cc col => if !(cov.is_column_covered col) then cc.sub_column col minval else cc)
      ((List.range c.n).foldl
        (fun cc row => if cov.is_row_covered row then cc.add_row row minval else cc) c)).n
      = c.n := by
  rw [foldl_preserve_n, foldl_preserve_n]
  · intro cc b
    cases hb : cov.is_row_covered b <;> rfl
  · intro cc b
    cases hb : cov.is_column_covered b <;> rfl

/-- The combined step-6 adjustment fixes invalid cells. -/
theorem step6_folds_invalid (c : WeightMatrix) (cov : Coverage) (minval : FVal)
    (p : Position) (hc : p.column < c.n) (hv : (c.element_at p).isValid = false) :
    ((List.range c.n).foldl
      (fun cc col => if !(cov.is_column_covered col) then cc.sub_column col minval else cc)
      ((List.range c.n).foldl
        (fun cc row => if cov.is_row_covered row then cc.add_row row minval else cc) c)).element_at p
      = c.element_at p := by
  have hrowsn : ∀ (cc : WeightMatrix) (b : Nat),
      ((if cov.is_row_covered b then cc.add_row b minval else cc)).n = cc.n := by
    intro cc b
    cases hb : cov.is_row_covered b <;> rfl
  have hrows : ((List.range c.n).foldl
      (fun cc row => if cov.is_row_covered row then cc.add_row row minval else cc) c).element_at p
        = c.element_at p := by
    refine foldl_preserve_invalid
      (fun cc row => if cov.is_row_covered row then cc.add_row row minval else cc)
      hrowsn ?_ _ c p hc hv
    intro cc b q hq hqv
    show (if cov.is_row_covered b = true then cc.add_row b minval else cc).element_at q
      = cc.element_at q
    cases hb : cov.is_row_covered b
    · rfl
    · exact cc.element_at_add_row_invalid b minval q hq hqv
  have hrn : ((List.range c.n).foldl
      (fun cc row => if cov.is_row_covered row then cc.add_row row minval else cc) c).n = c.n :=
    foldl_preserve_n _ hrowsn _ _
  have hcols : ∀ (cc : WeightMatrix) (b : Nat) (q : Position), q.column < cc.n →
      (cc.element_at q).isValid = false →
      ((if !(cov.is_column_covered b) then cc.sub_column b minval else cc)).element_at q
        = cc.element_at q := by
    intro cc b q hq hqv
    show (if (!(cov.is_column_covered b)) = true then cc.sub_column b minval else cc).element_at q
      = cc.element_at q
    cases hb : cov.is_column_covered b
    · exact cc.element_at_sub_column_invalid b minval q hq hqv
    · rfl
  have hcolsn : ∀ (cc : WeightMatrix) (b : Nat),
      ((if !(cov.is_column_covered b) then cc.sub_column b minval else cc)).n = cc.n := by
    intro cc b
    cases hb : cov.is_column_covered b <;> rfl
  rw [foldl_preserve_invalid
      (fun cc col => if !(cov.is_column_covered col) then cc.sub_column col minval else cc)
      hcolsn hcols _ _ p (by rw [hrn]; exact hc)
      (by rw [hrows]; exact hv), hrows]

/-- One unrolling of the fuelled step-4 loop. -/
theorem step4Go_succ (c : WeightMatrix) (fuel : Nat) (mk : MarkMatrix) (cov : Coverage) :
    step4Go c (fuel + 1) mk cov =
      match cov.find_uncovered_cell_column_row_order (fun pos => c.is_element_zero pos) with
      | .none => some (mk, cov, .step6)
      | .some pos =>
        match (mk.prime pos).find_first_star_in_row pos.row with
        | .some starCol =>
            step4Go c fuel (mk.prime pos) ((cov.cover_row pos.row).uncover_column starCol)
        | .none => some (mk.prime pos, cov, .step5 pos.row pos.column) := rfl

/-! ## The step-4 loop: invariant preservation (C1/C2 machinery) -/

/-- Every starred cell has exactly one of its two lines covered (its row
uncovered exactly when its column is covered).  Established by Step 3's
column covering and maintained by Step 4's `cover_row`/`uncover_column`
pair. -/
def StarsOneCovered (n : Nat) (mk : MarkMatrix) (cov : Coverage) : Prop :=
  ∀ p : Position, InRange n p → mk.is_star p = true →
    (cov.is_row_covered p.row = false ↔ cov.is_column_covered p.column = true)

/-- Every primed cell's column is uncovered (primes are placed at
uncovered cells, and Step 4 never covers a column). -/
def PrimesColUncovered (n : Nat) (mk : MarkMatrix) (cov : Coverage) : Prop :=
  ∀ p : Position, InRange n p → mk.is_prime p = true →
    cov.is_column_covered p.column = false

/-- The step-4 loop either exhausts its fuel, or reaches Step 6 with no
uncovered zero left, or exits to Step 5 at a freshly primed zero in a
starless row — in every case preserving the mark/coverage invariants.
`Z` is any property of positions that holds at every zero of `c`: if every
marked cell satisfies it on entry, every marked cell still does on exit
(instantiated with original-cell validity for C5 and with zero-ness for
the optimality argument). -/
theorem step4Go_spec (n : Nat) (c : WeightMatrix) (Z : Position → Prop)
    (hzZ : ∀ p : Position, InRange n p → c.is_element_zero p = true → Z p) :
    ∀ (fuel : Nat) (mk : MarkMatrix) (cov : Coverage),
      mk.n = n → mk.marks.length = n * n →
      cov.n = n → cov.uncovered_rows.length = n → cov.uncovered_columns.length = n →
      StarsUnique n mk → PrimesRowUnique n mk → PrimesCovered n mk cov →
      (∀ p : Position, InRange n p → mk.get_mark p ≠ .none → Z p) →
      StarsOneCovered n mk cov → PrimesColUncovered n mk cov →
      step4Go c fuel mk cov = none ∨
      (∃ (mk' : MarkMatrix) (cov' : Coverage),
        step4Go c fuel mk cov = some (mk', cov', .step6) ∧
        mk'.n = n ∧ mk'.marks.length = n * n ∧
        cov'.n = n ∧ cov'.uncovered_rows.length = n ∧ cov'.uncovered_columns.length = n ∧
        StarsUnique n mk' ∧ PrimesRowUnique n mk' ∧ PrimesCovered n mk' cov' ∧
        (∀ p : Position, InRange n p → mk'.get_mark p ≠ .none → Z p) ∧
        StarsOneCovered n mk' cov' ∧ PrimesColUncovered n mk' cov' ∧
        (∀ p : Position, InRange n p → cov'.is_row_covered p.row = false →
            cov'.is_column_covered p.column = false → c.is_element_zero p = false)) ∨
      (∃ (mk' : MarkMatrix) (cov' : Coverage) (zr zc : Nat),
        step4Go c fuel mk cov = some (mk', cov', .step5 zr zc) ∧
        mk'.n = n ∧ mk'.marks.length = n * n ∧
        cov'.n = n ∧ cov'.uncovered_rows.length = n ∧ cov'.uncovered_columns.length = n ∧
        StarsUnique n mk' ∧ PrimesRowUnique n mk' ∧
        mk'.is_prime ⟨zr, zc⟩ = true ∧ zr < n ∧ zc < n ∧
        (∀ cc, cc < n → mk'.is_star ⟨zr, cc⟩ = false) ∧
        (∀ p : Position, InRange n p → mk'.get_mark p ≠ .none → Z p)) := by
  intro fuel
  induction fuel with
  | zero =>
    intro mk cov _ _ _ _ _ _ _ _ _ _ _
    exact Or.inl rfl
  | succ fuel ih =>
    intro mk cov hmkn hmklen hcovn hcovr hcovc hsu hpu hpcov hZ hsoc hpuc
    cases hfind : cov.find_uncovered_cell_column_row_order
        (fun pos => c.is_element_zero pos) with
    | none =>
      have hstep : step4Go c (fuel + 1) mk cov = some (mk, cov, .step6) := by
        rw [step4Go_succ, hfind]
      have hnuz : ∀ p : Position, InRange n p → cov.is_row_covered p.row = false →
          cov.is_column_covered p.column = false → c.is_element_zero p = false := by
        intro p hp hru hcu
        rw [find_eq_innerFind] at hfind
        exact (outerFind_none_iff (fun pos => c.is_element_zero pos)
            cov.row_ones cov.column_ones).mp hfind p.column
          ((mem_column_ones_iff cov p.column).mpr
            ⟨by rw [hcovn]; exact hp.2, hcu⟩)
          p.row ((mem_row_ones_iff cov p.row).mpr
            ⟨by rw [hcovn]; exact hp.1, hru⟩)
      exact Or.inr (Or.inl ⟨mk, cov, hstep, hmkn, hmklen, hcovn, hcovr, hcovc,
        hsu, hpu, hpcov, hZ, hsoc, hpuc, hnuz⟩)
    | some pos =>
      rw [find_eq_innerFind] at hfind
      obtain ⟨hpcolmem, hprowmem, hpzero, -⟩ :=
        (outerFind_some_iff (fun pos => c.is_element_zero pos) cov.row_ones
          (row_ones_pairwise cov) cov.column_ones
          (column_ones_pairwise cov) pos).mp hfind
      have hpzero' : c.is_element_zero pos = true := hpzero
      obtain ⟨hpc_cn, hpc_unc⟩ := (mem_column_ones_iff cov pos.column).mp hpcolmem
      obtain ⟨hpr_cn, hpr_unc⟩ := (mem_row_ones_iff cov pos.row).mp hprowmem
      have hpc_n : pos.column < n := hcovn ▸ hpc_cn
      have hpr_n : pos.row < n := hcovn ▸ hpr_cn
      have hpos_in : InRange n pos := ⟨hpr_n, hpc_n⟩
      have hmklen' : mk.marks.length = mk.n * mk.n := by rw [hmkn]; exact hmklen
      have hprm : pos.row < mk.n := by rw [hmkn]; exact hpr_n
      have hpcm : pos.column < mk.n := by rw [hmkn]; exact hpc_n
      -- the found cell carries no star: its row is uncovered, so a star
      -- there would force its column covered — but the column is uncovered
      have hpos_nostar : mk.is_star pos = false := by
        cases hs : mk.is_star pos with
        | false => rfl
        | true =>
          have hcc := (hsoc pos hpos_in hs).mp hpr_unc
          rw [hpc_unc] at hcc
          exact absurd hcc (by simp)
      have hget1 : ∀ q : Position, InRange n q →
          (mk.prime pos).get_mark q = if q = pos then .prime else mk.get_mark q := by
        intro q hq
        exact MarkMatrix.get_mark_prime mk pos q hmklen' hprm hpcm
          (by rw [hmkn]; exact hq.1) (by rw [hmkn]; exact hq.2)
      have hstar1 : ∀ q : Position, InRange n q →
          (mk.prime pos).is_star q = mk.is_star q := by
        intro q hq
        have h := MarkMatrix.is_star_set_mark mk pos .prime q hmklen' hprm hpcm
          (by rw [hmkn]; exact hq.1) (by rw [hmkn]; exact hq.2)
        by_cases hqe : q = pos
        · rw [show (mk.prime pos).is_star q =
              (if q = pos then ((Mark.prime = Mark.star : Bool)) else mk.is_star q) from h,
            if_pos hqe, hqe, hpos_nostar]
          rfl
        · rw [show (mk.prime pos).is_star q =
              (if q = pos then ((Mark.prime = Mark.star : Bool)) else mk.is_star q) from h,
            if_neg hqe]
      have hprime1 : ∀ q : Position, InRange n q →
          (mk.prime pos).is_prime q = if q = pos then true else mk.is_prime q := by
        intro q hq
        exact MarkMatrix.is_prime_set_mark mk pos .prime q hmklen' hprm hpcm
          (by rw [hmkn]; exact hq.1) (by rw [hmkn]; exact hq.2)
      have hsu1 : StarsUnique n (mk.prime pos) := by
        intro p q hp hq hps hqs hline
        rw [hstar1 p hp] at hps
        rw [hstar1 q hq] at hqs
        exact hsu p q hp hq hps hqs hline
      have hpu1 : PrimesRowUnique n (mk.prime pos) := by
        intro p q hp hq hpp hqp hrow
        rw [hprime1 p hp] at hpp
        rw [hprime1 q hq] at hqp
        by_cases hpe : p = pos <;> by_cases hqe : q = pos
        · rw [hpe, hqe]
        · exfalso
          rw [if_neg hqe] at hqp
          have hc := hpcov q hq hqp
          rw [← hrow, hpe, hpr_unc] at hc
          exact absurd hc (by simp)
        · exfalso
          rw [if_neg hpe] at hpp
          have hc := hpcov p hp hpp
          rw [hrow, hqe, hpr_unc] at hc
          exact absurd hc (by simp)
        · rw [if_neg hpe] at hpp
          rw [if_neg hqe] at hqp
          exact hpu p q hp hq hpp hqp hrow
      have hZ1 : ∀ q : Position, InRange n q → (mk.prime pos).get_mark q ≠ .none →
          Z q := by
        intro q hq hqm
        rw [hget1 q hq] at hqm
        by_cases hqe : q = pos
        · rw [hqe]
          exact hzZ pos hpos_in hpzero'
        · rw [if_neg hqe] at hqm
          exact hZ q hq hqm
      have hmkn1 : (mk.prime pos).n = n := hmkn
      have hmklen1 : (mk.prime pos).marks.length = n * n := by
        rw [MarkMatrix.length_prime]
        exact hmklen
      cases hfs : (mk.prime pos).find_first_star_in_row pos.row with
      | none =>
        have hstep : step4Go c (fuel + 1) mk cov =
            some (mk.prime pos, cov, .step5 pos.row pos.column) := by
          rw [step4Go_succ]
          rw [show cov.find_uncovered_cell_column_row_order
              (fun pos => c.is_element_zero pos) = some pos from hfind]
          show (match (mk.prime pos).find_first_star_in_row pos.row with
            | .some starCol =>
                step4Go c fuel (mk.prime pos) ((cov.cover_row pos.row).uncover_column starCol)
            | .none => some (mk.prime pos, cov, .step5 pos.row pos.column)) =
            some (mk.prime pos, cov, .step5 pos.row pos.column)
          rw [hfs]
        refine Or.inr (Or.inr ⟨mk.prime pos, cov, pos.row, pos.column, hstep,
          hmkn1, hmklen1, hcovn, hcovr, hcovc, hsu1, hpu1, ?_, hpr_n, hpc_n, ?_, hZ1⟩)
        · have := hprime1 pos hpos_in
          rw [if_pos rfl] at this
          exact this
        · intro cc hcc
          exact find_first_star_in_row_none hfs cc (by rw [MarkMatrix.n_prime, hmkn]; exact hcc)
      | some starCol =>
        obtain ⟨hsc_mn, hsc_star⟩ := find_first_star_in_row_some hfs
        have hsc_n : starCol < n := by rw [← hmkn, ← MarkMatrix.n_prime mk pos]; exact hsc_mn
        have hrowstar_in : InRange n ⟨pos.row, starCol⟩ := ⟨hpr_n, hsc_n⟩
        have hrowstar : mk.is_star ⟨pos.row, starCol⟩ = true := by
          rw [← hstar1 ⟨pos.row, starCol⟩ hrowstar_in]
          exact hsc_star
        -- the updated coverage, pointwise
        have hrow2 : ∀ r : Nat,
            (((cov.cover_row pos.row).uncover_column starCol)).is_row_covered r =
              if r = pos.row then true else cov.is_row_covered r := by
          intro r
          rw [Coverage.is_row_covered_uncover_column, Coverage.is_row_covered_cover_row]
        have hcol2 : ∀ c' : Nat,
            (((cov.cover_row pos.row).uncover_column starCol)).is_column_covered c' =
              if c' = starCol then false else cov.is_column_covered c' := by
          intro c'
          rw [Coverage.is_column_covered_uncover_column _ _ _
              (by rw [Coverage.cols_length_cover_row, Coverage.n_cover_row, hcovn]; exact hcovc)
              (by rw [Coverage.n_cover_row, hcovn]; exact hsc_n),
            Coverage.is_column_covered_cover_row]
        have hpcov2 : PrimesCovered n (mk.prime pos)
            ((cov.cover_row pos.row).uncover_column starCol) := by
          intro q hq hqp
          rw [hprime1 q hq] at hqp
          rw [hrow2 q.row]
          by_cases hqe : q = pos
          · rw [if_pos (by rw [hqe])]
          · rw [if_neg hqe] at hqp
            by_cases hqrow : q.row = pos.row
            · rw [if_pos hqrow]
            · rw [if_neg hqrow]
              exact hpcov q hq hqp
        have hpuc2 : PrimesColUncovered n (mk.prime pos)
            ((cov.cover_row pos.row).uncover_column starCol) := by
          intro q hq hqp
          rw [hprime1 q hq] at hqp
          rw [hcol2 q.column]
          by_cases hqcol : q.column = starCol
          · rw [if_pos hqcol]
          · rw [if_neg hqcol]
            by_cases hqe : q = pos
            · rw [hqe]
              exact hpc_unc
            · rw [if_neg hqe] at hqp
              exact hpuc q hq hqp
        have hsoc2 : StarsOneCovered n (mk.prime pos)
            ((cov.cover_row pos.row).uncover_column starCol) := by
          intro q hq hqs
          rw [hstar1 q hq] at hqs
          rw [hrow2 q.row, hcol2 q.column]
          by_cases hqrow : q.row = pos.row
          · have hqeq : q = ⟨pos.row, starCol⟩ :=
              hsu q ⟨pos.row, starCol⟩ hq hrowstar_in hqs hrowstar (Or.inl hqrow)
            have hqcol : q.column = starCol := by rw [hqeq]
            rw [if_pos hqrow, if_pos hqcol]
            simp
          · rw [if_neg hqrow]
            by_cases hqcol : q.column = starCol
            · exfalso
              have hqeq : q = ⟨pos.row, starCol⟩ :=
                hsu q ⟨pos.row, starCol⟩ hq hrowstar_in hqs hrowstar (Or.inr hqcol)
              exact hqrow (by rw [hqeq])
            · rw [if_neg hqcol]
              exact hsoc q hq hqs
        have hstep : step4Go c (fuel + 1) mk cov =
            step4Go c fuel (mk.prime pos) ((cov.cover_row pos.row).uncover_column starCol) := by
          rw [step4Go_succ]
          rw [show cov.find_uncovered_cell_column_row_order
              (fun pos => c.is_element_zero pos) = some pos from hfind]
          show (match (mk.prime pos).find_first_star_in_row pos.row with
            | .some starCol =>
                step4Go c fuel (mk.prime pos) ((cov.cover_row pos.row).uncover_column starCol)
            | .none => some (mk.prime pos, cov, .step5 pos.row pos.column)) =
            step4Go c fuel (mk.prime pos) ((cov.cover_row pos.row).uncover_column starCol)
          rw [hfs]
        have hrec := ih (mk.prime pos) ((cov.cover_row pos.row).uncover_column starCol)
          hmkn1 hmklen1
          (by rw [Coverage.n_uncover_column, Coverage.n_cover_row]; exact hcovn)
          (by rw [Coverage.rows_length_uncover_column, Coverage.rows_length_cover_row]; exact hcovr)
          (by rw [Coverage.cols_length_uncover_column, Coverage.cols_length_cover_row]; exact hcovc)
          hsu1 hpu1 hpcov2 hZ1 hsoc2 hpuc2
        rcases hrec with hnone | hs6 | hs5
        · exact Or.inl (by rw [hstep]; exact hnone)
        · obtain ⟨mk', cov', heq, hrest⟩ := hs6
          exact Or.inr (Or.inl ⟨mk', cov', by rw [hstep]; exact heq, hrest⟩)
        · obtain ⟨mk', cov', zr, zc, heq, hrest⟩ := hs5
          exact Or.inr (Or.inr ⟨mk', cov', zr, zc, by rw [hstep]; exact heq, hrest⟩)

/-! ## Step 3: covering the starred columns -/

theorem cover_cols_fold_n (cov : Coverage) (ps : List Position) :
    (ps.foldl (fun cv p => cv.cover_column p.column) cov).n = cov.n := by
  induction ps generalizing cov with
  | nil => rfl
  | cons q ps ih => rw [List.foldl_cons, ih]; rfl

theorem cover_cols_fold_rows_length (cov : Coverage) (ps : List Position) :
    (ps.foldl (fun cv p => cv.cover_column p.column) cov).uncovered_rows.length =
      cov.uncovered_rows.length := by
  induction ps generalizing cov with
  | nil => rfl
  | cons q ps ih => rw [List.foldl_cons, ih]; rfl

theorem cover_cols_fold_cols_length (cov : Coverage) (ps : List Position) :
    (ps.foldl (fun cv p => cv.cover_column p.column) cov).uncovered_columns.length =
      cov.uncovered_columns.length := by
  induction ps generalizing cov with
  | nil => rfl
  | cons q ps ih =>
    rw [List.foldl_cons, ih, Coverage.cols_length_cover_column]

theorem cover_cols_fold_is_row (cov : Coverage) (ps : List Position) (r : Nat) :
    (ps.foldl (fun cv p => cv.cover_column p.column) cov).is_row_covered r =
      cov.is_row_covered r := by
  induction ps generalizing cov with
  | nil => rfl
  | cons q ps ih =>
    rw [List.foldl_cons, ih, Coverage.is_row_covered_cover_column]

/-- A covered column stays covered through the fold. -/
theorem cover_cols_fold_mono (cov : Coverage) (ps : List Position) (c' : Nat)
    (h : cov.is_column_covered c' = true) :
    (ps.foldl (fun cv p => cv.cover_column p.column) cov).is_column_covered c' = true := by
  induction ps generalizing cov with
  | nil => exact h
  | cons q ps ih =>
    rw [List.foldl_cons]
    refine ih _ ?_
    rw [Coverage.is_column_covered_cover_column]
    by_cases hc : c' = q.column
    · rw [if_pos hc]
    · rw [if_neg hc]
      exact h

/-- The fold covers the column of every listed position. -/
theorem cover_cols_fold_covers (cov : Coverage) (ps : List Position) (p : Position)
    (h : p ∈ ps) :
    (ps.foldl (fun cv p => cv.cover_column p.column) cov).is_column_covered p.column
      = true := by
  induction ps generalizing cov with
  | nil => exact absurd h (List.not_mem_nil p)
  | cons q ps ih =>
    rw [List.foldl_cons]
    rcases List.mem_cons.mp h with he | hm
    · refine cover_cols_fold_mono _ _ _ ?_
      rw [Coverage.is_column_covered_cover_column, he, if_pos rfl]
    · exact ih _ hm

/-- `fn step3`, with the branch pushed inside the pair. -/
theorem step3_eq (c : WeightMatrix) (marks : MarkMatrix) (cov : Coverage) :
    step3 c marks cov =
      ((MarkMatrix.star_list marks.n marks).foldl
          (fun cv p => cv.cover_column p.column) cov,
        if (MarkMatrix.star_list marks.n marks).length ≥ c.n then Step.done
        else Step.step4 (some (MarkMatrix.star_list marks.n marks).length)) := by
  unfold step3
  by_cases h : (MarkMatrix.star_list marks.n marks).length ≥ c.n
  · rw [if_pos h, if_pos h]
  · rw [if_neg h, if_neg h]

theorem primesRowUnique_of_primeFree (n : Nat) (mk : MarkMatrix)
    (h : PrimeFree n mk) : PrimesRowUnique n mk :=
  fun p _ hp _ hpp _ _ => absurd hpp (h p hp)

theorem primesCovered_of_primeFree (n : Nat) (mk : MarkMatrix) (cov : Coverage)
    (h : PrimeFree n mk) : PrimesCovered n mk cov :=
  fun p hp hpp => absurd hpp (h p hp)

theorem primesColUncovered_of_primeFree (n : Nat) (mk : MarkMatrix) (cov : Coverage)
    (h : PrimeFree n mk) : PrimesColUncovered n mk cov :=
  fun p hp hpp => absurd hpp (h p hp)

/-- After Step 3 covers every starred column over a row-clear coverage,
each star has exactly its column covered. -/
theorem starsOneCovered_after_step3 (n : Nat) (mk : MarkMatrix) (cov : Coverage)
    (hrows : ∀ i, i < n → cov.is_row_covered i = false) (hn : mk.n = n) :
    StarsOneCovered n mk ((MarkMatrix.star_list mk.n mk).foldl
        (fun cv p => cv.cover_column p.column) cov) := by
  intro p hp hps
  constructor
  · intro _
    refine cover_cols_fold_covers cov _ p ?_
    rw [hn, MarkMatrix.mem_star_list_iff]
    exact ⟨hp.1, hp.2, hps⟩
  · intro _
    rw [cover_cols_fold_is_row]
    exact hrows p.row hp.1

theorem stepOnce_step1 (c : WeightMatrix) (mk : MarkMatrix) (cov : Coverage) :
    stepOnce ⟨.step1, c, mk, cov⟩ =
      .inl ⟨.step2, c.sub_min_of_each_row, mk, cov⟩ := rfl

theorem stepOnce_step2 (c : WeightMatrix) (mk : MarkMatrix) (cov : Coverage) :
    stepOnce ⟨.step2, c, mk, cov⟩ =
      .inl ⟨.step3, c, (step2 c mk cov).1, (step2 c mk cov).2.1⟩ := rfl

theorem stepOnce_step3 (c : WeightMatrix) (mk : MarkMatrix) (cov : Coverage) :
    stepOnce ⟨.step3, c, mk, cov⟩ =
      .inl ⟨(step3 c mk cov).2, c, mk, (step3 c mk cov).1⟩ := rfl

theorem stepOnce_step4_some (cnt : Option Nat) (c : WeightMatrix)
    (mk : MarkMatrix) (cov : Coverage) (mk' : MarkMatrix) (cov' : Coverage) (st : Step)
    (h : step4 c mk cov = some (mk', cov', st)) :
    stepOnce ⟨.step4 cnt, c, mk, cov⟩ = .inl ⟨st, c, mk', cov'⟩ := by
  unfold stepOnce
  rw [h]

theorem stepOnce_step4_none (cnt : Option Nat) (c : WeightMatrix)
    (mk : MarkMatrix) (cov : Coverage) (h : step4 c mk cov = none) :
    stepOnce ⟨.step4 cnt, c, mk, cov⟩ = .inr .diverge := by
  unfold stepOnce
  rw [h]

theorem stepOnce_step5_red (zr zc : Nat) (c : WeightMatrix)
    (mk : MarkMatrix) (cov : Coverage) :
    stepOnce ⟨.step5 zr zc, c, mk, cov⟩ =
      (match step5 mk cov ⟨zr, zc⟩ with
        | .none => (Sum.inr Outcome.diverge : MState ⊕ Outcome)
        | .some (mkr, cvr, str) => .inl ⟨str, c, mkr, cvr⟩) := rfl

theorem stepOnce_step5_some (zr zc : Nat) (c : WeightMatrix)
    (mk : MarkMatrix) (cov : Coverage) (mk' : MarkMatrix) (cov' : Coverage) (st : Step)
    (h : step5 mk cov ⟨zr, zc⟩ = some (mk', cov', st)) :
    stepOnce ⟨.step5 zr zc, c, mk, cov⟩ = .inl ⟨st, c, mk', cov'⟩ := by
  rw [stepOnce_step5_red, h]

theorem stepOnce_step5_none (zr zc : Nat) (c : WeightMatrix)
    (mk : MarkMatrix) (cov : Coverage) (h : step5 mk cov ⟨zr, zc⟩ = none) :
    stepOnce ⟨.step5 zr zc, c, mk, cov⟩ = .inr .diverge := by
  rw [stepOnce_step5_red, h]

theorem stepOnce_step6_some (c : WeightMatrix) (mk : MarkMatrix) (cov : Coverage)
    (c' : WeightMatrix) (st : Step) (h : step6 c cov = some (c', st)) :
    stepOnce ⟨.step6, c, mk, cov⟩ = .inl ⟨st, c', mk, cov⟩ := by
  unfold stepOnce
  rw [h]

theorem stepOnce_step6_none (c : WeightMatrix) (mk : MarkMatrix) (cov : Coverage)
    (h : step6 c cov = none) :
    stepOnce ⟨.step6, c, mk, cov⟩ = .inr .panic := by
  unfold stepOnce
  rw [h]

theorem stepOnce_failure (e : String) (c : WeightMatrix) (mk : MarkMatrix)
    (cov : Coverage) : stepOnce ⟨.failure e, c, mk, cov⟩ = .inr (.err e) := rfl

theorem stepOnce_done (c : WeightMatrix) (mk : MarkMatrix) (cov : Coverage) :
    stepOnce ⟨.done, c, mk, cov⟩ =
      if (MarkMatrix.star_list c.n mk).length = c.n
      then .inr (.ok (MarkMatrix.star_list c.n mk)) else .inr .panic := rfl

/-! ## The machine invariant of the solve loop -/

/-- C5's value invariant: (V1) cells invalid in the original matrix are
never modified; (V2) marked cells are valid in the original matrix. -/
def ValueInv (n : Nat) (orig cur : WeightMatrix) (mk : MarkMatrix) : Prop :=
  (∀ p : Position, InRange n p → (orig.element_at p).isValid = false →
      cur.element_at p = orig.element_at p) ∧
  (∀ p : Position, InRange n p → mk.get_mark p ≠ .none →
      (orig.element_at p).isValid = true)

/-- The step-indexed part of the loop invariant. -/
def StepInv (n : Nat) (s : MState) : Prop :=
  match s.step with
  | .step1 => s.marks = MarkMatrix.new n ∧ s.cov = Coverage.new n
  | .step2 => s.marks = MarkMatrix.new n ∧ s.cov = Coverage.new n
  | .step3 => StarsUnique n s.marks ∧ PrimeFree n s.marks ∧
      (∀ i, i < n → s.cov.is_row_covered i = false)
  | .step4 _ => StarsUnique n s.marks ∧ PrimesRowUnique n s.marks ∧
      PrimesCovered n s.marks s.cov ∧ StarsOneCovered n s.marks s.cov ∧
      PrimesColUncovered n s.marks s.cov
  | .step5 zr zc => StarsUnique n s.marks ∧ PrimesRowUnique n s.marks ∧
      s.marks.is_prime ⟨zr, zc⟩ = true ∧ zr < n ∧ zc < n ∧
      (∀ cc, cc < n → s.marks.is_star ⟨zr, cc⟩ = false)
  | .step6 => StarsUnique n s.marks ∧ PrimesRowUnique n s.marks ∧
      PrimesCovered n s.marks s.cov ∧ StarsOneCovered n s.marks s.cov ∧
      PrimesColUncovered n s.marks s.cov
  | .failure _ => True
  | .done => StarsUnique n s.marks

/-- The loop invariant of `solve_assignment`, relative to the original
(input) matrix. -/
def MInv (n : Nat) (orig : WeightMatrix) (s : MState) : Prop :=
  s.c.n = n ∧ s.marks.n = n ∧ s.marks.marks.length = n * n ∧
  s.cov.n = n ∧ s.cov.uncovered_rows.length = n ∧ s.cov.uncovered_columns.length = n ∧
  ValueInv n orig s.c s.marks ∧ StepInv n s

/-- Every machine transition of the solve loop preserves the invariant. -/
theorem stepOnce_preserves (n : Nat) (orig : WeightMatrix) (s s' : MState)
    (hinv : MInv n orig s) (h : stepOnce s = .inl s') : MInv n orig s' := by
  obtain ⟨st, c, mk, cov⟩ := s
  obtain ⟨hcn, hmkn, hmklen, hcovn, hcovr, hcovc, ⟨hV1, hV2⟩, hstep⟩ := hinv
  have hzZ : ∀ p : Position, InRange n p → c.is_element_zero p = true →
      (orig.element_at p).isValid = true := by
    intro p hp hz
    cases hov : (orig.element_at p).isValid with
    | true => rfl
    | false =>
      exfalso
      have hceq := hV1 p hp hov
      have hv := FVal.isValid_of_isZero _ hz
      rw [hceq, hov] at hv
      exact absurd hv (by simp)
  cases st with
  | step1 =>
    obtain ⟨hmk_new, hcov_new⟩ := hstep
    rw [stepOnce_step1] at h
    injection h with h'
    subst h'
    refine ⟨(sub_min_fold_n _ _).trans hcn, hmkn, hmklen, hcovn, hcovr, hcovc,
      ⟨?_, hV2⟩, hmk_new, hcov_new⟩
    intro p hp hporig
    have hc1 := hV1 p hp hporig
    rw [WeightMatrix.element_at_sub_min_invalid c p (by rw [hcn]; exact hp.2)
        (by rw [hc1]; exact hporig)]
    exact hc1
  | step2 =>
    obtain ⟨hmk_new, hcov_new⟩ := hstep
    subst hmk_new
    subst hcov_new
    rw [stepOnce_step2] at h
    injection h with h'
    subst h'
    obtain ⟨h1, h2, h3, h4, h5, h6, h7, h8⟩ := step2_post c n
    refine ⟨hcn, h2.1, h2.2, h1, h7, h8, ⟨hV1, ?_⟩, ?_, ?_, ?_⟩
    · intro p hp hm
      rcases (MarkMatrix.mark_ne_none_iff _ p).mp hm with hst | hpr
      · cases hov : (orig.element_at p).isValid with
        | true => rfl
        | false =>
          exfalso
          have hceq := hV1 p hp hov
          have hz := h4 p hp.1 hp.2 hst
          have hv := FVal.isValid_of_isZero _ hz
          rw [hceq, hov] at hv
          exact absurd hv (by simp)
      · rw [h6 p hp.1 hp.2] at hpr
        exact absurd hpr (by simp)
    · intro p q hp hq
      exact h3 p q hp.1 hp.2 hq.1 hq.2
    · intro p hp hpr
      rw [h6 p hp.1 hp.2] at hpr
      exact absurd hpr (by simp)
    · intro i hi
      exact (h5 i hi).1
  | step3 =>
    obtain ⟨hsu, hpf, hrows⟩ := hstep
    rw [stepOnce_step3] at h
    injection h with h'
    subst h'
    have hs1 : (step3 c mk cov).1 = (MarkMatrix.star_list mk.n mk).foldl
        (fun cv p => cv.cover_column p.column) cov := by
      rw [step3_eq]
    by_cases hbig : (MarkMatrix.star_list mk.n mk).length ≥ c.n
    · have hs2 : (step3 c mk cov).2 = Step.done := by
        rw [step3_eq]
        show (if (MarkMatrix.star_list mk.n mk).length ≥ c.n then Step.done
          else Step.step4 (some (MarkMatrix.star_list mk.n mk).length)) = Step.done
        rw [if_pos hbig]
      rw [hs1, hs2]
      refine ⟨hcn, hmkn, hmklen, ?_, ?_, ?_, ⟨hV1, hV2⟩, hsu⟩
      · rw [cover_cols_fold_n]; exact hcovn
      · rw [cover_cols_fold_rows_length]; exact hcovr
      · rw [cover_cols_fold_cols_length]; exact hcovc
    · have hs2 : (step3 c mk cov).2 =
          Step.step4 (some (MarkMatrix.star_list mk.n mk).length) := by
        rw [step3_eq]
        show (if (MarkMatrix.star_list mk.n mk).length ≥ c.n then Step.done
          else Step.step4 (some (MarkMatrix.star_list mk.n mk).length)) =
          Step.step4 (some (MarkMatrix.star_list mk.n mk).length)
        rw [if_neg hbig]
      rw [hs1, hs2]
      refine ⟨hcn, hmkn, hmklen, ?_, ?_, ?_, ⟨hV1, hV2⟩, hsu,
        primesRowUnique_of_primeFree n mk hpf,
        primesCovered_of_primeFree n mk _ hpf,
        starsOneCovered_after_step3 n mk cov hrows hmkn,
        primesColUncovered_of_primeFree n mk _ hpf⟩
      · rw [cover_cols_fold_n]; exact hcovn
      · rw [cover_cols_fold_rows_length]; exact hcovr
      · rw [cover_cols_fold_cols_length]; exact hcovc
  | step4 cnt =>
    obtain ⟨hsu, hpu, hpc, hsoc, hpuc⟩ := hstep
    rcases step4Go_spec n c (fun p => (orig.element_at p).isValid = true) hzZ
        (cov.n + 1) mk cov hmkn hmklen hcovn hcovr hcovc hsu hpu hpc hV2 hsoc hpuc with
      hnone
      | ⟨mk', cov', heq, hr1, hr2, hr3, hr4, hr5, hr6, hr7, hr8, hr9, hr10, hr11, hr12⟩
      | ⟨mk', cov', zr, zc, heq, hr1, hr2, hr3, hr4, hr5, hr6, hr7, hr8, hr9, hr10, hr11, hr12⟩
    · rw [stepOnce_step4_none cnt c mk cov hnone] at h
      exact Sum.noConfusion h
    · rw [stepOnce_step4_some cnt c mk cov mk' cov' _ heq] at h
      injection h with h'
      subst h'
      exact ⟨hcn, hr1, hr2, hr3, hr4, hr5, ⟨hV1, hr9⟩, hr6, hr7, hr8, hr10, hr11⟩
    · rw [stepOnce_step4_some cnt c mk cov mk' cov' _ heq] at h
      injection h with h'
      subst h'
      exact ⟨hcn, hr1, hr2, hr3, hr4, hr5, ⟨hV1, hr12⟩, hr6, hr7, hr8, hr9, hr10, hr11⟩
  | step5 zr zc =>
    obtain ⟨hsu, hpu, hz0p, hzr, hzc, hnostar⟩ := hstep
    rcases step5_spec n mk cov ⟨zr, zc⟩ hmkn hmklen hsu hpu hz0p hzr hzc hnostar with
      hnone | hfail | ⟨mk', heq, hr1, hr2, hr3, hr4, hsub⟩
    · rw [stepOnce_step5_none zr zc c mk cov hnone] at h
      exact Sum.noConfusion h
    · rw [stepOnce_step5_some zr zc c mk cov mk cov _ hfail] at h
      injection h with h'
      subst h'
      exact ⟨hcn, hmkn, hmklen, hcovn, hcovr, hcovc, ⟨hV1, hV2⟩, trivial⟩
    · rw [stepOnce_step5_some zr zc c mk cov mk' cov.clear _ heq] at h
      injection h with h'
      subst h'
      refine ⟨hcn, hr1, hr2, Coverage.n_clear cov ▸ hcovn, ?_, ?_, ⟨hV1, ?_⟩,
        hr3, hr4, ?_⟩
      · rw [Coverage.rows_length_clear]; exact hcovn
      · rw [Coverage.cols_length_clear]; exact hcovn
      · intro p hp hm
        rcases (MarkMatrix.mark_ne_none_iff _ p).mp hm with hst | hpr
        · rcases hsub p hp hst with h' | h'
          · exact hV2 p hp ((MarkMatrix.mark_ne_none_iff _ p).mpr (Or.inl h'))
          · exact hV2 p hp ((MarkMatrix.mark_ne_none_iff _ p).mpr (Or.inr h'))
        · exact absurd hpr (hr4 p hp)
      · intro i hi
        exact Coverage.is_row_covered_clear cov i (by rw [hcovn]; exact hi)
  | step6 =>
    obtain ⟨hsu, hpu, hpc, hsoc, hpuc⟩ := hstep
    cases hmin : step6Min c cov with
    | none =>
      have h6 : step6 c cov = none := by
        unfold step6
        rw [hmin]
      rw [stepOnce_step6_none c mk cov h6] at h
      exact Sum.noConfusion h
    | some minval =>
      rw [stepOnce_step6_some c mk cov _ _ (step6_eq c cov minval hmin)] at h
      injection h with h'
      subst h'
      refine ⟨(step6_folds_n c cov minval).trans hcn, hmkn, hmklen, hcovn, hcovr, hcovc,
        ⟨?_, hV2⟩, hsu, hpu, hpc, hsoc, hpuc⟩
      intro p hp hporig
      have hc1 := hV1 p hp hporig
      rw [step6_folds_invalid c cov minval p (by rw [hcn]; exact hp.2)
          (by rw [hc1]; exact hporig)]
      exact hc1
  | failure e =>
    rw [stepOnce_failure] at h
    exact Sum.noConfusion h
  | done =>
    rw [stepOnce_done] at h
    by_cases hl : (MarkMatrix.star_list c.n mk).length = c.n
    · rw [if_pos hl] at h
      exact Sum.noConfusion h
    · rw [if_neg hl] at h
      exact Sum.noConfusion h

theorem mem_of_nodup_full (l : List Nat) (n : Nat)
    (hnd : l.Nodup) (hlt : ∀ x ∈ l, x < n) (hlen : l.length = n) :
    ∀ j, j < n → j ∈ l := by
  intro j hj
  have hsub : l.toFinset ⊆ Finset.range n := by
    intro x hx
    rw [Finset.mem_range]
    exact hlt x (List.mem_toFinset.mp hx)
  have hcard : l.toFinset.card = n := by
    rw [List.toFinset_card_of_nodup hnd, hlen]
  have heq : l.toFinset = Finset.range n :=
    Finset.eq_of_subset_of_card_le hsub (by rw [hcard, Finset.card_range])
  rw [← List.mem_toFinset, heq, Finset.mem_range]
  exact hj

theorem perm_range_of_nodup_full (l : List Nat) (n : Nat)
    (hnd : l.Nodup) (hlt : ∀ x ∈ l, x < n) (hlen : l.length = n) :
    List.Perm l (List.range n) := by
  refine (List.perm_ext_iff_of_nodup hnd (List.nodup_range n)).mpr ?_
  intro a
  constructor
  · intro ha
    exact List.mem_range.mpr (hlt a ha)
  · intro ha
    exact mem_of_nodup_full l n hnd hlt hlen a (List.mem_range.mp ha)

/-- Starting from any state satisfying the invariant, an `ok` exit of the
solve loop yields a permutation matching over valid original cells. -/
theorem solveLoop_ok_spec (n : Nat) (orig : WeightMatrix) :
    ∀ (fuel : Nat) (s : MState) (matching : List Position) (cfin : WeightMatrix),
      MInv n orig s → solveLoop fuel s = (.ok matching, cfin) →
      matching.length = n ∧
      (∀ p ∈ matching, InRange n p ∧ (orig.element_at p).isValid = true) ∧
      (∀ j, j < n → (matching.map Position.row).count j = 1) ∧
      (∀ j, j < n → (matching.map Position.column).count j = 1) ∧
      List.Perm (matching.map Position.row) (List.range n) ∧
      List.Perm (matching.map Position.column) (List.range n) := by
  intro fuel
  induction fuel with
  | zero =>
    intro s matching cfin _ hrun
    injection hrun with h1 _
    exact Outcome.noConfusion h1
  | succ fuel ih =>
    intro s matching cfin hinv hrun
    rw [solveLoop_succ] at hrun
    cases hso : stepOnce s with
    | inl s' =>
      rw [hso] at hrun
      exact ih s' matching cfin (stepOnce_preserves n orig s s' hinv hso) hrun
    | inr o =>
      rw [hso] at hrun
      injection hrun with h1 h2
      subst h1
      obtain ⟨st, c, mk, cov⟩ := s
      obtain ⟨hcn, hmkn, hmklen, hcovn, hcovr, hcovc, ⟨hV1, hV2⟩, hstep⟩ := hinv
      cases st with
      | step1 =>
        rw [stepOnce_step1] at hso
        exact Sum.noConfusion hso
      | step2 =>
        rw [stepOnce_step2] at hso
        exact Sum.noConfusion hso
      | step3 =>
        rw [stepOnce_step3] at hso
        exact Sum.noConfusion hso
      | step4 cnt =>
        cases h4 : step4 c mk cov with
        | none =>
          rw [stepOnce_step4_none cnt c mk cov h4] at hso
          injection hso with h'
          exact Outcome.noConfusion h'
        | some x =>
          rw [stepOnce_step4_some cnt c mk cov x.1 x.2.1 x.2.2 (by rw [h4])] at hso
          exact Sum.noConfusion hso
      | step5 zr zc =>
        cases h5 : step5 mk cov ⟨zr, zc⟩ with
        | none =>
          rw [stepOnce_step5_none zr zc c mk cov h5] at hso
          injection hso with h'
          exact Outcome.noConfusion h'
        | some x =>
          rw [stepOnce_step5_some zr zc c mk cov x.1 x.2.1 x.2.2 (by rw [h5])] at hso
          exact Sum.noConfusion hso
      | step6 =>
        cases h6 : step6 c cov with
        | none =>
          rw [stepOnce_step6_none c mk cov h6] at hso
          injection hso with h'
          exact Outcome.noConfusion h'
        | some x =>
          rw [stepOnce_step6_some c mk cov x.1 x.2 (by rw [h6])] at hso
          exact Sum.noConfusion hso
      | failure e =>
        rw [stepOnce_failure] at hso
        injection hso with h'
        exact Outcome.noConfusion h'
      | done =>
        rw [stepOnce_done] at hso
        by_cases hl : (MarkMatrix.star_list c.n mk).length = c.n
        · rw [if_pos hl] at hso
          injection hso with h'
          injection h' with h''
          have hsu : StarsUnique n mk := hstep
          have hcnl : MarkMatrix.star_list c.n mk = MarkMatrix.star_list n mk := by
            rw [hcn]
          rw [hcnl] at h''
          subst h''
          have hlen : (MarkMatrix.star_list n mk).length = n := by
            rw [← hcnl, hl, hcn]
          have hmem : ∀ p ∈ MarkMatrix.star_list n mk,
              InRange n p ∧ (orig.element_at p).isValid = true := by
            intro p hp
            obtain ⟨hh1, hh2, hh3⟩ := (MarkMatrix.mem_star_list_iff n mk p).mp hp
            exact ⟨⟨hh1, hh2⟩,
              hV2 p ⟨hh1, hh2⟩ ((MarkMatrix.mark_ne_none_iff mk p).mpr (Or.inl hh3))⟩
          have hnd := MarkMatrix.star_list_nodup n mk
          have hrownd : ((MarkMatrix.star_list n mk).map Position.row).Nodup := by
            refine List.Nodup.map_on ?_ hnd
            intro x hx y hy hxy
            obtain ⟨hx1, hx2, hx3⟩ := (MarkMatrix.mem_star_list_iff n mk x).mp hx
            obtain ⟨hy1, hy2, hy3⟩ := (MarkMatrix.mem_star_list_iff n mk y).mp hy
            exact hsu x y ⟨hx1, hx2⟩ ⟨hy1, hy2⟩ hx3 hy3 (Or.inl hxy)
          have hrowlt : ∀ x ∈ (MarkMatrix.star_list n mk).map Position.row, x < n := by
            intro x hx
            obtain ⟨p, hp, hpx⟩ := List.mem_map.mp hx
            rw [← hpx]
            exact ((MarkMatrix.mem_star_list_iff n mk p).mp hp).1
          have hrowlen : ((MarkMatrix.star_list n mk).map Position.row).length = n := by
            rw [List.length_map]
            exact hlen
          have hcolnd : ((MarkMatrix.star_list n mk).map Position.column).Nodup := by
            refine List.Nodup.map_on ?_ hnd
            intro x hx y hy hxy
            obtain ⟨hx1, hx2, hx3⟩ := (MarkMatrix.mem_star_list_iff n mk x).mp hx
            obtain ⟨hy1, hy2, hy3⟩ := (MarkMatrix.mem_star_list_iff n mk y).mp hy
            exact hsu x y ⟨hx1, hx2⟩ ⟨hy1, hy2⟩ hx3 hy3 (Or.inr hxy)
          have hcollt : ∀ x ∈ (MarkMatrix.star_list n mk).map Position.column, x < n := by
            intro x hx
            obtain ⟨p, hp, hpx⟩ := List.mem_map.mp hx
            rw [← hpx]
            exact ((MarkMatrix.mem_star_list_iff n mk p).mp hp).2.1
          have hcollen : ((MarkMatrix.star_list n mk).map Position.column).length = n := by
            rw [List.length_map]
            exact hlen
          exact ⟨hlen, hmem,
            count_eq_one_of_nodup_full _ n hrownd hrowlt hrowlen,
            count_eq_one_of_nodup_full _ n hcolnd hcollt hcollen,
            perm_range_of_nodup_full _ n hrownd hrowlt hrowlen,
            perm_range_of_nodup_full _ n hcolnd hcollt hcollen⟩
        · rw [if_neg hl] at hso
          injection hso with h'
          exact Outcome.noConfusion h'

/-- An `Ok` result of `solve_assignment` is a permutation matching over
cells valid in the input matrix. -/
theorem solve_assignment_ok_spec (fuel : Nat) (weights : WeightMatrix)
    (matching : List Position) (cfin : WeightMatrix)
    (h : solve_assignment fuel weights = (.ok matching, cfin)) :
    matching.length = weights.n ∧
    (∀ p ∈ matching, InRange weights.n p ∧ (weights.element_at p).isValid = true) ∧
    (∀ j, j < weights.n → (matching.map Position.row).count j = 1) ∧
    (∀ j, j < weights.n → (matching.map Position.column).count j = 1) ∧
    List.Perm (matching.map Position.row) (List.range weights.n) ∧
    List.Perm (matching.map Position.column) (List.range weights.n) := by
  unfold solve_assignment at h
  cases hsol : weights.is_solvable with
  | false =>
    rw [hsol] at h
    rw [if_pos (by decide)] at h
    injection h with h1 h2
    exact Outcome.noConfusion h1
  | true =>
    rw [hsol] at h
    rw [if_neg (by decide)] at h
    by_cases hn0 : weights.n = 0
    · rw [if_pos hn0] at h
      injection h with h1 h2
      exact Outcome.noConfusion h1
    · rw [if_neg hn0] at h
      have hinit : MInv weights.n weights
          ⟨.step1, weights, MarkMatrix.new weights.n, Coverage.new weights.n⟩ := by
        refine ⟨rfl, rfl, MarkMatrix.length_new _, rfl, Coverage.rows_length_new _,
          Coverage.cols_length_new _, ⟨?_, ?_⟩, rfl, rfl⟩
        · intro p _ _
          rfl
        · intro p _ hm
          exact absurd (MarkMatrix.get_mark_new weights.n p) hm
      exact solveLoop_ok_spec weights.n weights fuel _ matching cfin hinit h


/-- C1: whenever `solve_assignment` returns `Ok`, the returned sequence
has exactly `n = weights.n` positions, and each row index below `n` and
each column index below `n` occurs in exactly one returned position: the
matching is a permutation of rows onto columns. -/
theorem C1_solve_assignment_permutation (fuel : Nat) (weights : WeightMatrix)
    (matching : List Position) (cfin : WeightMatrix)
    (h : solve_assignment fuel weights = (.ok matching, cfin)) :
    matching.length = weights.n ∧
    (∀ j, j < weights.n → (matching.map Position.row).count j = 1) ∧
    (∀ j, j < weights.n → (matching.map Position.column).count j = 1) := by
  obtain ⟨h1, h2, h3, h4, h5, h6⟩ := solve_assignment_ok_spec fuel weights matching cfin h
  exact ⟨h1, h3, h4⟩

/-- Witness for C1 at the 2×2 matrix `[[1,2],[2,1]]`: the solver returns
the identity matching, in which row 0 and column 1 each occur once. -/
theorem C1_solve_assignment_permutation_witness :
    ([(⟨0, 0⟩ : Position), ⟨1, 1⟩].map Position.row).count 0 = 1 ∧
    ([(⟨0, 0⟩ : Position), ⟨1, 1⟩].map Position.column).count 1 = 1 :=
  ⟨(C1_solve_assignment_permutation 30 ⟨2, [.fin 1, .fin 2, .fin 2, .fin 1]⟩
      [⟨0, 0⟩, ⟨1, 1⟩] ⟨2, [.fin 0, .fin 1, .fin 1, .fin 0]⟩ (by decide)).2.1 0 (by decide),
   (C1_solve_assignment_permutation 30 ⟨2, [.fin 1, .fin 2, .fin 2, .fin 1]⟩
      [⟨0, 0⟩, ⟨1, 1⟩] ⟨2, [.fin 0, .fin 1, .fin 1, .fin 0]⟩ (by decide)).2.2 1 (by decide)⟩

/-- C5: a disallowed (invalid) cell never appears among the positions of
a successful matching, and none of the reduction operations
(`sub_min_of_each_row`, `add_row`, `sub_column`) changes the value stored
in an invalid cell. -/
theorem C5_disallowed_cells_protected (fuel : Nat) (weights : WeightMatrix)
    (matching : List Position) (cfin : WeightMatrix)
    (m : WeightMatrix) (row col : Nat) (v : FVal) (p : Position)
    (hc : p.column < m.n) (hv : (m.element_at p).isValid = false) :
    (solve_assignment fuel weights = (.ok matching, cfin) →
      ∀ q ∈ matching, (weights.element_at q).isValid = true) ∧
    (m.add_row row v).element_at p = m.element_at p ∧
    (m.sub_column col v).element_at p = m.element_at p ∧
    m.sub_min_of_each_row.element_at p = m.element_at p := by
  refine ⟨?_, m.element_at_add_row_invalid row v p hc hv,
    m.element_at_sub_column_invalid col v p hc hv,
    m.element_at_sub_min_invalid p hc hv⟩
  intro h q hq
  exact ((solve_assignment_ok_spec fuel weights matching cfin h).2.1 q hq).2

/-- Witness for C5: the solver's matching on `[[1,2],[2,1]]` uses only
valid cells, and `add_row` leaves the `+∞` cell of `[[+∞,5],[0,0]]`
unchanged. -/
theorem C5_disallowed_cells_protected_witness :
    ((⟨2, [.fin 1, .fin 2, .fin 2, .fin 1]⟩ : WeightMatrix).element_at
        ⟨0, 0⟩).isValid = true ∧
    ((⟨2, [.pinf, .fin 5, .fin 0, .fin 0]⟩ : WeightMatrix).add_row 0
        (.fin 3)).element_at ⟨0, 0⟩ =
      (⟨2, [.pinf, .fin 5, .fin 0, .fin 0]⟩ : WeightMatrix).element_at ⟨0, 0⟩ :=
  ⟨(C5_disallowed_cells_protected 30 ⟨2, [.fin 1, .fin 2, .fin 2, .fin 1]⟩
      [⟨0, 0⟩, ⟨1, 1⟩] ⟨2, [.fin 0, .fin 1, .fin 1, .fin 0]⟩
      ⟨2, [.pinf, .fin 5, .fin 0, .fin 0]⟩ 0 0 (.fin 3) ⟨0, 0⟩
      (by decide) (by decide)).1 (by decide) ⟨0, 0⟩ (by decide),
   (C5_disallowed_cells_protected 30 ⟨2, [.fin 1, .fin 2, .fin 2, .fin 1]⟩
      [⟨0, 0⟩, ⟨1, 1⟩] ⟨2, [.fin 0, .fin 1, .fin 1, .fin 0]⟩
      ⟨2, [.pinf, .fin 5, .fin 0, .fin 0]⟩ 0 0 (.fin 3) ⟨0, 0⟩
      (by decide) (by decide)).2.1⟩

/-! ## C2 — optimality of the returned matching -/

/-- Finite or `+∞` (the conventional disallowed-cell encoding): the cell
restriction of the amended optimality claim. -/
def FVal.finOrPinf : FVal → Bool
  | .fin _ => true
  | .pinf => true
  | _ => false

/-- Total original-matrix cost of a list of positions (sum of the integer
values of its — valid — cells). -/
def matchingCostZ (m : WeightMatrix) (ps : List Position) : ℤ :=
  (ps.map (fun p => (m.element_at p).toZ)).sum

theorem FVal.exists_fin_of_isValid (v : FVal) (h : v.isValid = true) :
    ∃ z : ℤ, v = .fin z := by
  cases v with
  | fin z => exact ⟨z, rfl⟩
  | pinf => exact absurd h (by decide)
  | ninf => exact absurd h (by decide)
  | nan => exact absurd h (by decide)

theorem FVal.eq_pinf_of_finOrPinf_not_valid (v : FVal) (h1 : v.finOrPinf = true)
    (h2 : v.isValid = false) : v = .pinf := by
  cases v with
  | fin z => exact Bool.noConfusion h2
  | pinf => rfl
  | ninf => exact absurd h1 (by decide)
  | nan => exact absurd h1 (by decide)

/-- C2 as stated fails on the code: a `NaN` cell — for which every
comparison returns false — poisons Step 6's unguarded minimum fold
(`min = Some(if m < elm { m } else { elm })` keeps `elm`, i.e. `NaN`,
whenever `m < NaN` is false), the subsequent validity-guarded reductions
turn the `NaN` into a wrong zero pattern, and the solver returns an `Ok`
matching of cost 3 on a matrix whose valid-cell optimum is 1. -/
theorem C2_counterexample :
    ¬ (∀ (fuel : Nat) (weights : WeightMatrix) (matching : List Position)
          (cfin : WeightMatrix),
        solve_assignment fuel weights = (.ok matching, cfin) →
        ∀ ps : List Position,
          List.Perm (ps.map Position.row) (List.range weights.n) →
          List.Perm (ps.map Position.column) (List.range weights.n) →
          (∀ p ∈ ps, (weights.element_at p).isValid = true) →
          matchingCostZ weights matching ≤ matchingCostZ weights ps) := by
  intro h
  have := h 50 ⟨3, [.fin 0, .fin 5, .fin 1, .fin 5, .fin 0, .nan,
      .fin 0, .fin 5, .fin 3]⟩
    [⟨0, 0⟩, ⟨1, 1⟩, ⟨2, 2⟩]
    ⟨3, [.fin 0, .fin 5, .fin (-2), .fin 5, .fin 0, .nan,
      .fin 0, .fin 5, .fin 0]⟩
    (by decide)
    [⟨0, 2⟩, ⟨1, 1⟩, ⟨2, 0⟩] (by decide) (by decide) (by decide)
  revert this
  decide

theorem list_sum_map_add {α : Type} (l : List α) (f g : α → ℤ) :
    (l.map (fun x => f x + g x)).sum = (l.map f).sum + (l.map g).sum := by
  induction l with
  | nil => rfl
  | cons x xs ih =>
    simp only [List.map_cons, List.sum_cons, ih]
    ring

theorem mem_uncovered_list_iff (cov : Coverage) (p : Position) :
    p ∈ cov.uncovered_list ↔
      (p.row < cov.n ∧ p.column < cov.n ∧
        cov.is_row_covered p.row = false ∧ cov.is_column_covered p.column = false) := by
  unfold Coverage.uncovered_list
  rw [List.mem_flatMap]
  constructor
  · rintro ⟨r, hr, hmem⟩
    rw [List.mem_filter, List.mem_range] at hr
    rw [List.mem_map] at hmem
    obtain ⟨cc, hcc, hpc⟩ := hmem
    rw [List.mem_filter, List.mem_range] at hcc
    subst hpc
    refine ⟨hr.1, hcc.1, ?_, ?_⟩
    · cases h : cov.is_row_covered r with
      | false => rfl
      | true =>
        have h2 := hr.2
        rw [h] at h2
        exact absurd h2 (by decide)
    · cases h : cov.is_column_covered cc with
      | false => rfl
      | true =>
        have h2 := hcc.2
        rw [h] at h2
        exact absurd h2 (by decide)
  · rintro ⟨h1, h2, h3, h4⟩
    refine ⟨p.row, ?_, ?_⟩
    · rw [List.mem_filter, List.mem_range]
      exact ⟨h1, by rw [h3]; rfl⟩
    · rw [List.mem_map]
      refine ⟨p.column, ?_, rfl⟩
      rw [List.mem_filter, List.mem_range]
      exact ⟨h2, by rw [h4]; rfl⟩

/-- Pointwise description of Step 6's conditional `add_row` fold over
distinct rows. -/
theorem fold_add_row_element (cov : Coverage) (minval : FVal) :
    ∀ (rs : List Nat), rs.Nodup → ∀ (cc : WeightMatrix) (p : Position), p.column < cc.n →
      ((rs.foldl (fun acc row => if cov.is_row_covered row then acc.add_row row minval
          else acc) cc).element_at p =
        if p.row ∈ rs ∧ cov.is_row_covered p.row = true
        then (if (cc.element_at p).isValid then (cc.element_at p).add minval
              else cc.element_at p)
        else cc.element_at p) := by
  intro rs
  induction rs with
  | nil =>
    intro _ cc p _
    rw [if_neg (by intro h; exact List.not_mem_nil p.row h.1)]
    rfl
  | cons r rs ih =>
    intro hnd cc p hc
    have hnd' := hnd.of_cons
    have hrnot : r ∉ rs := (List.nodup_cons.mp hnd).1
    rw [List.foldl_cons]
    by_cases hPr : cov.is_row_covered r = true
    · rw [if_pos hPr]
      rw [ih hnd' (cc.add_row r minval) p
          (by rw [show (cc.add_row r minval).n = cc.n from rfl]; exact hc)]
      rw [cc.element_at_add_row r minval p hc]
      by_cases hpr : p.row = r
      · have hcond : p.row ∈ r :: rs ∧ cov.is_row_covered p.row = true :=
          ⟨by rw [hpr]; exact List.mem_cons_self r rs, by rw [hpr]; exact hPr⟩
        rw [if_neg (by intro hmem; exact hrnot (hpr ▸ hmem.1)), if_pos hpr,
          if_pos hcond]
      · rw [if_neg hpr]
        by_cases hm : p.row ∈ rs ∧ cov.is_row_covered p.row = true
        · have hcond : p.row ∈ r :: rs ∧ cov.is_row_covered p.row = true :=
            ⟨List.mem_cons_of_mem r hm.1, hm.2⟩
          rw [if_pos hm, if_pos hcond]
        · rw [if_neg hm, if_neg (by
            rintro ⟨hmem, hP⟩
            rcases List.mem_cons.mp hmem with he | hmm
            · exact hpr he
            · exact hm ⟨hmm, hP⟩)]
    · rw [if_neg hPr]
      rw [ih hnd' cc p hc]
      by_cases hpr : p.row = r
      · rw [if_neg (fun h => hrnot (hpr ▸ h.1)),
          if_neg (fun h => hPr (by rw [← hpr]; exact h.2))]
      · by_cases hm : p.row ∈ rs ∧ cov.is_row_covered p.row = true
        · have hcond : p.row ∈ r :: rs ∧ cov.is_row_covered p.row = true :=
            ⟨List.mem_cons_of_mem r hm.1, hm.2⟩
          rw [if_pos hm, if_pos hcond]
        · rw [if_neg hm, if_neg (by
            rintro ⟨hmem, hP⟩
            rcases List.mem_cons.mp hmem with he | hmm
            · exact hpr he
            · exact hm ⟨hmm, hP⟩)]

/-- Pointwise description of Step 6's conditional `sub_column` fold over
distinct columns. -/
theorem fold_sub_col_element (cov : Coverage) (minval : FVal) :
    ∀ (cs : List Nat), cs.Nodup → ∀ (cc : WeightMatrix) (p : Position), p.column < cc.n →
      ((cs.foldl (fun acc col => if !(cov.is_column_covered col) then acc.sub_column col minval
          else acc) cc).element_at p =
        if p.column ∈ cs ∧ cov.is_column_covered p.column = false
        then (if (cc.element_at p).isValid then (cc.element_at p).sub minval
              else cc.element_at p)
        else cc.element_at p) := by
  intro cs
  induction cs with
  | nil =>
    intro _ cc p _
    rw [if_neg (by intro h; exact List.not_mem_nil p.column h.1)]
    rfl
  | cons r rs ih =>
    intro hnd cc p hc
    have hnd' := hnd.of_cons
    have hrnot : r ∉ rs := (List.nodup_cons.mp hnd).1
    rw [List.foldl_cons]
    by_cases hPr : cov.is_column_covered r = false
    · rw [if_pos (by rw [Bool.not_eq_true', hPr])]
      rw [ih hnd' (cc.sub_column r minval) p
          (by rw [show (cc.sub_column r minval).n = cc.n from rfl]; exact hc)]
      rw [cc.element_at_sub_column r minval p hc]
      by_cases hpr : p.column = r
      · have hcond : p.column ∈ r :: rs ∧ cov.is_column_covered p.column = false :=
          ⟨by rw [hpr]; exact List.mem_cons_self r rs, by rw [hpr]; exact hPr⟩
        rw [if_neg (by intro hmem; exact hrnot (hpr ▸ hmem.1)), if_pos hpr,
          if_pos hcond]
      · rw [if_neg hpr]
        by_cases hm : p.column ∈ rs ∧ cov.is_column_covered p.column = false
        · have hcond : p.column ∈ r :: rs ∧ cov.is_column_covered p.column = false :=
            ⟨List.mem_cons_of_mem r hm.1, hm.2⟩
          rw [if_pos hm, if_pos hcond]
        · rw [if_neg hm, if_neg (by
            rintro ⟨hmem, hP⟩
            rcases List.mem_cons.mp hmem with he | hmm
            · exact hpr he
            · exact hm ⟨hmm, hP⟩)]
    · rw [if_neg (by rw [Bool.not_eq_true']; exact hPr)]
      rw [ih hnd' cc p hc]
      by_cases hpr : p.column = r
      · rw [if_neg (fun h => hrnot (hpr ▸ h.1)),
          if_neg (fun h => hPr (by rw [← hpr]; exact h.2))]
      · by_cases hm : p.column ∈ rs ∧ cov.is_column_covered p.column = false
        · have hcond : p.column ∈ r :: rs ∧ cov.is_column_covered p.column = false :=
            ⟨List.mem_cons_of_mem r hm.1, hm.2⟩
          rw [if_pos hm, if_pos hcond]
        · rw [if_neg hm, if_neg (by
            rintro ⟨hmem, hP⟩
            rcases List.mem_cons.mp hmem with he | hmm
            · exact hpr he
            · exact hm ⟨hmm, hP⟩)]

/-- Elementwise effect of Step 6's adjustment: `+minval` on covered rows
(valid cells only), then `−minval` on uncovered columns (valid cells
only). -/
theorem step6_folds_element (c : WeightMatrix) (cov : Coverage) (minval : FVal)
    (p : Position) (hr : p.row < c.n) (hc : p.column < c.n) (mid : FVal)
    (hmid : mid = if cov.is_row_covered p.row = true
        then (if (c.element_at p).isValid then (c.element_at p).add minval
              else c.element_at p)
        else c.element_at p) :
    ((List.range c.n).foldl
      (fun cc col => if !(cov.is_column_covered col) then cc.sub_column col minval else cc)
      ((List.range c.n).foldl
        (fun cc row => if cov.is_row_covered row then cc.add_row row minval else cc) c)).element_at p
      =
      if cov.is_column_covered p.column = false
      then (if mid.isValid then mid.sub minval else mid) else mid := by
  have hrowsn : ((List.range c.n).foldl
      (fun cc row => if cov.is_row_covered row then cc.add_row row minval else cc) c).n
        = c.n := by
    refine foldl_preserve_n _ ?_ _ _
    intro cc b
    by_cases hb : cov.is_row_covered b = true
    · rw [if_pos hb]; rfl
    · rw [if_neg hb]
  have hrow := fold_add_row_element cov minval (List.range c.n) (List.nodup_range c.n) c p hc
  have hcol := fold_sub_col_element cov minval (List.range c.n) (List.nodup_range c.n)
      ((List.range c.n).foldl
        (fun cc row => if cov.is_row_covered row then cc.add_row row minval else cc) c) p
      (by rw [hrowsn]; exact hc)
  rw [hcol, hrow]
  have hmr : p.row ∈ List.range c.n := List.mem_range.mpr hr
  have hmc : p.column ∈ List.range c.n := List.mem_range.mpr hc
  have hmid2 : mid = if p.row ∈ List.range c.n ∧ cov.is_row_covered p.row = true
      then (if (c.element_at p).isValid then (c.element_at p).add minval
            else c.element_at p)
      else c.element_at p := by
    rw [hmid]
    by_cases hrc : cov.is_row_covered p.row = true
    · have h1 : p.row ∈ List.range c.n ∧ cov.is_row_covered p.row = true := ⟨hmr, hrc⟩
      rw [if_pos hrc, if_pos h1]
    · have h1 : ¬(p.row ∈ List.range c.n ∧ cov.is_row_covered p.row = true) :=
        fun h => hrc h.2
      rw [if_neg hrc, if_neg h1]
  rw [← hmid2]
  by_cases hcc : cov.is_column_covered p.column = false
  · have h2 : p.column ∈ List.range c.n ∧ cov.is_column_covered p.column = false :=
      ⟨hmc, hcc⟩
    rw [if_pos h2, if_pos hcc]
  · have h2 : ¬(p.column ∈ List.range c.n ∧ cov.is_column_covered p.column = false) :=
      fun h => hcc h.2
    rw [if_neg h2, if_neg hcc]

/-- Characterization of Step 6's minimum fold from a seeded accumulator,
over cells that are finite or `+∞`: the result is `+∞` only if seed and
every cell are, and otherwise it is a finite value attained by the seed or
a cell and bounding every finite candidate from below. -/
theorem step6MinGo_spec (c : WeightMatrix) :
    ∀ (l : List Position) (w : FVal),
      (∀ p ∈ l, (c.element_at p).finOrPinf = true) →
      w.finOrPinf = true →
      ∀ r : FVal, l.foldl (fun min pos =>
          match min with
          | some m => some (if m.lt (c.element_at pos) then m else (c.element_at pos))
          | none => some (c.element_at pos)) (some w) = some r →
      (r = .pinf ∧ w = .pinf ∧ ∀ p ∈ l, c.element_at p = .pinf) ∨
      (∃ d : ℤ, r = .fin d ∧ (w = .fin d ∨ ∃ p ∈ l, c.element_at p = .fin d) ∧
        (∀ z : ℤ, w = .fin z → d ≤ z) ∧
        (∀ p ∈ l, ∀ z : ℤ, c.element_at p = .fin z → d ≤ z)) := by
  intro l
  induction l with
  | nil =>
    intro w hl hw r hr
    injection hr with hr'
    subst hr'
    cases w with
    | pinf =>
      exact Or.inl ⟨rfl, rfl, fun p hp => absurd hp (List.not_mem_nil p)⟩
    | fin a =>
      refine Or.inr ⟨a, rfl, Or.inl rfl, ?_, fun p hp => absurd hp (List.not_mem_nil p)⟩
      intro z hz
      injection hz with hz'
      omega
    | ninf => exact absurd hw (by decide)
    | nan => exact absurd hw (by decide)
  | cons q l ih =>
    intro w hl hw r hr
    rw [List.foldl_cons] at hr
    have hq := hl q (List.mem_cons_self q l)
    have hl' : ∀ p ∈ l, (c.element_at p).finOrPinf = true :=
      fun p hp => hl p (List.mem_cons_of_mem q hp)
    cases hwv : w with
    | ninf => rw [hwv] at hw; exact absurd hw (by decide)
    | nan => rw [hwv] at hw; exact absurd hw (by decide)
    | pinf =>
      subst hwv
      cases hqe : c.element_at q with
      | ninf => rw [hqe] at hq; exact absurd hq (by decide)
      | nan => rw [hqe] at hq; exact absurd hq (by decide)
      | pinf =>
        have hred : (FVal.pinf.lt (c.element_at q) : Bool) = false := by
          rw [hqe]
          rfl
        have hr1 : l.foldl (fun min pos =>
            match min with
            | some m => some (if m.lt (c.element_at pos) then m else (c.element_at pos))
            | none => some (c.element_at pos))
            (some (if FVal.pinf.lt (c.element_at q) then (.pinf : FVal)
              else c.element_at q)) = some r := hr
        rw [show (if FVal.pinf.lt (c.element_at q) then (.pinf : FVal)
            else c.element_at q) = .pinf from by
          rw [hred, if_neg (by decide)]
          exact hqe] at hr1
        have hr' := hr1
        rcases ih FVal.pinf hl' rfl r hr' with ⟨h1, h2, h3⟩ | ⟨d, h1, h2, h3, h4⟩
        · refine Or.inl ⟨h1, rfl, ?_⟩
          intro p hp
          rcases List.mem_cons.mp hp with he | hm
          · rw [he]; exact hqe
          · exact h3 p hm
        · refine Or.inr ⟨d, h1, ?_, ?_, ?_⟩
          · rcases h2 with hc' | ⟨p, hp, hpd⟩
            · exact FVal.noConfusion hc'
            · exact Or.inr ⟨p, List.mem_cons_of_mem q hp, hpd⟩
          · intro z hz
            exact FVal.noConfusion hz
          · intro p hp z hz
            rcases List.mem_cons.mp hp with he | hm
            · rw [he, hqe] at hz
              exact FVal.noConfusion hz
            · exact h4 p hm z hz
      | fin b =>
        have hred : (FVal.pinf.lt (c.element_at q) : Bool) = false := by
          rw [hqe]
          rfl
        have hr1 : l.foldl (fun min pos =>
            match min with
            | some m => some (if m.lt (c.element_at pos) then m else (c.element_at pos))
            | none => some (c.element_at pos))
            (some (if FVal.pinf.lt (c.element_at q) then (.pinf : FVal)
              else c.element_at q)) = some r := hr
        rw [show (if FVal.pinf.lt (c.element_at q) then (.pinf : FVal)
            else c.element_at q) = .fin b from by
          rw [hred, if_neg (by decide)]
          exact hqe] at hr1
        have hr' := hr1
        rcases ih (.fin b) hl' rfl r hr' with ⟨h1, h2, h3⟩ | ⟨d, h1, h2, h3, h4⟩
        · exact FVal.noConfusion h2
        · refine Or.inr ⟨d, h1, ?_, ?_, ?_⟩
          · rcases h2 with hc' | ⟨p, hp, hpd⟩
            · refine Or.inr ⟨q, List.mem_cons_self q l, ?_⟩
              rw [hqe, hc']
            · exact Or.inr ⟨p, List.mem_cons_of_mem q hp, hpd⟩
          · intro z hz
            exact FVal.noConfusion hz
          · intro p hp z hz
            rcases List.mem_cons.mp hp with he | hm
            · rw [he, hqe] at hz
              injection hz with hz'
              subst hz'
              exact h3 b rfl
            · exact h4 p hm z hz
    | fin a =>
      subst hwv
      cases hqe : c.element_at q with
      | ninf => rw [hqe] at hq; exact absurd hq (by decide)
      | nan => rw [hqe] at hq; exact absurd hq (by decide)
      | pinf =>
        have hr1 : l.foldl (fun min pos =>
            match min with
            | some m => some (if m.lt (c.element_at pos) then m else (c.element_at pos))
            | none => some (c.element_at pos))
            (some (if (FVal.fin a).lt (c.element_at q) then (.fin a : FVal)
              else c.element_at q)) = some r := hr
        rw [show (if (FVal.fin a).lt (c.element_at q) then (.fin a : FVal)
            else c.element_at q) = .fin a from by rw [hqe]; rfl] at hr1
        have hr' := hr1
        rcases ih (.fin a) hl' rfl r hr' with ⟨h1, h2, h3⟩ | ⟨d, h1, h2, h3, h4⟩
        · exact FVal.noConfusion h2
        · refine Or.inr ⟨d, h1, ?_, ?_, ?_⟩
          · rcases h2 with hc' | ⟨p, hp, hpd⟩
            · exact Or.inl hc'
            · exact Or.inr ⟨p, List.mem_cons_of_mem q hp, hpd⟩
          · exact h3
          · intro p hp z hz
            rcases List.mem_cons.mp hp with he | hm
            · rw [he, hqe] at hz
              exact FVal.noConfusion hz
            · exact h4 p hm z hz
      | fin b =>
        by_cases hab : a < b
        · have hr1 : l.foldl (fun min pos =>
              match min with
              | some m => some (if m.lt (c.element_at pos) then m else (c.element_at pos))
              | none => some (c.element_at pos))
              (some (if (FVal.fin a).lt (c.element_at q) then (.fin a : FVal)
                else c.element_at q)) = some r := hr
          rw [show (if (FVal.fin a).lt (c.element_at q) then (.fin a : FVal)
              else c.element_at q) = .fin a from by
            rw [hqe]
            show (if (decide (a < b) : Bool) = true then (.fin a : FVal) else .fin b) = .fin a
            rw [decide_eq_true hab]
            rfl] at hr1
          have hr' := hr1
          rcases ih (.fin a) hl' rfl r hr' with ⟨h1, h2, h3⟩ | ⟨d, h1, h2, h3, h4⟩
          · exact FVal.noConfusion h2
          · refine Or.inr ⟨d, h1, ?_, h3, ?_⟩
            · rcases h2 with hc' | ⟨p, hp, hpd⟩
              · exact Or.inl hc'
              · exact Or.inr ⟨p, List.mem_cons_of_mem q hp, hpd⟩
            · intro p hp z hz
              rcases List.mem_cons.mp hp with he | hm
              · rw [he, hqe] at hz
                injection hz with hz'
                subst hz'
                have := h3 a rfl
                omega
              · exact h4 p hm z hz
        · have hr1 : l.foldl (fun min pos =>
              match min with
              | some m => some (if m.lt (c.element_at pos) then m else (c.element_at pos))
              | none => some (c.element_at pos))
              (some (if (FVal.fin a).lt (c.element_at q) then (.fin a : FVal)
                else c.element_at q)) = some r := hr
          rw [show (if (FVal.fin a).lt (c.element_at q) then (.fin a : FVal)
              else c.element_at q) = .fin b from by
            rw [hqe]
            show (if (decide (a < b) : Bool) = true then (.fin a : FVal) else .fin b) = .fin b
            rw [decide_eq_false hab]
            rfl] at hr1
          have hr' := hr1
          rcases ih (.fin b) hl' rfl r hr' with ⟨h1, h2, h3⟩ | ⟨d, h1, h2, h3, h4⟩
          · exact FVal.noConfusion h2
          · refine Or.inr ⟨d, h1, ?_, ?_, ?_⟩
            · rcases h2 with hc' | ⟨p, hp, hpd⟩
              · refine Or.inr ⟨q, List.mem_cons_self q l, ?_⟩
                rw [hqe, hc']
              · exact Or.inr ⟨p, List.mem_cons_of_mem q hp, hpd⟩
            · intro z hz
              injection hz with hz'
              subst hz'
              have := h3 b rfl
              omega
            · intro p hp z hz
              rcases List.mem_cons.mp hp with he | hm
              · rw [he, hqe] at hz
                injection hz with hz'
                subst hz'
                exact h3 b rfl
              · exact h4 p hm z hz

/-- Characterization of `step6Min` on a matrix whose uncovered cells are
all finite-or-`+∞`. -/
theorem step6Min_spec (c : WeightMatrix) (cov : Coverage) (v : FVal)
    (hfp : ∀ p ∈ cov.uncovered_list, (c.element_at p).finOrPinf = true)
    (h : step6Min c cov = some v) :
    (v = .pinf ∧ ∀ p ∈ cov.uncovered_list, c.element_at p = .pinf) ∨
    (∃ d : ℤ, v = .fin d ∧ (∃ p ∈ cov.uncovered_list, c.element_at p = .fin d) ∧
      (∀ p ∈ cov.uncovered_list, ∀ z : ℤ, c.element_at p = .fin z → d ≤ z)) := by
  unfold step6Min at h
  cases hl : cov.uncovered_list with
  | nil =>
    rw [hl] at h
    exact absurd h (by simp)
  | cons q l =>
    rw [hl] at h
    rw [List.foldl_cons] at h
    have hq : (c.element_at q).finOrPinf = true :=
      hfp q (by rw [hl]; exact List.mem_cons_self q l)
    have hl' : ∀ p ∈ l, (c.element_at p).finOrPinf = true :=
      fun p hp => hfp p (by rw [hl]; exact List.mem_cons_of_mem q hp)
    have h' : l.foldl (fun min pos =>
        match min with
        | some m => some (if m.lt (c.element_at pos) then m else (c.element_at pos))
        | none => some (c.element_at pos)) (some (c.element_at q)) = some v := h
    rcases step6MinGo_spec c l (c.element_at q) hl' hq v h' with
      ⟨hv, hw, hall⟩ | ⟨d, hv, hat, hwb, hlb⟩
    · left
      refine ⟨hv, ?_⟩
      intro p hp
      rcases List.mem_cons.mp hp with he | hm
      · rw [he]; exact hw
      · exact hall p hm
    · right
      refine ⟨d, hv, ?_, ?_⟩
      · rcases hat with hwd | ⟨p, hp, hpd⟩
        · exact ⟨q, List.mem_cons_self q l, hwd⟩
        · exact ⟨p, List.mem_cons_of_mem q hp, hpd⟩
      · intro p hp z hz
        rcases List.mem_cons.mp hp with he | hm
        · exact hwb z (by rw [← he]; exact hz)
        · exact hlb p hm z hz

/-- Subtracting an invalid value from a valid one yields an invalid
value (`fin − ±∞ = ∓∞`, `fin − NaN = NaN`). -/
theorem FVal.sub_invalid_right (v w : FVal) (hv : v.isValid = true)
    (hw : w.isValid = false) : (v.sub w).isValid = false := by
  obtain ⟨z, hz⟩ := FVal.exists_fin_of_isValid v hv
  subst hz
  cases w with
  | fin y => exact Bool.noConfusion hw
  | pinf => rfl
  | ninf => rfl
  | nan => rfl

/-- The `min_of_row` fold never replaces a `-∞` accumulator: no candidate
compares strictly below `-∞`. -/
theorem foldl_min_keep_ninf :
    ∀ l : List FVal,
      l.foldl (fun min val => if val.isValid && val.lt min then val else min) .ninf
        = .ninf := by
  intro l
  induction l with
  | nil => rfl
  | cons x xs ih =>
    rw [List.foldl_cons]
    have hstep : (if x.isValid && x.lt .ninf then x else (.ninf : FVal)) = .ninf := by
      cases x with
      | fin z => rfl
      | pinf => rfl
      | ninf => rfl
      | nan => rfl
    rw [hstep]
    exact ih

/-- A row whose first cell is `-∞` gets `-∞` as its unguarded seed, and
`min_of_row` keeps it. -/
theorem min_of_row_ninf (m : WeightMatrix) (r : Nat)
    (h0 : m.element_at ⟨r, 0⟩ = .ninf) (hn : 0 < m.n) :
    m.min_of_row r = .ninf := by
  obtain ⟨k, hk⟩ : ∃ k, m.n = k + 1 := ⟨m.n - 1, by omega⟩
  have hcons := row_slice_cons m r k hk
  unfold WeightMatrix.min_of_row
  rw [hcons]
  simp only [List.tail_cons, List.headD_cons]
  rw [h0]
  exact foldl_min_keep_ninf _

/-- Step 6's minimum fold absorbs a `-∞` accumulator on `NaN`-free
cells. -/
theorem step6MinGo_ninf (c : WeightMatrix) :
    ∀ l : List Position, (∀ p ∈ l, c.element_at p ≠ .nan) →
      l.foldl (fun min pos =>
          match min with
          | some m => some (if m.lt (c.element_at pos) then m else (c.element_at pos))
          | none => some (c.element_at pos)) (some .ninf) = some .ninf := by
  intro l
  induction l with
  | nil => intro _; rfl
  | cons q l ih =>
    intro hl
    have hq : c.element_at q ≠ .nan := hl q (List.mem_cons_self q l)
    have hl' : ∀ p ∈ l, c.element_at p ≠ .nan :=
      fun p hp => hl p (List.mem_cons_of_mem q hp)
    rw [List.foldl_cons]
    have hstep : (if FVal.ninf.lt (c.element_at q) then (.ninf : FVal)
        else c.element_at q) = .ninf := by
      cases hqe : c.element_at q with
      | fin z => rfl
      | pinf => rfl
      | ninf => rfl
      | nan => exact absurd hqe hq
    have hgoal : l.foldl (fun min pos =>
        match min with
        | some m => some (if m.lt (c.element_at pos) then m else (c.element_at pos))
        | none => some (c.element_at pos))
        (some (if FVal.ninf.lt (c.element_at q) then (.ninf : FVal)
          else c.element_at q)) = some .ninf := by
      rw [hstep]
      exact ih hl'
    exact hgoal

/-- Characterization of Step 6's minimum fold from a seeded accumulator,
over `NaN`-free cells with a `NaN`-free seed: the result is invalid, or a
finite value attained by the seed or a cell that bounds every finite
candidate from below. -/
theorem step6MinGo_spec2 (c : WeightMatrix) :
    ∀ (l : List Position) (w : FVal),
      (∀ p ∈ l, c.element_at p ≠ .nan) →
      w ≠ .nan →
      ∀ r : FVal, l.foldl (fun min pos =>
          match min with
          | some m => some (if m.lt (c.element_at pos) then m else (c.element_at pos))
          | none => some (c.element_at pos)) (some w) = some r →
      r.isValid = false ∨
      (∃ d : ℤ, r = .fin d ∧
        (w = .fin d ∨ ∃ p ∈ l, c.element_at p = .fin d) ∧
        (∀ z : ℤ, w = .fin z → d ≤ z) ∧
        (∀ p ∈ l, ∀ z : ℤ, c.element_at p = .fin z → d ≤ z)) := by
  intro l
  induction l with
  | nil =>
    intro w hl hw r hr
    injection hr with hr'
    subst hr'
    cases w with
    | pinf => exact Or.inl rfl
    | ninf => exact Or.inl rfl
    | nan => exact absurd rfl hw
    | fin a =>
      refine Or.inr ⟨a, rfl, Or.inl rfl, ?_, fun p hp => absurd hp (List.not_mem_nil p)⟩
      intro z hz
      injection hz with hz'
      omega
  | cons q l ih =>
    intro w hl hw r hr
    rw [List.foldl_cons] at hr
    have hq : c.element_at q ≠ .nan := hl q (List.mem_cons_self q l)
    have hl' : ∀ p ∈ l, c.element_at p ≠ .nan :=
      fun p hp => hl p (List.mem_cons_of_mem q hp)
    cases hwv : w with
    | nan => rw [hwv] at hw; exact absurd rfl hw
    | ninf =>
      subst hwv
      have hstep : (if FVal.ninf.lt (c.element_at q) then (.ninf : FVal)
          else c.element_at q) = .ninf := by
        cases hqe : c.element_at q with
        | fin z => rfl
        | pinf => rfl
        | ninf => rfl
        | nan => exact absurd hqe hq
      have hr1 : l.foldl (fun min pos =>
          match min with
          | some m => some (if m.lt (c.element_at pos) then m else (c.element_at pos))
          | none => some (c.element_at pos))
          (some (if FVal.ninf.lt (c.element_at q) then (.ninf : FVal)
            else c.element_at q)) = some r := hr
      rw [hstep, step6MinGo_ninf c l hl'] at hr1
      injection hr1 with hr1'
      rw [← hr1']
      exact Or.inl rfl
    | pinf =>
      subst hwv
      cases hqe : c.element_at q with
      | nan => exact absurd hqe hq
      | ninf =>
        have hstep : (if FVal.pinf.lt (c.element_at q) then (.pinf : FVal)
            else c.element_at q) = .ninf := by
          rw [hqe]
          rfl
        have hr1 : l.foldl (fun min pos =>
            match min with
            | some m => some (if m.lt (c.element_at pos) then m else (c.element_at pos))
            | none => some (c.element_at pos))
            (some (if FVal.pinf.lt (c.element_at q) then (.pinf : FVal)
              else c.element_at q)) = some r := hr
        rw [hstep, step6MinGo_ninf c l hl'] at hr1
        injection hr1 with hr1'
        rw [← hr1']
        exact Or.inl rfl
      | pinf =>
        have hstep : (if FVal.pinf.lt (c.element_at q) then (.pinf : FVal)
            else c.element_at q) = .pinf := by
          rw [hqe]
          rfl
        have hr1 : l.foldl (fun min pos =>
            match min with
            | some m => some (if m.lt (c.element_at pos) then m else (c.element_at pos))
            | none => some (c.element_at pos))
            (some (if FVal.pinf.lt (c.element_at q) then (.pinf : FVal)
              else c.element_at q)) = some r := hr
        rw [hstep] at hr1
        rcases ih FVal.pinf hl' (fun hc' => FVal.noConfusion hc') r hr1 with
          hinv | ⟨d, h1, h2, h3, h4⟩
        · exact Or.inl hinv
        · refine Or.inr ⟨d, h1, ?_, ?_, ?_⟩
          · rcases h2 with hc' | ⟨p, hp, hpd⟩
            · exact FVal.noConfusion hc'
            · exact Or.inr ⟨p, List.mem_cons_of_mem q hp, hpd⟩
          · intro z hz
            exact FVal.noConfusion hz
          · intro p hp z hz
            rcases List.mem_cons.mp hp with he | hm
            · rw [he, hqe] at hz
              exact FVal.noConfusion hz
            · exact h4 p hm z hz
      | fin b =>
        have hstep : (if FVal.pinf.lt (c.element_at q) then (.pinf : FVal)
            else c.element_at q) = .fin b := by
          rw [hqe]
          rfl
        have hr1 : l.foldl (fun min pos =>
            match min with
            | some m => some (if m.lt (c.element_at pos) then m else (c.element_at pos))
            | none => some (c.element_at pos))
            (some (if FVal.pinf.lt (c.element_at q) then (.pinf : FVal)
              else c.element_at q)) = some r := hr
        rw [hstep] at hr1
        rcases ih (.fin b) hl' (fun hc' => FVal.noConfusion hc') r hr1 with
          hinv | ⟨d, h1, h2, h3, h4⟩
        · exact Or.inl hinv
        · refine Or.inr ⟨d, h1, ?_, ?_, ?_⟩
          · rcases h2 with hc' | ⟨p, hp, hpd⟩
            · refine Or.inr ⟨q, List.mem_cons_self q l, ?_⟩
              rw [hqe, hc']
            · exact Or.inr ⟨p, List.mem_cons_of_mem q hp, hpd⟩
          · intro z hz
            exact FVal.noConfusion hz
          · intro p hp z hz
            rcases List.mem_cons.mp hp with he | hm
            · rw [he, hqe] at hz
              injection hz with hz'
              subst hz'
              exact h3 b rfl
            · exact h4 p hm z hz
    | fin a =>
      subst hwv
      cases hqe : c.element_at q with
      | nan => exact absurd hqe hq
      | ninf =>
        have hstep : (if (FVal.fin a).lt (c.element_at q) then (.fin a : FVal)
            else c.element_at q) = .ninf := by
          rw [hqe]
          rfl
        have hr1 : l.foldl (fun min pos =>
            match min with
            | some m => some (if m.lt (c.element_at pos) then m else (c.element_at pos))
            | none => some (c.element_at pos))
            (some (if (FVal.fin a).lt (c.element_at q) then (.fin a : FVal)
              else c.element_at q)) = some r := hr
        rw [hstep, step6MinGo_ninf c l hl'] at hr1
        injection hr1 with hr1'
        rw [← hr1']
        exact Or.inl rfl
      | pinf =>
        have hstep : (if (FVal.fin a).lt (c.element_at q) then (.fin a : FVal)
            else c.element_at q) = .fin a := by
          rw [hqe]
          rfl
        have hr1 : l.foldl (fun min pos =>
            match min with
            | some m => some (if m.lt (c.element_at pos) then m else (c.element_at pos))
            | none => some (c.element_at pos))
            (some (if (FVal.fin a).lt (c.element_at q) then (.fin a : FVal)
              else c.element_at q)) = some r := hr
        rw [hstep] at hr1
        rcases ih (.fin a) hl' (fun hc' => FVal.noConfusion hc') r hr1 with
          hinv | ⟨d, h1, h2, h3, h4⟩
        · exact Or.inl hinv
        · refine Or.inr ⟨d, h1, ?_, h3, ?_⟩
          · rcases h2 with hc' | ⟨p, hp, hpd⟩
            · exact Or.inl hc'
            · exact Or.inr ⟨p, List.mem_cons_of_mem q hp, hpd⟩
          · intro p hp z hz
            rcases List.mem_cons.mp hp with he | hm
            · rw [he, hqe] at hz
              exact FVal.noConfusion hz
            · exact h4 p hm z hz
      | fin b =>
        by_cases hab : a < b
        · have hstep : (if (FVal.fin a).lt (c.element_at q) then (.fin a : FVal)
              else c.element_at q) = .fin a := by
            rw [hqe]
            show (if (decide (a < b) : Bool) = true then (.fin a : FVal) else .fin b)
              = .fin a
            rw [decide_eq_true hab]
            rfl
          have hr1 : l.foldl (fun min pos =>
              match min with
              | some m => some (if m.lt (c.element_at pos) then m else (c.element_at pos))
              | none => some (c.element_at pos))
              (some (if (FVal.fin a).lt (c.element_at q) then (.fin a : FVal)
                else c.element_at q)) = some r := hr
          rw [hstep] at hr1
          rcases ih (.fin a) hl' (fun hc' => FVal.noConfusion hc') r hr1 with
            hinv | ⟨d, h1, h2, h3, h4⟩
          · exact Or.inl hinv
          · refine Or.inr ⟨d, h1, ?_, h3, ?_⟩
            · rcases h2 with hc' | ⟨p, hp, hpd⟩
              · exact Or.inl hc'
              · exact Or.inr ⟨p, List.mem_cons_of_mem q hp, hpd⟩
            · intro p hp z hz
              rcases List.mem_cons.mp hp with he | hm
              · rw [he, hqe] at hz
                injection hz with hz'
                subst hz'
                have := h3 a rfl
                omega
              · exact h4 p hm z hz
        · have hstep : (if (FVal.fin a).lt (c.element_at q) then (.fin a : FVal)
              else c.element_at q) = .fin b := by
            rw [hqe]
            show (if (decide (a < b) : Bool) = true then (.fin a : FVal) else .fin b)
              = .fin b
            rw [decide_eq_false hab]
            rfl
          have hr1 : l.foldl (fun min pos =>
              match min with
              | some m => some (if m.lt (c.element_at pos) then m else (c.element_at pos))
              | none => some (c.element_at pos))
              (some (if (FVal.fin a).lt (c.element_at q) then (.fin a : FVal)
                else c.element_at q)) = some r := hr
          rw [hstep] at hr1
          rcases ih (.fin b) hl' (fun hc' => FVal.noConfusion hc') r hr1 with
            hinv | ⟨d, h1, h2, h3, h4⟩
          · exact Or.inl hinv
          · refine Or.inr ⟨d, h1, ?_, ?_, ?_⟩
            · rcases h2 with hc' | ⟨p, hp, hpd⟩
              · refine Or.inr ⟨q, List.mem_cons_self q l, ?_⟩
                rw [hqe, hc']
              · exact Or.inr ⟨p, List.mem_cons_of_mem q hp, hpd⟩
            · intro z hz
              injection hz with hz'
              subst hz'
              have := h3 b rfl
              omega
            · intro p hp z hz
              rcases List.mem_cons.mp hp with he | hm
              · rw [he, hqe] at hz
                injection hz with hz'
                subst hz'
                exact h3 b rfl
              · exact h4 p hm z hz

/-- Characterization of `step6Min` on `NaN`-free uncovered cells: the
minimum is invalid, or a finite value attained by an uncovered cell and
bounding every uncovered finite cell from below. -/
theorem step6Min_spec2 (c : WeightMatrix) (cov : Coverage) (v : FVal)
    (hnn : ∀ p ∈ cov.uncovered_list, c.element_at p ≠ .nan)
    (h : step6Min c cov = some v) :
    v.isValid = false ∨
    (∃ d : ℤ, v = .fin d ∧ (∃ p ∈ cov.uncovered_list, c.element_at p = .fin d) ∧
      (∀ p ∈ cov.uncovered_list, ∀ z : ℤ, c.element_at p = .fin z → d ≤ z)) := by
  unfold step6Min at h
  cases hl : cov.uncovered_list with
  | nil =>
    rw [hl] at h
    exact absurd h (by simp)
  | cons q l =>
    rw [hl] at h
    rw [List.foldl_cons] at h
    have hq : c.element_at q ≠ .nan :=
      hnn q (by rw [hl]; exact List.mem_cons_self q l)
    have hl' : ∀ p ∈ l, c.element_at p ≠ .nan :=
      fun p hp => hnn p (by rw [hl]; exact List.mem_cons_of_mem q hp)
    have h' : l.foldl (fun min pos =>
        match min with
        | some m => some (if m.lt (c.element_at pos) then m else (c.element_at pos))
        | none => some (c.element_at pos)) (some (c.element_at q)) = some v := h
    rcases step6MinGo_spec2 c l (c.element_at q) hl' hq v h' with
      hinv | ⟨d, hv, hat, hwb, hlb⟩
    · exact Or.inl hinv
    · right
      refine ⟨d, hv, ?_, ?_⟩
      · rcases hat with hwd | ⟨p, hp, hpd⟩
        · exact ⟨q, List.mem_cons_self q l, hwd⟩
        · exact ⟨p, List.mem_cons_of_mem q hp, hpd⟩
      · intro p hp z hz
        rcases List.mem_cons.mp hp with he | hm
        · exact hwb z (by rw [← he]; exact hz)
        · exact hlb p hm z hz

theorem mem_row_slice_iff (m : WeightMatrix) (r : Nat) (v : FVal) :
    v ∈ m.row_slice r ↔ ∃ cc, cc < m.n ∧ m.element_at ⟨r, cc⟩ = v := by
  unfold WeightMatrix.row_slice
  rw [List.mem_map]
  constructor
  · rintro ⟨cc, hcc, hv⟩
    exact ⟨cc, List.mem_range.mp hcc, hv⟩
  · rintro ⟨cc, hcc, hv⟩
    exact ⟨cc, List.mem_range.mpr hcc, hv⟩

/-- The minimum fold over a list of valid (finite) values, seeded with a
finite value: finite result, attained, and a lower bound. -/
theorem fin_min_fold_spec (l : List FVal) :
    ∀ (a : ℤ), (∀ x ∈ l, x.isValid = true) →
      ∃ μ : ℤ, l.foldl (fun acc b => if b.lt acc then b else acc) (.fin a) = .fin μ ∧
        (μ = a ∨ (FVal.fin μ) ∈ l) ∧ μ ≤ a ∧
        (∀ z : ℤ, (FVal.fin z) ∈ l → μ ≤ z) := by
  induction l with
  | nil =>
    intro a _
    exact ⟨a, rfl, Or.inl rfl, le_refl a,
      fun z hz => absurd hz (List.not_mem_nil _)⟩
  | cons x xs ih =>
    intro a hl
    obtain ⟨zx, hzx⟩ := FVal.exists_fin_of_isValid x (hl x (List.mem_cons_self x xs))
    subst hzx
    rw [List.foldl_cons]
    by_cases hlt : zx < a
    · have hstep : (if (FVal.fin zx).lt (.fin a) then (.fin zx : FVal) else .fin a)
          = .fin zx := by
        show (if (decide (zx < a) : Bool) = true then (.fin zx : FVal) else .fin a)
          = .fin zx
        rw [decide_eq_true hlt]
        rfl
      rw [hstep]
      obtain ⟨μ, h1, h2, h3, h4⟩ := ih zx (fun y hy => hl y (List.mem_cons_of_mem _ hy))
      refine ⟨μ, h1, ?_, by omega, ?_⟩
      · rcases h2 with he | hm
        · exact Or.inr (by rw [he]; exact List.mem_cons_self _ _)
        · exact Or.inr (List.mem_cons_of_mem _ hm)
      · intro z hz
        rcases List.mem_cons.mp hz with he | hm
        · injection he with he'
          omega
        · exact h4 z hm
    · have hstep : (if (FVal.fin zx).lt (.fin a) then (.fin zx : FVal) else .fin a)
          = .fin a := by
        show (if (decide (zx < a) : Bool) = true then (.fin zx : FVal) else .fin a)
          = .fin a
        rw [decide_eq_false hlt]
        rfl
      rw [hstep]
      obtain ⟨μ, h1, h2, h3, h4⟩ := ih a (fun y hy => hl y (List.mem_cons_of_mem _ hy))
      refine ⟨μ, h1, ?_, h3, ?_⟩
      · rcases h2 with he | hm
        · exact Or.inl he
        · exact Or.inr (List.mem_cons_of_mem _ hm)
      · intro z hz
        rcases List.mem_cons.mp hz with he | hm
        · injection he with he'
          omega
        · exact h4 z hm

/-- Characterization of the valid-cell minimum of a row that has a valid
cell: finite, attained, and a lower bound on every valid cell. -/
theorem spec_valid_row_min_spec (m : WeightMatrix) (r : Nat)
    (hex : ∃ cc, cc < m.n ∧ (m.element_at ⟨r, cc⟩).isValid = true) :
    ∃ μ : ℤ, spec_valid_row_min m r = .fin μ ∧
      (∃ cc, cc < m.n ∧ m.element_at ⟨r, cc⟩ = .fin μ) ∧
      (∀ cc, cc < m.n → ∀ z : ℤ, m.element_at ⟨r, cc⟩ = .fin z → μ ≤ z) := by
  unfold spec_valid_row_min
  cases hf : (m.row_slice r).filter (fun v => v.isValid) with
  | nil =>
    exfalso
    obtain ⟨cc, hcc, hval⟩ := hex
    have hmem : m.element_at ⟨r, cc⟩ ∈ (m.row_slice r).filter (fun v => v.isValid) :=
      List.mem_filter.mpr ⟨(mem_row_slice_iff m r _).mpr ⟨cc, hcc, rfl⟩, hval⟩
    rw [hf] at hmem
    exact absurd hmem (List.not_mem_nil _)
  | cons w ws =>
    have hmem : ∀ x ∈ w :: ws,
        ∃ cc, cc < m.n ∧ m.element_at ⟨r, cc⟩ = x ∧ x.isValid = true := by
      intro x hx
      rw [← hf] at hx
      obtain ⟨hx1, hx2⟩ := List.mem_filter.mp hx
      obtain ⟨cc, hcc, hv⟩ := (mem_row_slice_iff m r x).mp hx1
      exact ⟨cc, hcc, hv, hx2⟩
    obtain ⟨cw, hcw, hvw, hwvalid⟩ := hmem w (List.mem_cons_self w ws)
    obtain ⟨zw, hzw⟩ := FVal.exists_fin_of_isValid w hwvalid
    subst hzw
    obtain ⟨μ, h1, h2, h3, h4⟩ := fin_min_fold_spec ws zw
      (fun y hy => by
        obtain ⟨cc, hcc, hv, hval⟩ := hmem y (List.mem_cons_of_mem _ hy)
        exact hval)
    refine ⟨μ, h1, ?_, ?_⟩
    · rcases h2 with he | hm
      · exact ⟨cw, hcw, by rw [hvw, he]⟩
      · obtain ⟨cc, hcc, hv, _⟩ := hmem (.fin μ) (List.mem_cons_of_mem _ hm)
        exact ⟨cc, hcc, hv⟩
    · intro cc hcc z hz
      have hin : m.element_at ⟨r, cc⟩ ∈ (m.row_slice r).filter (fun v => v.isValid) :=
        List.mem_filter.mpr ⟨(mem_row_slice_iff m r _).mpr ⟨cc, hcc, rfl⟩,
          by rw [hz]; rfl⟩
      rw [hf, hz] at hin
      rcases List.mem_cons.mp hin with he | hm
      · injection he with he'
        omega
      · exact h4 z hm

/-- After `sub_min_of_each_row` on a solvable matrix whose rows each start
with a valid cell or `+∞`, every originally finite cell holds its original
value minus its row's valid minimum, which is nonnegative. -/
theorem sub_min_potential (m : WeightMatrix)
    (hfirst : ∀ r, r < m.n → ((m.element_at ⟨r, 0⟩).isValid = true ∨
      m.element_at ⟨r, 0⟩ = .pinf))
    (hsolv : ∀ r, r < m.n → ∃ cc, cc < m.n ∧ (m.element_at ⟨r, cc⟩).isValid = true) :
    ∀ p : Position, InRange m.n p → ∀ z : ℤ, m.element_at p = .fin z →
      m.sub_min_of_each_row.element_at p =
        .fin (z - (spec_valid_row_min m p.row).toZ) ∧
      0 ≤ z - (spec_valid_row_min m p.row).toZ := by
  intro p hp z hz
  obtain ⟨μ, hμ1, hμ2, hμ3⟩ := spec_valid_row_min_spec m p.row (hsolv p.row hp.1)
  have hmin : m.min_of_row p.row = spec_valid_row_min m p.row := by
    refine min_of_row_eq_spec m p.row (by omega) ?_ (hsolv p.row hp.1)
    rcases hfirst p.row hp.1 with hv | hpinf
    · exact Or.inl hv
    · exact Or.inr hpinf
  have hfold : m.sub_min_of_each_row.element_at p =
      if p.row ∈ List.range m.n then (m.sub_row p.row (m.min_of_row p.row)).element_at p
      else m.element_at p :=
    sub_min_fold_element (List.range m.n) (List.nodup_range m.n) m p hp.2
  rw [if_pos (List.mem_range.mpr hp.1)] at hfold
  rw [m.element_at_sub_row p.row (m.min_of_row p.row) p hp.2] at hfold
  rw [if_pos rfl] at hfold
  rw [hz] at hfold
  rw [if_pos (show (FVal.fin z).isValid = true from rfl)] at hfold
  rw [hmin, hμ1] at hfold
  rw [hμ1]
  constructor
  · rw [hfold]
    rfl
  · have hle := hμ3 p.column hp.2 z hz
    show 0 ≤ z - μ
    omega

theorem FVal.eq_fin_zero_of_isZero (v : FVal) (h : v.isZero = true) : v = .fin 0 := by
  cases v with
  | fin z =>
    have hz : z = 0 := by
      have : (decide (z = 0) : Bool) = true := h
      exact of_decide_eq_true this
    rw [hz]
  | pinf => exact absurd h (by decide)
  | ninf => exact absurd h (by decide)
  | nan => exact absurd h (by decide)

/-- Marked cells sit on zeros of the current matrix. -/
def MarkedZeros (n : Nat) (cur : WeightMatrix) (mk : MarkMatrix) : Prop :=
  ∀ p : Position, InRange n p → mk.get_mark p ≠ .none → cur.is_element_zero p = true

/-- Feasible potentials explaining the current matrix relative to the
original: every originally finite cell holds `orig − u(row) − v(col)`,
which is nonnegative. -/
def PotInv (n : Nat) (orig cur : WeightMatrix) : Prop :=
  ∃ u v : Nat → ℤ, ∀ p : Position, InRange n p → ∀ z : ℤ, orig.element_at p = .fin z →
    cur.element_at p = .fin (z - u p.row - v p.column) ∧ 0 ≤ z - u p.row - v p.column

/-- The absorbing failure region: Step 4/6 with every uncovered cell
invalid; from here the machine can only cycle or panic, never return. -/
def Doomed (n : Nat) (s : MState) : Prop :=
  ((∃ cnt, s.step = .step4 cnt) ∨ s.step = .step6) ∧
  (∀ p : Position, InRange n p → s.cov.is_row_covered p.row = false →
    s.cov.is_column_covered p.column = false → (s.c.element_at p).isValid = false)

/-- The step-indexed optimality invariant (C2). -/
def C2Step (n : Nat) (orig : WeightMatrix) (s : MState) : Prop :=
  match s.step with
  | .step1 => s.c = orig
  | .step2 => PotInv n orig s.c
  | .step3 => PotInv n orig s.c ∧ MarkedZeros n s.c s.marks
  | .step4 _ => PotInv n orig s.c ∧ MarkedZeros n s.c s.marks
  | .step5 _ _ => PotInv n orig s.c ∧ MarkedZeros n s.c s.marks
  | .step6 => PotInv n orig s.c ∧ MarkedZeros n s.c s.marks ∧
      (∀ p : Position, InRange n p → s.cov.is_row_covered p.row = false →
        s.cov.is_column_covered p.column = false → s.c.is_element_zero p = false)
  | .failure _ => True
  | .done => PotInv n orig s.c ∧ MarkedZeros n s.c s.marks

/-- A poisoned row: every cell of the row is currently invalid, and the
row carries no mark.  Such a row arises when Step 1 subtracts a `-∞` row
minimum (turning the row's finite cells into `+∞`); no operation ever
revalidates an invalid cell, so the row can never hold a zero, never
receives a star, and `done` with a full matching is unreachable. -/
def Poisoned (n : Nat) (s : MState) : Prop :=
  ∃ r0, r0 < n ∧ (∀ cc, cc < n → (s.c.element_at ⟨r0, cc⟩).isValid = false) ∧
    (∀ cc, cc < n → s.marks.get_mark ⟨r0, cc⟩ = .none)

def C2Inv (n : Nat) (orig : WeightMatrix) (s : MState) : Prop :=
  C2Step n orig s ∨ Doomed n s ∨ Poisoned n s

theorem bool_ne_of_eq_false {b : Bool} (h : b = false) : ¬(b = true) := by
  intro hc
  rw [h] at hc
  exact Bool.noConfusion hc

theorem bool_ne_of_eq_true {b : Bool} (h : b = true) : ¬(b = false) := by
  intro hc
  rw [h] at hc
  exact Bool.noConfusion hc

/-- Every machine transition preserves the optimality invariant (on a
solvable `NaN`-free input matrix). -/
theorem c2_step_preserves (n : Nat) (orig : WeightMatrix)
    (hnn : ∀ p : Position, InRange n p → orig.element_at p ≠ .nan)
    (hsolv : ∀ r, r < n → ∃ cc, cc < n ∧ (orig.element_at ⟨r, cc⟩).isValid = true)
    (s s' : MState) (hminv : MInv n orig s) (hinv : C2Inv n orig s)
    (h : stepOnce s = .inl s') : C2Inv n orig s' := by
  obtain ⟨st, c, mk, cov⟩ := s
  obtain ⟨hcn, hmkn, hmklen, hcovn, hcovr, hcovc, ⟨hV1, hV2⟩, hstep⟩ := hminv
  cases st with
  | step1 =>
    obtain ⟨hmk_new, hcov_new⟩ := hstep
    rw [stepOnce_step1] at h
    injection h with h'
    subst h'
    rcases hinv with hc2 | ⟨hd46, -⟩ | ⟨r0, hr0, hrowinv, hrowmk⟩
    · have hc2' : c = orig := hc2
      subst hc2'
      by_cases hgood : ∀ r, r < n →
          ((c.element_at ⟨r, 0⟩).isValid = true ∨ c.element_at ⟨r, 0⟩ = .pinf)
      · refine Or.inl ⟨fun r => (spec_valid_row_min c r).toZ, fun _ => 0, ?_⟩
        intro p hp z hz
        obtain ⟨h1, h2⟩ := sub_min_potential c (by rw [hcn]; exact hgood)
          (by rw [hcn]; exact hsolv) p (by rw [hcn]; exact hp) z hz
        constructor
        · rw [h1]
          show FVal.fin (z - (spec_valid_row_min c p.row).toZ) =
            FVal.fin (z - (spec_valid_row_min c p.row).toZ - 0)
          congr 1
          ring
        · show 0 ≤ z - (spec_valid_row_min c p.row).toZ - 0
          omega
      · push_neg at hgood
        obtain ⟨r0, hr0, hbv, hbp⟩ := hgood
        have hnn0 : c.element_at ⟨r0, 0⟩ ≠ .nan :=
          hnn ⟨r0, 0⟩ ⟨hr0, by show 0 < n; omega⟩
        have hninf : c.element_at ⟨r0, 0⟩ = .ninf := by
          cases hv0 : c.element_at ⟨r0, 0⟩ with
          | fin z => exact absurd (by rw [hv0]; rfl) hbv
          | pinf => exact absurd hv0 hbp
          | ninf => rfl
          | nan => exact absurd hv0 hnn0
        have hminninf : c.min_of_row r0 = .ninf :=
          min_of_row_ninf c r0 hninf (by rw [hcn]; omega)
        refine Or.inr (Or.inr ⟨r0, hr0, ?_, ?_⟩)
        · intro cc hcc
          have hfold : c.sub_min_of_each_row.element_at ⟨r0, cc⟩ =
              if r0 ∈ List.range c.n
              then (c.sub_row r0 (c.min_of_row r0)).element_at ⟨r0, cc⟩
              else c.element_at ⟨r0, cc⟩ :=
            sub_min_fold_element (List.range c.n) (List.nodup_range c.n) c ⟨r0, cc⟩
              (by rw [hcn]; exact hcc)
          rw [if_pos (List.mem_range.mpr (by rw [hcn]; exact hr0))] at hfold
          rw [c.element_at_sub_row r0 (c.min_of_row r0) ⟨r0, cc⟩
            (by rw [hcn]; exact hcc)] at hfold
          rw [if_pos rfl] at hfold
          rw [hminninf] at hfold
          show (c.sub_min_of_each_row.element_at ⟨r0, cc⟩).isValid = false
          rw [hfold]
          by_cases hv : (c.element_at ⟨r0, cc⟩).isValid = true
          · rw [if_pos hv]
            obtain ⟨z, hz⟩ := FVal.exists_fin_of_isValid _ hv
            rw [hz]
            rfl
          · rw [if_neg hv]
            exact Bool.eq_false_iff.mpr hv
        · intro cc hcc
          have hmk2 : mk = MarkMatrix.new n := hmk_new
          show mk.get_mark ⟨r0, cc⟩ = .none
          rw [hmk2]
          exact MarkMatrix.get_mark_new n ⟨r0, cc⟩
    · rcases hd46 with ⟨cnt, hd⟩ | hd
      · exact Step.noConfusion hd
      · exact Step.noConfusion hd
    · refine Or.inr (Or.inr ⟨r0, hr0, ?_, hrowmk⟩)
      intro cc hcc
      have hinval : (c.element_at ⟨r0, cc⟩).isValid = false := hrowinv cc hcc
      show (c.sub_min_of_each_row.element_at ⟨r0, cc⟩).isValid = false
      rw [WeightMatrix.element_at_sub_min_invalid c ⟨r0, cc⟩
        (by rw [hcn]; exact hcc) hinval]
      exact hinval
  | step2 =>
    obtain ⟨hmk_new, hcov_new⟩ := hstep
    subst hmk_new
    subst hcov_new
    rw [stepOnce_step2] at h
    injection h with h'
    subst h'
    obtain ⟨h1, h2, h3, h4, h5, h6, h7, h8⟩ := step2_post c n
    rcases hinv with hpot | ⟨hd46, -⟩ | ⟨r0, hr0, hrowinv, hrowmk⟩
    · have hpot' : PotInv n orig c := hpot
      refine Or.inl ⟨hpot', ?_⟩
      intro p hp hm
      rcases (MarkMatrix.mark_ne_none_iff _ p).mp hm with hst | hpr
      · exact h4 p hp.1 hp.2 hst
      · rw [h6 p hp.1 hp.2] at hpr
        exact absurd hpr (by simp)
    · rcases hd46 with ⟨cnt, hd⟩ | hd
      · exact Step.noConfusion hd
      · exact Step.noConfusion hd
    · refine Or.inr (Or.inr ⟨r0, hr0, hrowinv, ?_⟩)
      intro cc hcc
      cases hg : (step2 c (MarkMatrix.new n) (Coverage.new n)).1.get_mark ⟨r0, cc⟩ with
      | none => rfl
      | star =>
        exfalso
        have hst : (step2 c (MarkMatrix.new n) (Coverage.new n)).1.is_star ⟨r0, cc⟩
            = true := by
          unfold MarkMatrix.is_star
          rw [hg]
          rfl
        have hz := h4 ⟨r0, cc⟩ hr0 hcc hst
        have hval := FVal.isValid_of_isZero _ hz
        have hinval : (c.element_at ⟨r0, cc⟩).isValid = false := hrowinv cc hcc
        rw [hval] at hinval
        exact Bool.noConfusion hinval
      | prime =>
        exfalso
        have hpr : (step2 c (MarkMatrix.new n) (Coverage.new n)).1.is_prime ⟨r0, cc⟩
            = true := by
          unfold MarkMatrix.is_prime
          rw [hg]
          rfl
        rw [h6 ⟨r0, cc⟩ hr0 hcc] at hpr
        exact Bool.noConfusion hpr
  | step3 =>
    rw [stepOnce_step3] at h
    injection h with h'
    subst h'
    rcases hinv with hc2 | ⟨hd46, -⟩ | ⟨r0, hr0, hrowinv, hrowmk⟩
    · have hc2' : PotInv n orig c ∧ MarkedZeros n c mk := hc2
      have hs1 : (step3 c mk cov).1 = (MarkMatrix.star_list mk.n mk).foldl
          (fun cv p => cv.cover_column p.column) cov := by
        rw [step3_eq]
      by_cases hbig : (MarkMatrix.star_list mk.n mk).length ≥ c.n
      · have hs2 : (step3 c mk cov).2 = Step.done := by
          rw [step3_eq]
          show (if (MarkMatrix.star_list mk.n mk).length ≥ c.n then Step.done
            else Step.step4 (some (MarkMatrix.star_list mk.n mk).length)) = Step.done
          rw [if_pos hbig]
        rw [hs1, hs2]
        exact Or.inl hc2'
      · have hs2 : (step3 c mk cov).2 =
            Step.step4 (some (MarkMatrix.star_list mk.n mk).length) := by
          rw [step3_eq]
          show (if (MarkMatrix.star_list mk.n mk).length ≥ c.n then Step.done
            else Step.step4 (some (MarkMatrix.star_list mk.n mk).length)) =
            Step.step4 (some (MarkMatrix.star_list mk.n mk).length)
          rw [if_neg hbig]
        rw [hs1, hs2]
        exact Or.inl hc2'
    · rcases hd46 with ⟨cnt, hd⟩ | hd
      · exact Step.noConfusion hd
      · exact Step.noConfusion hd
    · exact Or.inr (Or.inr ⟨r0, hr0, hrowinv, hrowmk⟩)
  | step4 cnt =>
    obtain ⟨hsu, hpu, hpc, hsoc, hpuc⟩ := hstep
    rcases hinv with hc2 | ⟨hd46, hdoom⟩ | ⟨r0, hr0, hrowinv, hrowmk⟩
    · have hc2' : PotInv n orig c ∧ MarkedZeros n c mk := hc2
      obtain ⟨hpot, hmz⟩ := hc2'
      rcases step4Go_spec n c (fun p => c.is_element_zero p = true)
          (fun p _ hz => hz)
          (cov.n + 1) mk cov hmkn hmklen hcovn hcovr hcovc hsu hpu hpc hmz hsoc hpuc with
        hnone
        | ⟨mk', cov', heq, hr1, hr2, hr3, hr4, hr5, hr6, hr7, hr8, hr9, hr10, hr11, hr12⟩
        | ⟨mk', cov', zr, zc, heq, hr1, hr2, hr3, hr4, hr5, hr6, hr7, hr8, hr9, hr10, hr11, hr12⟩
      · rw [stepOnce_step4_none cnt c mk cov hnone] at h
        exact Sum.noConfusion h
      · rw [stepOnce_step4_some cnt c mk cov mk' cov' _ heq] at h
        injection h with h'
        subst h'
        exact Or.inl ⟨hpot, hr9, hr12⟩
      · rw [stepOnce_step4_some cnt c mk cov mk' cov' _ heq] at h
        injection h with h'
        subst h'
        exact Or.inl ⟨hpot, hr12⟩
    · have hfind : cov.find_uncovered_cell_column_row_order
          (fun pos => c.is_element_zero pos) = none := by
        rw [find_eq_innerFind]
        refine (outerFind_none_iff _ _ _).mpr ?_
        intro cc hcc r hr
        obtain ⟨hc1, hc2⟩ := (mem_column_ones_iff cov cc).mp hcc
        obtain ⟨hr1, hr2⟩ := (mem_row_ones_iff cov r).mp hr
        have hinval := hdoom ⟨r, cc⟩ ⟨hcovn ▸ hr1, hcovn ▸ hc1⟩ hr2 hc2
        cases hz : c.is_element_zero ⟨r, cc⟩ with
        | false => rfl
        | true =>
          have hval := FVal.isValid_of_isZero _ hz
          rw [hinval] at hval
          exact absurd hval (by simp)
      have h4eq : step4 c mk cov = some (mk, cov, .step6) := by
        show step4Go c (cov.n + 1) mk cov = _
        rw [step4Go_succ, hfind]
      rw [stepOnce_step4_some cnt c mk cov mk cov _ h4eq] at h
      injection h with h'
      subst h'
      exact Or.inr (Or.inl ⟨Or.inr rfl, hdoom⟩)
    · have hzZ : ∀ p : Position, InRange n p → c.is_element_zero p = true →
          p.row ≠ r0 := by
        intro p hp hz he
        have hval := FVal.isValid_of_isZero _ hz
        have hinval : (c.element_at ⟨r0, p.column⟩).isValid = false :=
          hrowinv p.column hp.2
        rw [← he] at hinval
        have hinval2 : (c.element_at p).isValid = false := hinval
        rw [hval] at hinval2
        exact Bool.noConfusion hinval2
      have hZ0 : ∀ p : Position, InRange n p → mk.get_mark p ≠ .none →
          p.row ≠ r0 := by
        intro p hp hm he
        have hnone : mk.get_mark ⟨r0, p.column⟩ = .none := hrowmk p.column hp.2
        rw [← he] at hnone
        have hnone2 : mk.get_mark p = .none := hnone
        exact hm hnone2
      rcases step4Go_spec n c (fun p => p.row ≠ r0) hzZ
          (cov.n + 1) mk cov hmkn hmklen hcovn hcovr hcovc hsu hpu hpc hZ0 hsoc hpuc with
        hnone
        | ⟨mk', cov', heq, hr1, hr2, hr3, hr4, hr5, hr6, hr7, hr8, hr9, hr10, hr11, hr12⟩
        | ⟨mk', cov', zr, zc, heq, hr1, hr2, hr3, hr4, hr5, hr6, hr7, hr8, hr9, hr10, hr11, hr12⟩
      · rw [stepOnce_step4_none cnt c mk cov hnone] at h
        exact Sum.noConfusion h
      · rw [stepOnce_step4_some cnt c mk cov mk' cov' _ heq] at h
        injection h with h'
        subst h'
        refine Or.inr (Or.inr ⟨r0, hr0, hrowinv, ?_⟩)
        intro cc hcc
        cases hg : mk'.get_mark ⟨r0, cc⟩ with
        | none => rfl
        | star =>
          exact absurd rfl (hr9 ⟨r0, cc⟩ ⟨hr0, hcc⟩
            (by rw [hg]; exact fun hq => Mark.noConfusion hq))
        | prime =>
          exact absurd rfl (hr9 ⟨r0, cc⟩ ⟨hr0, hcc⟩
            (by rw [hg]; exact fun hq => Mark.noConfusion hq))
      · rw [stepOnce_step4_some cnt c mk cov mk' cov' _ heq] at h
        injection h with h'
        subst h'
        refine Or.inr (Or.inr ⟨r0, hr0, hrowinv, ?_⟩)
        intro cc hcc
        cases hg : mk'.get_mark ⟨r0, cc⟩ with
        | none => rfl
        | star =>
          exact absurd rfl (hr12 ⟨r0, cc⟩ ⟨hr0, hcc⟩
            (by rw [hg]; exact fun hq => Mark.noConfusion hq))
        | prime =>
          exact absurd rfl (hr12 ⟨r0, cc⟩ ⟨hr0, hcc⟩
            (by rw [hg]; exact fun hq => Mark.noConfusion hq))
  | step5 zr zc =>
    obtain ⟨hsu, hpu, hz0p, hzr, hzc, hnostar⟩ := hstep
    rcases step5_spec n mk cov ⟨zr, zc⟩ hmkn hmklen hsu hpu hz0p hzr hzc hnostar with
      hnone | hfail | ⟨mk', heq, hr1, hr2, hr3, hr4, hsub⟩
    · rw [stepOnce_step5_none zr zc c mk cov hnone] at h
      exact Sum.noConfusion h
    · rw [stepOnce_step5_some zr zc c mk cov mk cov _ hfail] at h
      injection h with h'
      subst h'
      exact Or.inl trivial
    · rw [stepOnce_step5_some zr zc c mk cov mk' cov.clear _ heq] at h
      injection h with h'
      subst h'
      rcases hinv with hc2 | ⟨hd46, -⟩ | ⟨r0, hr0, hrowinv, hrowmk⟩
      · have hc2' : PotInv n orig c ∧ MarkedZeros n c mk := hc2
        obtain ⟨hpot, hmz⟩ := hc2'
        refine Or.inl ⟨hpot, ?_⟩
        intro p hp hm
        rcases (MarkMatrix.mark_ne_none_iff _ p).mp hm with hst | hpr
        · rcases hsub p hp hst with h' | h'
          · exact hmz p hp ((MarkMatrix.mark_ne_none_iff _ p).mpr (Or.inl h'))
          · exact hmz p hp ((MarkMatrix.mark_ne_none_iff _ p).mpr (Or.inr h'))
        · exact absurd hpr (hr4 p hp)
      · rcases hd46 with ⟨cnt, hd⟩ | hd
        · exact Step.noConfusion hd
        · exact Step.noConfusion hd
      · refine Or.inr (Or.inr ⟨r0, hr0, hrowinv, ?_⟩)
        intro cc hcc
        cases hg : mk'.get_mark ⟨r0, cc⟩ with
        | none => rfl
        | star =>
          exfalso
          have hst : mk'.is_star ⟨r0, cc⟩ = true := by
            unfold MarkMatrix.is_star
            rw [hg]
            rfl
          rcases hsub ⟨r0, cc⟩ ⟨hr0, hcc⟩ hst with hold | hold
          · have hn0 : mk.get_mark ⟨r0, cc⟩ = .none := hrowmk cc hcc
            unfold MarkMatrix.is_star at hold
            rw [hn0] at hold
            exact absurd hold (by decide)
          · have hn0 : mk.get_mark ⟨r0, cc⟩ = .none := hrowmk cc hcc
            unfold MarkMatrix.is_prime at hold
            rw [hn0] at hold
            exact absurd hold (by decide)
        | prime =>
          exfalso
          have hpr : mk'.is_prime ⟨r0, cc⟩ = true := by
            unfold MarkMatrix.is_prime
            rw [hg]
            rfl
          exact absurd hpr (hr4 ⟨r0, cc⟩ ⟨hr0, hcc⟩)
  | step6 =>
    obtain ⟨hsu, hpu, hpc, hsoc, hpuc⟩ := hstep
    cases hmin : step6Min c cov with
    | none =>
      have h6 : step6 c cov = none := by
        unfold step6
        rw [hmin]
      rw [stepOnce_step6_none c mk cov h6] at h
      exact Sum.noConfusion h
    | some minval =>
      rw [stepOnce_step6_some c mk cov _ _ (step6_eq c cov minval hmin)] at h
      injection h with h'
      subst h'
      rcases hinv with ⟨hpot0, hmz, hnuz⟩ | ⟨hd46, hdoom⟩ | ⟨r0, hr0, hrowinv, hrowmk⟩
      · obtain ⟨u, v, hpot⟩ := hpot0
        have hcurnn : ∀ p : Position, InRange n p → c.element_at p ≠ .nan := by
          intro p hp
          cases hov : (orig.element_at p).isValid with
          | true =>
            obtain ⟨z, hz⟩ := FVal.exists_fin_of_isValid _ hov
            rw [(hpot p hp z hz).1]
            exact fun hcon => FVal.noConfusion hcon
          | false =>
            rw [hV1 p hp hov]
            exact hnn p hp
        have hunc_in : ∀ p ∈ cov.uncovered_list, InRange n p := by
          intro p hp
          obtain ⟨h1, h2, -, -⟩ := (mem_uncovered_list_iff cov p).mp hp
          exact ⟨hcovn ▸ h1, hcovn ▸ h2⟩
        rcases step6Min_spec2 c cov minval
            (fun p hp => hcurnn p (hunc_in p hp)) hmin with
          hvinv | ⟨d, hvd, ⟨q0, hq0mem, hq0v⟩, hlb⟩
        · -- invalid minimum (`±∞`): every uncovered cell becomes invalid,
          -- entering the absorbing Doomed region
          refine Or.inr (Or.inl ⟨Or.inl ⟨.none, rfl⟩, ?_⟩)
          intro p hp hru hcu
          have hel := step6_folds_element c cov minval p (by rw [hcn]; exact hp.1)
            (by rw [hcn]; exact hp.2) (c.element_at p)
            (by rw [if_neg (bool_ne_of_eq_false hru)])
          rw [hel, if_pos hcu]
          by_cases hv : (c.element_at p).isValid = true
          · rw [if_pos hv]
            exact FVal.sub_invalid_right _ _ hv hvinv
          · rw [if_neg hv]
            exact Bool.eq_false_iff.mpr hv
        · subst hvd
          have hq0in : InRange n q0 := hunc_in q0 hq0mem
          have hd0 : 0 ≤ d := by
            cases hov : (orig.element_at q0).isValid with
            | true =>
              obtain ⟨z0, hz0⟩ := FVal.exists_fin_of_isValid _ hov
              obtain ⟨he, hge⟩ := hpot q0 hq0in z0 hz0
              rw [he] at hq0v
              injection hq0v with hv'
              omega
            | false =>
              have heq := hV1 q0 hq0in hov
              rw [heq] at hq0v
              rw [hq0v] at hov
              exact Bool.noConfusion hov
          have hlb' : ∀ p : Position, InRange n p →
              cov.is_row_covered p.row = false →
              cov.is_column_covered p.column = false →
              ∀ z : ℤ, c.element_at p = .fin z → d ≤ z := by
            intro p hp hru hcu z hz
            exact hlb p ((mem_uncovered_list_iff cov p).mpr
              ⟨by rw [hcovn]; exact hp.1, by rw [hcovn]; exact hp.2, hru, hcu⟩) z hz
          refine Or.inl ⟨⟨fun r => if cov.is_row_covered r = true then u r - d else u r,
            fun cl => if cov.is_column_covered cl = true then v cl else v cl + d, ?_⟩, ?_⟩
          · intro p hp z hz
            obtain ⟨he, hge⟩ := hpot p hp z hz
            simp only []
            by_cases hrc : cov.is_row_covered p.row = true
            · have hel := step6_folds_element c cov (.fin d) p (by rw [hcn]; exact hp.1)
                (by rw [hcn]; exact hp.2) ((c.element_at p).add (.fin d))
                (by rw [if_pos hrc, he,
                  if_pos (show (FVal.fin (z - u p.row - v p.column)).isValid = true from rfl)])
              by_cases hcc : cov.is_column_covered p.column = true
              · rw [hel, if_neg (bool_ne_of_eq_true hcc)]
                rw [he, if_pos hrc, if_pos hcc]
                constructor
                · show FVal.fin (z - u p.row - v p.column + d) = _
                  congr 1
                  ring
                · omega
              · have hccf : cov.is_column_covered p.column = false :=
                  Bool.eq_false_iff.mpr hcc
                rw [hel, if_pos hccf]
                rw [he, if_pos hrc, if_neg hcc]
                constructor
                · show (if (FVal.fin (z - u p.row - v p.column + d)).isValid = true
                      then (FVal.fin (z - u p.row - v p.column + d)).sub (.fin d)
                      else FVal.fin (z - u p.row - v p.column + d)) = _
                  rw [if_pos (show (FVal.fin (z - u p.row - v p.column + d)).isValid = true
                    from rfl)]
                  show FVal.fin (z - u p.row - v p.column + d - d) = _
                  congr 1
                  ring
                · omega
            · have hruf : cov.is_row_covered p.row = false := Bool.eq_false_iff.mpr hrc
              have hel := step6_folds_element c cov (.fin d) p (by rw [hcn]; exact hp.1)
                (by rw [hcn]; exact hp.2) (c.element_at p)
                (by rw [if_neg hrc])
              by_cases hcc : cov.is_column_covered p.column = true
              · rw [hel, if_neg (bool_ne_of_eq_true hcc)]
                rw [he, if_neg hrc, if_pos hcc]
                exact ⟨rfl, hge⟩
              · have hccf : cov.is_column_covered p.column = false :=
                  Bool.eq_false_iff.mpr hcc
                have hdle := hlb' p hp hruf hccf (z - u p.row - v p.column) he
                rw [hel, if_pos hccf, he]
                rw [if_pos (show (FVal.fin (z - u p.row - v p.column)).isValid = true
                  from rfl)]
                rw [if_neg hrc, if_neg hcc]
                constructor
                · show FVal.fin (z - u p.row - v p.column - d) = _
                  congr 1
                  ring
                · omega
          · intro p hp hm
            have hz0 := hmz p hp hm
            have hzel : c.element_at p = .fin 0 := FVal.eq_fin_zero_of_isZero _ hz0
            rcases (MarkMatrix.mark_ne_none_iff _ p).mp hm with hst | hpr
            · by_cases hrc : cov.is_row_covered p.row = true
              · have hccf : cov.is_column_covered p.column = false := by
                  by_cases hcc : cov.is_column_covered p.column = true
                  · have := (hsoc p hp hst).mpr hcc
                    rw [hrc] at this
                    exact absurd this (by simp)
                  · exact Bool.eq_false_iff.mpr hcc
                have hel := step6_folds_element c cov (.fin d) p
                  (by rw [hcn]; exact hp.1) (by rw [hcn]; exact hp.2)
                  ((c.element_at p).add (.fin d))
                  (by rw [if_pos hrc, hzel,
                    if_pos (show (FVal.fin 0).isValid = true from rfl)])
                unfold WeightMatrix.is_element_zero
                rw [hel, if_pos hccf, hzel]
                rw [if_pos (show ((FVal.fin 0).add (.fin d)).isValid = true from rfl)]
                show (FVal.fin (0 + d - d)).isZero = true
                have : (0 : ℤ) + d - d = 0 := by ring
                rw [this]
                rfl
              · have hruf : cov.is_row_covered p.row = false := Bool.eq_false_iff.mpr hrc
                have hcc : cov.is_column_covered p.column = true := (hsoc p hp hst).mp hruf
                have hel := step6_folds_element c cov (.fin d) p
                  (by rw [hcn]; exact hp.1) (by rw [hcn]; exact hp.2)
                  (c.element_at p) (by rw [if_neg hrc])
                unfold WeightMatrix.is_element_zero
                rw [hel, if_neg (bool_ne_of_eq_true hcc), hzel]
                rfl
            · have hrc : cov.is_row_covered p.row = true := hpc p hp hpr
              have hccf : cov.is_column_covered p.column = false := hpuc p hp hpr
              have hel := step6_folds_element c cov (.fin d) p
                (by rw [hcn]; exact hp.1) (by rw [hcn]; exact hp.2)
                ((c.element_at p).add (.fin d))
                (by rw [if_pos hrc, hzel,
                  if_pos (show (FVal.fin 0).isValid = true from rfl)])
              unfold WeightMatrix.is_element_zero
              rw [hel, if_pos hccf, hzel]
              rw [if_pos (show ((FVal.fin 0).add (.fin d)).isValid = true from rfl)]
              show (FVal.fin (0 + d - d)).isZero = true
              have : (0 : ℤ) + d - d = 0 := by ring
              rw [this]
              rfl
      · refine Or.inr (Or.inl ⟨Or.inl ⟨.none, rfl⟩, ?_⟩)
        intro p hp hru hcu
        have hinval := hdoom p hp hru hcu
        have hel := step6_folds_element c cov minval p (by rw [hcn]; exact hp.1)
          (by rw [hcn]; exact hp.2) (c.element_at p)
          (by rw [if_neg (bool_ne_of_eq_false hru)])
        rw [hel, if_pos hcu, if_neg (bool_ne_of_eq_false hinval)]
        exact hinval
      · refine Or.inr (Or.inr ⟨r0, hr0, ?_, hrowmk⟩)
        intro cc hcc
        have hinval : (c.element_at ⟨r0, cc⟩).isValid = false := hrowinv cc hcc
        rw [step6_folds_invalid c cov minval ⟨r0, cc⟩ (by rw [hcn]; exact hcc) hinval]
        exact hinval
  | failure e =>
    rw [stepOnce_failure] at h
    exact Sum.noConfusion h
  | done =>
    rw [stepOnce_done] at h
    by_cases hl : (MarkMatrix.star_list c.n mk).length = c.n
    · rw [if_pos hl] at h
      exact Sum.noConfusion h
    · rw [if_neg hl] at h
      exact Sum.noConfusion h

/-- An `ok` exit of the loop under the optimality invariant yields
feasible potentials that are tight on the matching. -/
theorem solveLoop_ok_c2 (n : Nat) (orig : WeightMatrix)
    (hnn : ∀ p : Position, InRange n p → orig.element_at p ≠ .nan)
    (hsolv : ∀ r, r < n → ∃ cc, cc < n ∧ (orig.element_at ⟨r, cc⟩).isValid = true) :
    ∀ (fuel : Nat) (s : MState) (matching : List Position) (cfin : WeightMatrix),
      MInv n orig s → C2Inv n orig s →
      solveLoop fuel s = (.ok matching, cfin) →
      ∃ u v : Nat → ℤ,
        (∀ p : Position, InRange n p → ∀ z : ℤ, orig.element_at p = .fin z →
          u p.row + v p.column ≤ z) ∧
        (∀ p ∈ matching, ∀ z : ℤ, orig.element_at p = .fin z →
          z = u p.row + v p.column) := by
  intro fuel
  induction fuel with
  | zero =>
    intro s matching cfin _ _ hrun
    injection hrun with h1 _
    exact Outcome.noConfusion h1
  | succ fuel ih =>
    intro s matching cfin hminv hc2 hrun
    rw [solveLoop_succ] at hrun
    cases hso : stepOnce s with
    | inl s' =>
      rw [hso] at hrun
      exact ih s' matching cfin (stepOnce_preserves n orig s s' hminv hso)
        (c2_step_preserves n orig hnn hsolv s s' hminv hc2 hso) hrun
    | inr o =>
      rw [hso] at hrun
      injection hrun with h1 h2
      subst h1
      obtain ⟨st, c, mk, cov⟩ := s
      obtain ⟨hcn, hmkn, hmklen, hcovn, hcovr, hcovc, ⟨hV1, hV2⟩, hstep⟩ := hminv
      cases st with
      | step1 =>
        rw [stepOnce_step1] at hso
        exact Sum.noConfusion hso
      | step2 =>
        rw [stepOnce_step2] at hso
        exact Sum.noConfusion hso
      | step3 =>
        rw [stepOnce_step3] at hso
        exact Sum.noConfusion hso
      | step4 cnt =>
        cases h4 : step4 c mk cov with
        | none =>
          rw [stepOnce_step4_none cnt c mk cov h4] at hso
          injection hso with h'
          exact Outcome.noConfusion h'
        | some x =>
          rw [stepOnce_step4_some cnt c mk cov x.1 x.2.1 x.2.2 (by rw [h4])] at hso
          exact Sum.noConfusion hso
      | step5 zr zc =>
        cases h5 : step5 mk cov ⟨zr, zc⟩ with
        | none =>
          rw [stepOnce_step5_none zr zc c mk cov h5] at hso
          injection hso with h'
          exact Outcome.noConfusion h'
        | some x =>
          rw [stepOnce_step5_some zr zc c mk cov x.1 x.2.1 x.2.2 (by rw [h5])] at hso
          exact Sum.noConfusion hso
      | step6 =>
        cases h6 : step6 c cov with
        | none =>
          rw [stepOnce_step6_none c mk cov h6] at hso
          injection hso with h'
          exact Outcome.noConfusion h'
        | some x =>
          rw [stepOnce_step6_some c mk cov x.1 x.2 (by rw [h6])] at hso
          exact Sum.noConfusion hso
      | failure e =>
        rw [stepOnce_failure] at hso
        injection hso with h'
        exact Outcome.noConfusion h'
      | done =>
        rw [stepOnce_done] at hso
        by_cases hl : (MarkMatrix.star_list c.n mk).length = c.n
        · rw [if_pos hl] at hso
          injection hso with h'
          injection h' with h''
          have hcnl : MarkMatrix.star_list c.n mk = MarkMatrix.star_list n mk := by
            rw [hcn]
          rw [hcnl] at h''
          subst h''
          rcases hc2 with hc2' | ⟨hd, -⟩ | ⟨r0, hr0, hrowinv, hrowmk⟩
          · have hc2'' : PotInv n orig c ∧ MarkedZeros n c mk := hc2'
            obtain ⟨⟨u, v, hpot⟩, hmz⟩ := hc2''
            refine ⟨u, v, ?_, ?_⟩
            · intro p hp z hz
              have := (hpot p hp z hz).2
              omega
            · intro p hpmem z hz
              obtain ⟨hp1, hp2, hp3⟩ := (MarkMatrix.mem_star_list_iff n mk p).mp hpmem
              have hpin : InRange n p := ⟨hp1, hp2⟩
              have hmarked : mk.get_mark p ≠ .none :=
                (MarkMatrix.mark_ne_none_iff mk p).mpr (Or.inl hp3)
              have hzel := FVal.eq_fin_zero_of_isZero _ (hmz p hpin hmarked)
              obtain ⟨he, -⟩ := hpot p hpin z hz
              rw [hzel] at he
              injection he with he'
              omega
          · rcases hd with ⟨cnt, hd'⟩ | hd'
            · exact Step.noConfusion hd'
            · exact Step.noConfusion hd'
          · -- a poisoned row holds no star, yet a full star list covers
            -- every row: contradiction
            exfalso
            have hsu : StarsUnique n mk := hstep
            have hlen2 : (MarkMatrix.star_list n mk).length = n := by
              rw [← hcnl, hl, hcn]
            have hnd := MarkMatrix.star_list_nodup n mk
            have hrownd : ((MarkMatrix.star_list n mk).map Position.row).Nodup := by
              refine List.Nodup.map_on ?_ hnd
              intro x hx y hy hxy
              obtain ⟨hx1, hx2, hx3⟩ := (MarkMatrix.mem_star_list_iff n mk x).mp hx
              obtain ⟨hy1, hy2, hy3⟩ := (MarkMatrix.mem_star_list_iff n mk y).mp hy
              exact hsu x y ⟨hx1, hx2⟩ ⟨hy1, hy2⟩ hx3 hy3 (Or.inl hxy)
            have hrowlt : ∀ x ∈ (MarkMatrix.star_list n mk).map Position.row,
                x < n := by
              intro x hx
              obtain ⟨p, hp, hpx⟩ := List.mem_map.mp hx
              rw [← hpx]
              exact ((MarkMatrix.mem_star_list_iff n mk p).mp hp).1
            have hrowlen : ((MarkMatrix.star_list n mk).map Position.row).length
                = n := by
              rw [List.length_map]
              exact hlen2
            have hr0mem : r0 ∈ (MarkMatrix.star_list n mk).map Position.row :=
              mem_of_nodup_full _ n hrownd hrowlt hrowlen r0 hr0
            obtain ⟨p, hpmem, hpr⟩ := List.mem_map.mp hr0mem
            obtain ⟨hp1, hp2, hp3⟩ := (MarkMatrix.mem_star_list_iff n mk p).mp hpmem
            have hmk0 : mk.get_mark ⟨r0, p.column⟩ = .none := hrowmk p.column hp2
            rw [← hpr] at hmk0
            have hmk1 : mk.get_mark p = .none := hmk0
            unfold MarkMatrix.is_star at hp3
            rw [hmk1] at hp3
            exact absurd hp3 (by decide)
        · rw [if_neg hl] at hso
          injection hso with h'
          exact Outcome.noConfusion h'

/-- Lower bound on any valid permutation's cost from feasible potentials. -/
theorem cost_ge_potential (m : WeightMatrix) (n : Nat) (u v : Nat → ℤ)
    (l : List Position)
    (hrows : List.Perm (l.map Position.row) (List.range n))
    (hcols : List.Perm (l.map Position.column) (List.range n))
    (hvalid : ∀ p ∈ l, (m.element_at p).isValid = true)
    (hub : ∀ p : Position, InRange n p → ∀ z : ℤ, m.element_at p = .fin z →
      u p.row + v p.column ≤ z) :
    ((List.range n).map u).sum + ((List.range n).map v).sum ≤ matchingCostZ m l := by
  have hsum1 : ((l.map Position.row).map u).sum = ((List.range n).map u).sum :=
    List.Perm.sum_eq (hrows.map u)
  have hsum2 : ((l.map Position.column).map v).sum = ((List.range n).map v).sum :=
    List.Perm.sum_eq (hcols.map v)
  have hmm : (l.map (fun p => u p.row + v p.column)).sum
      = ((l.map Position.row).map u).sum + ((l.map Position.column).map v).sum := by
    rw [List.map_map, List.map_map]
    exact list_sum_map_add l (fun p => u p.row) (fun p => v p.column)
  have hle : (l.map (fun p => u p.row + v p.column)).sum ≤
      (l.map (fun p => (m.element_at p).toZ)).sum := by
    refine List.sum_le_sum ?_
    intro p hp
    have hpr : p.row < n := by
      have : p.row ∈ List.range n := hrows.mem_iff.mp (List.mem_map_of_mem _ hp)
      exact List.mem_range.mp this
    have hpc : p.column < n := by
      have : p.column ∈ List.range n := hcols.mem_iff.mp (List.mem_map_of_mem _ hp)
      exact List.mem_range.mp this
    obtain ⟨z, hz⟩ := FVal.exists_fin_of_isValid _ (hvalid p hp)
    show u p.row + v p.column ≤ (m.element_at p).toZ
    rw [hz]
    show u p.row + v p.column ≤ z
    exact hub p ⟨hpr, hpc⟩ z hz
  calc ((List.range n).map u).sum + ((List.range n).map v).sum
      = (l.map (fun p => u p.row + v p.column)).sum := by rw [hmm, hsum1, hsum2]
    _ ≤ matchingCostZ m l := hle

/-- The matching's cost equals the potentials' total when they are tight
on it. -/
theorem cost_eq_potential (m : WeightMatrix) (n : Nat) (u v : Nat → ℤ)
    (l : List Position)
    (hrows : List.Perm (l.map Position.row) (List.range n))
    (hcols : List.Perm (l.map Position.column) (List.range n))
    (hvalid : ∀ p ∈ l, (m.element_at p).isValid = true)
    (htight : ∀ p ∈ l, ∀ z : ℤ, m.element_at p = .fin z →
      z = u p.row + v p.column) :
    matchingCostZ m l = ((List.range n).map u).sum + ((List.range n).map v).sum := by
  have hsum1 : ((l.map Position.row).map u).sum = ((List.range n).map u).sum :=
    List.Perm.sum_eq (hrows.map u)
  have hsum2 : ((l.map Position.column).map v).sum = ((List.range n).map v).sum :=
    List.Perm.sum_eq (hcols.map v)
  have hmm : (l.map (fun p => u p.row + v p.column)).sum
      = ((l.map Position.row).map u).sum + ((l.map Position.column).map v).sum := by
    rw [List.map_map, List.map_map]
    exact list_sum_map_add l (fun p => u p.row) (fun p => v p.column)
  have hmapeq : l.map (fun p => (m.element_at p).toZ)
      = l.map (fun p => u p.row + v p.column) := by
    refine List.map_congr_left ?_
    intro p hp
    obtain ⟨z, hz⟩ := FVal.exists_fin_of_isValid _ (hvalid p hp)
    show (m.element_at p).toZ = u p.row + v p.column
    rw [hz]
    show z = u p.row + v p.column
    exact htight p hp z hz
  show (l.map (fun p => (m.element_at p).toZ)).sum = _
  rw [hmapeq, hmm, hsum1, hsum2]

/-- C2 (amended): on a matrix with no `NaN` cell (`+∞` and `-∞` cells are
allowed), a matching returned with `Ok` has minimal total original cost
among all row-to-column permutations that use only valid cells.  (The
unrestricted claim is false: see the `NaN` counterexample.) -/
theorem C2_solve_assignment_optimal_amended (fuel : Nat) (weights : WeightMatrix)
    (matching : List Position) (cfin : WeightMatrix)
    (hnn : ∀ p : Position, InRange weights.n p → weights.element_at p ≠ .nan)
    (hok : solve_assignment fuel weights = (.ok matching, cfin))
    (ps : List Position)
    (hrows : List.Perm (ps.map Position.row) (List.range weights.n))
    (hcols : List.Perm (ps.map Position.column) (List.range weights.n))
    (hvalid : ∀ p ∈ ps, (weights.element_at p).isValid = true) :
    matchingCostZ weights matching ≤ matchingCostZ weights ps := by
  obtain ⟨hlen, hmemf, hrowc, hcolc, hmrows, hmcols⟩ :=
    solve_assignment_ok_spec fuel weights matching cfin hok
  unfold solve_assignment at hok
  cases hsol : weights.is_solvable with
  | false =>
    rw [hsol] at hok
    rw [if_pos (by decide)] at hok
    injection hok with h1 h2
    exact Outcome.noConfusion h1
  | true =>
    rw [hsol] at hok
    rw [if_neg (by decide)] at hok
    by_cases hn0 : weights.n = 0
    · rw [if_pos hn0] at hok
      injection hok with h1 h2
      exact Outcome.noConfusion h1
    · rw [if_neg hn0] at hok
      have hsolv : ∀ r, r < weights.n → ∃ cc, cc < weights.n ∧
          (weights.element_at ⟨r, cc⟩).isValid = true := by
        intro r hr
        unfold WeightMatrix.is_solvable at hsol
        have h1 := List.all_eq_true.mp hsol r (List.mem_range.mpr hr)
        rw [Bool.not_eq_true'] at h1
        obtain ⟨cc, hcc, hval⟩ := List.all_eq_false.mp h1
        refine ⟨cc, List.mem_range.mp hcc, ?_⟩
        cases hv : (weights.element_at ⟨r, cc⟩).isValid with
        | true => rfl
        | false =>
          exfalso
          apply hval
          show (!(weights.element_at ⟨r, cc⟩).isValid) = true
          rw [hv]
          rfl
      have hinit : MInv weights.n weights
          ⟨.step1, weights, MarkMatrix.new weights.n, Coverage.new weights.n⟩ := by
        refine ⟨rfl, rfl, MarkMatrix.length_new _, rfl, Coverage.rows_length_new _,
          Coverage.cols_length_new _, ⟨?_, ?_⟩, rfl, rfl⟩
        · intro p _ _
          rfl
        · intro p _ hm
          exact absurd (MarkMatrix.get_mark_new weights.n p) hm
      have hc2init : C2Inv weights.n weights
          ⟨.step1, weights, MarkMatrix.new weights.n, Coverage.new weights.n⟩ :=
        Or.inl rfl
      obtain ⟨u, v, hub, htight⟩ := solveLoop_ok_c2 weights.n weights hnn hsolv
        fuel _ matching cfin hinit hc2init hok
      have hmvalid : ∀ p ∈ matching, (weights.element_at p).isValid = true :=
        fun p hp => (hmemf p hp).2
      rw [cost_eq_potential weights weights.n u v matching hmrows hmcols hmvalid
        (fun p hp z hz => htight p hp z hz)]
      exact cost_ge_potential weights weights.n u v ps hrows hcols hvalid hub

/-- Witness for the amended C2 at the 1×1 zero matrix: the returned
matching `[(0,0)]` costs no more than the (only) permutation `[(0,0)]`. -/
theorem C2_solve_assignment_optimal_amended_witness :
    matchingCostZ ⟨1, [.fin 0]⟩ [⟨0, 0⟩] ≤ matchingCostZ ⟨1, [.fin 0]⟩ [⟨0, 0⟩] :=
  C2_solve_assignment_optimal_amended 10 ⟨1, [.fin 0]⟩ [⟨0, 0⟩] ⟨1, [.fin 0]⟩
    (by
      rintro ⟨r, c⟩ ⟨h1, h2⟩
      have h1' : r < 1 := h1
      have h2' : c < 1 := h2
      interval_cases r
      interval_cases c
      decide)
    (by decide) [⟨0, 0⟩] (by decide) (by decide) (by decide)

end Munkres


